import Mathlib

/-!
# Verification of the Bio.PDB Entity hierarchy core

This file gives a shallow embedding of `Bio/PDB/Entity.py` (the `Entity`
container class and the `DisorderedEntityWrapper` class) and proves
properties of the embedded operations.

The Python object graph is modelled as a heap: a list of node records
indexed by natural-number addresses.  Object attributes become record
fields; attribute mutation becomes functional heap update; `raise`
becomes `Except`.  Python recursions over the object graph
(`_reset_full_id`, `copy`, `transform`, the `center_of_mass` work queue)
are modelled with an explicit fuel parameter; for the well-formed heaps
the theorems quantify over, the canonical fuel `heapFuel h = h.length + 1`
is sufficient and the fuel bound is never reached.

Numeric atom data (coordinates, masses) is modelled over `ℚ`:
the claims under study are about the exact arithmetic of the source
(`np.average` computes a weighted mean), not about float rounding.
-/

namespace Entity

/-- Identifiers of PDB hierarchy nodes: strings (structure ids, chain ids,
atom names), integers (model ids) and the residue 3-tuple
(hetero flag, sequence number, insertion code). -/
inductive EId where
  | s (v : String)
  | n (v : Int)
  | t (het : String) (seq : Int) (icode : String)
deriving DecidableEq, Repr

instance : Inhabited EId := ⟨.n 0⟩

/-- Hierarchy levels: atom, residue, chain, model, structure
(`Entity.get_level`). -/
inductive Level where
  | A | R | C | M | S
deriving DecidableEq, Repr

/-- Python exception kinds raised by the embedded code.
`duplicateId` is the `PDBConstructionException` of `Entity.add`;
`keyError`, `valueError`, `typeError`, `indexError`, `zeroDivision`
are the built-in exceptions; `unselected` stands for the failure of
forwarding through a `DisorderedEntityWrapper` whose `selected_child`
is still `None`; `fuel` marks fuel exhaustion of the embedding (it
corresponds to a Python infinite loop and is unreachable on the
well-formed heaps the theorems quantify over). -/
inductive PyErr where
  | duplicateId
  | keyError
  | valueError
  | typeError
  | indexError
  | zeroDivision
  | unselected
  | fuel
deriving DecidableEq, Repr

/-- Exact 3-vector of atom coordinates. -/
abbrev Vec3 := ℚ × ℚ × ℚ

/-- Heap addresses (Python object identities). -/
abbrev Addr := Nat

/-- A node record: the attributes of an `Entity` instance
(`_id`, `level`, `parent`, `child_list`, `child_dict`, `full_id`, `xtra`)
plus the leaf attributes of an `Atom` (`coord`, `mass`) and the extra
attributes of a `DisorderedEntityWrapper` (`isWrapper`, `selected`).
For plain entities `isWrapper = false` and `selected = none`; for
wrappers `child_dict` holds the alternatives and `selected` the
currently selected child. -/
structure NodeRec where
  eid : EId
  level : Level
  parent : Option Addr
  childList : List Addr
  childDict : List (EId × Addr)
  fullId : Option (List EId)
  xtra : List (String × Int)
  coord : Vec3
  mass : ℚ
  isWrapper : Bool
  selected : Option Addr
deriving DecidableEq, Repr

/-- The object heap. -/
abbrev Heap := List NodeRec

/-- Heap lookup. -/
def hget (h : Heap) (a : Addr) : Option NodeRec := h.get? a

/-- Heap update (no-op outside the allocated range, which never happens
in the operations below). -/
def hset (h : Heap) (a : Addr) (r : NodeRec) : Heap := h.set a r

/-- Canonical fuel: one more than the number of allocated nodes; an
acyclic parent chain can visit each node at most once. -/
def heapFuel (h : Heap) : Nat := h.length + 1

/-! ## Python `dict` operations on association lists

Python dictionaries preserve insertion order; assignment to an existing
key replaces the value in place, assignment to a fresh key appends, and
`del` removes the entry (raising `KeyError` when absent). -/

/-- `d[k]` as an option. -/
def dictGet (d : List (EId × Addr)) (k : EId) : Option Addr :=
  (d.find? (fun e => e.1 == k)).map (·.2)

/-- `k in d`. -/
def dictHas (d : List (EId × Addr)) (k : EId) : Bool :=
  (dictGet d k).isSome

/-- `d[k] = v`. -/
def dictPut (d : List (EId × Addr)) (k : EId) (v : Addr) : List (EId × Addr) :=
  if dictHas d k then d.map (fun e => if e.1 = k then (k, v) else e)
  else d ++ [(k, v)]

/-- `del d[k]`; `none` models the `KeyError` on an absent key. -/
def dictDel (d : List (EId × Addr)) (k : EId) : Option (List (EId × Addr)) :=
  if dictHas d k then some (d.filter (fun e => !(e.1 == k))) else none

/-- The key list of a dict, in insertion order. -/
def dictKeys (d : List (EId × Addr)) : List EId := d.map (·.1)

/-! ## Parent walks and `_generate_full_id`

`Entity._generate_full_id` collects the entity id and the ids of all
ancestors by walking `parent` references, then reverses the collected
list.  The walk is modelled with fuel; `walkEnds` records whether the
walk reaches a parentless node within the given fuel. -/

/-- The id parts collected by `_generate_full_id` before the final
`reverse`: own id first, then the ids of the ancestors bottom-up. -/
def fullIdParts (h : Heap) : Nat → Addr → List EId
  | 0, _ => []
  | fuel + 1, a =>
    match hget h a with
    | none => []
    | some r =>
      r.eid :: (match r.parent with
        | none => []
        | some p => fullIdParts h fuel p)

/-- The addresses visited by the parent walk, starting at `a`. -/
def chainA (h : Heap) : Nat → Addr → List Addr
  | 0, _ => []
  | fuel + 1, a =>
    match hget h a with
    | none => []
    | some r =>
      a :: (match r.parent with
        | none => []
        | some p => chainA h fuel p)

/-- Whether the parent walk from `a` terminates within the given fuel. -/
def walkEnds (h : Heap) : Nat → Addr → Bool
  | 0, _ => false
  | fuel + 1, a =>
    match hget h a with
    | none => true
    | some r =>
      match r.parent with
      | none => true
      | some p => walkEnds h fuel p

/-- `Entity._generate_full_id`: walk parent references to the root,
collect the ids, reverse.  (The source builds a tuple; here a list.) -/
def generateFullId (h : Heap) (a : Addr) : List EId :=
  (fullIdParts h (heapFuel h) a).reverse

/-- The parent walk from `a` terminates within the canonical fuel. -/
def Grounded (h : Heap) (a : Addr) : Prop :=
  walkEnds h (heapFuel h) a = true

instance (h : Heap) (a : Addr) : Decidable (Grounded h a) := by
  unfold Grounded; infer_instance

/-! ## Subtree traversal and `_reset_full_id`

`Entity._reset_full_id` first recurses into every child (skipping
atoms, which do not cache their full ids — the `AttributeError` branch),
then overwrites its own `full_id` with a freshly generated value.
Note: the source *recomputes* the cache eagerly; it does not merely
clear it. -/

/-- The addresses whose `full_id` attribute `_reset_full_id` rewrites:
the non-atom nodes reachable from `a` through `child_list` edges. -/
def entSub (h : Heap) : Nat → Addr → List Addr
  | 0, _ => []
  | fuel + 1, a =>
    match hget h a with
    | none => []
    | some r =>
      if r.level = .A then []
      else a :: r.childList.flatMap (entSub h fuel)

/-- Replace the `full_id` field of the record at `a`. -/
def putFullId (h : Heap) (a : Addr) (v : Option (List EId)) : Heap :=
  match hget h a with
  | none => h
  | some r => hset h a { r with fullId := v }

/-- `Entity._reset_full_id`: recurse into the children (atoms are
skipped), then regenerate the own cache. -/
def resetFullId : Nat → Heap → Addr → Heap
  | 0, h, _ => h
  | fuel + 1, h, a =>
    match hget h a with
    | none => h
    | some r =>
      if r.level = .A then h
      else
        let h1 := r.childList.foldl (fun hh c => resetFullId fuel hh c) h
        putFullId h1 a (some (generateFullId h1 a))

/-! ## The public `Entity` operations -/

/-- `Entity.get_full_id`: return the cached `full_id`; when it is
`None`, generate it, store it, and return it.  The returned pair is
(result, heap after the call). -/
def getFullId (h : Heap) (a : Addr) : Option (List EId × Heap) :=
  match hget h a with
  | none => none
  | some r =>
    match r.fullId with
    | some v => some (v, h)
    | none =>
      let v := generateFullId h a
      some (v, hset h a { r with fullId := some v })

/-- `Entity.set_parent`: store the parent reference, then
`_reset_full_id` (which eagerly recomputes the caches of the whole
subtree). -/
def setParentE (h : Heap) (a : Addr) (p : Addr) : Heap :=
  match hget h a with
  | none => h
  | some r => resetFullId (heapFuel h) (hset h a { r with parent := some p }) a

/-- `Entity.detach_parent`: clear the parent reference.  The cached
`full_id` is *not* touched. -/
def detachParentE (h : Heap) (a : Addr) : Heap :=
  match hget h a with
  | none => h
  | some r => hset h a { r with parent := none }

/-- `Entity.add`: duplicate-id check against `child_dict` first, then
`set_parent`, then append to `child_list` and insert into `child_dict`.
On the duplicate branch nothing has been mutated yet, so the error
carries no heap. -/
def addE (h : Heap) (p c : Addr) : Except PyErr Heap :=
  match hget h p, hget h c with
  | some rp, some rc =>
    if dictHas rp.childDict rc.eid then .error .duplicateId
    else
      let h2 := setParentE h c p
      match hget h2 p with
      | some rp2 =>
        .ok (hset h2 p { rp2 with
          childList := rp2.childList ++ [c],
          childDict := dictPut rp2.childDict rc.eid c })
      | none => .error .keyError
  | _, _ => .error .keyError

/-- Python list slice insertion `xs[pos:pos] = [c]` for a possibly
negative position, with Python clamping. -/
def sliceIns (xs : List Addr) (pos : Int) (c : Addr) : List Addr :=
  let i : Nat := if pos < 0 then (xs.length - (-pos).toNat) else min pos.toNat xs.length
  xs.take i ++ c :: xs.drop i

/-- `Entity.insert`: like `add`, with a positional splice into
`child_list`. -/
def insertE (h : Heap) (p : Addr) (pos : Int) (c : Addr) : Except PyErr Heap :=
  match hget h p, hget h c with
  | some rp, some rc =>
    if dictHas rp.childDict rc.eid then .error .duplicateId
    else
      let h2 := setParentE h c p
      match hget h2 p with
      | some rp2 =>
        .ok (hset h2 p { rp2 with
          childList := sliceIns rp2.childList pos c,
          childDict := dictPut rp2.childDict rc.eid c })
      | none => .error .keyError
  | _, _ => .error .keyError

/-! ## Comparison operators

`Entity.__eq__` and friends: `isinstance(other, type(self))` becomes a
level comparison (each concrete level is its own class); a failed
`isinstance` makes the rich comparison return `NotImplemented`, after
which Python falls back to identity for `==`/`!=` and raises
`TypeError` for an ordering.  A node with a parent compares
`self.full_id[1:]` — the *cached* tuple — against `other.full_id[1:]`;
if either cache is `None`, Python raises `TypeError`
(`None` is not subscriptable).  `DisorderedEntityWrapper` does not
define `__eq__`, so two wrappers compare by identity. -/

/-- Comparison of two ids as Python `<` would order them inside a full
id tuple: comparable when of the same shape, `TypeError` otherwise. -/
def eidCmp (x y : EId) : Option Ordering :=
  match x, y with
  | .s a, .s b => some (compare a b)
  | .n a, .n b => some (compare a b)
  | .t h1 s1 i1, .t h2 s2 i2 =>
    some (if h1 = h2 then (if s1 = s2 then compare i1 i2 else compare s1 s2)
          else compare h1 h2)
  | _, _ => none

/-- Python tuple comparison on id lists: skip equal heads (Python `==`,
which is total), order the first differing pair (raising `TypeError`
when the pair is incomparable), shorter tuple first on a proper
leading overlap. -/
def listCmp : List EId → List EId → Except PyErr Ordering
  | [], [] => .ok .eq
  | [], _ :: _ => .ok .lt
  | _ :: _, [] => .ok .gt
  | x :: xs, y :: ys =>
    if x = y then listCmp xs ys
    else match eidCmp x y with
      | some o => .ok o
      | none => .error .typeError

/-- `Entity.__eq__` (with the `NotImplemented` fallback to identity). -/
def pyEqB (h : Heap) (a b : Addr) : Except PyErr Bool :=
  match hget h a, hget h b with
  | some ra, some rb =>
    if ra.isWrapper || rb.isWrapper then .ok (decide (a = b))
    else if ra.level = rb.level then
      match ra.parent with
      | none => .ok (decide (ra.eid = rb.eid))
      | some _ =>
        match ra.fullId, rb.fullId with
        | some la, some lb => .ok (decide (la.tail = lb.tail))
        | _, _ => .error .typeError
    else .ok (decide (a = b))
  | _, _ => .error .typeError

/-- `Entity.__lt__`, `__le__`, `__gt__`, `__ge__`, sharing the branch
structure of the source; `which` selects the operator. -/
def pyCmpB (h : Heap) (a b : Addr) (which : Ordering → Bool) : Except PyErr Bool :=
  match hget h a, hget h b with
  | some ra, some rb =>
    if ra.isWrapper || rb.isWrapper then .error .typeError
    else if ra.level = rb.level then
      match ra.parent with
      | none =>
        match eidCmp ra.eid rb.eid with
        | some o => .ok (which o)
        | none => .error .typeError
      | some _ =>
        match ra.fullId, rb.fullId with
        | some la, some lb => (listCmp la.tail lb.tail).map which
        | _, _ => .error .typeError
    else .error .typeError
  | _, _ => .error .typeError

/-- `a < b`. -/
def pyLtB (h : Heap) (a b : Addr) : Except PyErr Bool :=
  pyCmpB h a b (fun o => o = .lt)

/-- `a > b`. -/
def pyGtB (h : Heap) (a b : Addr) : Except PyErr Bool :=
  pyCmpB h a b (fun o => o = .gt)

/-! ## `detach_child` and the id setter -/

/-- `child_list.remove(child)`: drop the first element that compares
equal (`__eq__`) to `child`; `ValueError` when no element matches. -/
def listRemoveEq (h : Heap) : List Addr → Addr → Except PyErr (List Addr)
  | [], _ => .error .valueError
  | b :: rest, c => do
    if (← pyEqB h b c) then pure rest
    else (fun l => b :: l) <$> listRemoveEq h rest c

/-- `Entity.detach_child`: look the child up in `child_dict`
(`KeyError` when absent), `detach_parent` it, delete the dict entry,
and `list.remove` it from `child_list`.  The removal compares with
`__eq__` in the heap where the child is already detached, exactly as
the source does. -/
def detachChildE (h : Heap) (p : Addr) (cid : EId) : Except PyErr Heap :=
  match hget h p with
  | none => .error .keyError
  | some rp =>
    match dictGet rp.childDict cid with
    | none => .error .keyError
    | some c =>
      let h1 := detachParentE h c
      match dictDel rp.childDict cid with
      | none => .error .keyError
      | some d1 =>
        match hget h1 p with
        | none => .error .keyError
        | some rp1 => do
          let l1 ← listRemoveEq h1 rp1.childList c
          pure (hset h1 p { rp1 with childDict := d1, childList := l1 })

/-- The `Entity.id` property setter: no-op when the id is unchanged;
otherwise re-key the parent `child_dict` (only *warning* on a collision
with an existing sibling id — the boolean in the result records whether
the warning fired), update the own `_id`, and `_reset_full_id`. -/
def setIdE (h : Heap) (a : Addr) (v : EId) : Except PyErr (Heap × Bool) :=
  match hget h a with
  | none => .error .keyError
  | some r =>
    if v = r.eid then .ok (h, false)
    else
      match r.parent with
      | none =>
        let h2 := hset h a { r with eid := v }
        .ok (resetFullId (heapFuel h2) h2 a, false)
      | some p =>
        match hget h p with
        | none => .error .keyError
        | some rp =>
          let warn := dictHas rp.childDict v
          match dictDel rp.childDict r.eid with
          | none => .error .keyError
          | some d1 =>
            let h1 := hset h p { rp with childDict := dictPut d1 v a }
            match hget h1 a with
            | none => .error .keyError
            | some r1 =>
              let h2 := hset h1 a { r1 with eid := v }
              .ok (resetFullId (heapFuel h2) h2 a, warn)

end Entity

namespace Entity

/-! ## Geometry: `transform` and `center_of_mass` -/

/-- A 3x3 rotation matrix over `ℚ`. -/
structure Mat3 where
  a11 : ℚ
  a12 : ℚ
  a13 : ℚ
  a21 : ℚ
  a22 : ℚ
  a23 : ℚ
  a31 : ℚ
  a32 : ℚ
  a33 : ℚ
deriving DecidableEq, Repr

/-- Componentwise vector sum. -/
def vadd (x y : Vec3) : Vec3 := (x.1 + y.1, x.2.1 + y.2.1, x.2.2 + y.2.2)

/-- Scalar multiple. -/
def vsmul (q : ℚ) (x : Vec3) : Vec3 := (q * x.1, q * x.2.1, q * x.2.2)

/-- Sum of a list of vectors. -/
def vsum (l : List Vec3) : Vec3 := l.foldr vadd (0, 0, 0)

/-- `np.dot(coord, rot)`: a row vector right-multiplied by a matrix. -/
def rowMul (v : Vec3) (m : Mat3) : Vec3 :=
  (v.1 * m.a11 + v.2.1 * m.a21 + v.2.2 * m.a31,
   v.1 * m.a12 + v.2.1 * m.a22 + v.2.2 * m.a32,
   v.1 * m.a13 + v.2.1 * m.a23 + v.2.2 * m.a33)

/-- `Entity.transform`: recurse over `get_list()` down to the leaves.
At an atom the transform mutates the coordinate in place
(modelled from the spec: `Atom.transform` — `Bio/PDB/Atom.py` is not
among the sources — applies `coord = np.dot(coord, rot) + tran`, the
rigid-body transform the spec describes).  A disordered wrapper
forwards the uncaught `transform` call to its selected child. -/
def transformE : Nat → Heap → Addr → Mat3 → Vec3 → Except PyErr Heap
  | 0, _, _, _, _ => .error .fuel
  | fuel + 1, h, a, rot, tran =>
    match hget h a with
    | none => .error .keyError
    | some r =>
      if r.isWrapper then
        match r.selected with
        | none => .error .unselected
        | some s => transformE fuel h s rot tran
      else if r.level = .A then
        .ok (hset h a { r with coord := vadd (rowMul r.coord rot) tran })
      else
        r.childList.foldlM (fun hh c => transformE fuel hh c rot tran) h

/-- The addresses `transform` visits below `a` (its leaf atoms, with
disordered wrappers resolved to their selected child). -/
def tsub : Nat → Heap → Addr → List Addr
  | 0, _, _ => []
  | fuel + 1, h, a =>
    match hget h a with
    | none => []
    | some r =>
      if r.isWrapper then
        match r.selected with
        | none => []
        | some s => tsub fuel h s
      else if r.level = .A then [a]
      else r.childList.flatMap (tsub fuel h)

/-- Modelled from the spec: `get_unpacked_list` of `Chain` and
`Residue` (`Bio/PDB/Chain.py` and `Bio/PDB/Residue.py` are not among
the sources).  Per the spec, at the levels that support disorder the
expansion descends through the currently selected alternative of any
disordered child rather than iterating the raw children. -/
def unpackedList (h : Heap) (a : Addr) : Except PyErr (List Addr) :=
  match hget h a with
  | none => .error .keyError
  | some r =>
    r.childList.mapM (fun c =>
      match hget h c with
      | none => .error .keyError
      | some rc =>
        if rc.isWrapper then
          match rc.selected with
          | none => .error .unselected
          | some s => .ok s
        else .ok c)

/-- The level of the record at an address. -/
def levelD (h : Heap) (a : Addr) : Option Level := (hget h a).map (·.level)

/-- `{e.level for e in q} == {"A"}`: the queue is nonempty and every
element is atom-level. -/
def allAtoms (h : Heap) (q : List Addr) : Bool :=
  !q.isEmpty && q.all (fun x => levelD h x == some Level.A)

/-- The breadth-first expansion loop of `Entity.center_of_mass`:
pop the front of the deque, extend with `get_unpacked_list()` at
residue/chain level and with `child_list` elsewhere, stop once the
queue holds only atoms.  Popping an empty deque raises `IndexError`
(the source loop has no emptiness guard). -/
def comLoop : Nat → Heap → List Addr → Except PyErr (List Addr)
  | 0, _, _ => .error .fuel
  | fuel + 1, h, q =>
    match q with
    | [] => .error .indexError
    | e :: rest => do
      let exp ← (match hget h e with
        | none => .error .keyError
        | some r =>
          if r.level = .R ∨ r.level = .C then unpackedList h e
          else .ok r.childList)
      let q1 := rest ++ exp
      if allAtoms h q1 then .ok q1 else comLoop fuel h q1

/-- Coordinate of the record at an address. -/
def coordD (h : Heap) (a : Addr) : Vec3 := ((hget h a).map (·.coord)).getD (0, 0, 0)

/-- Mass of the record at an address. -/
def massD (h : Heap) (a : Addr) : ℚ := ((hget h a).map (·.mass)).getD 0

/-- `Entity.center_of_mass`: `ValueError` when there are no children,
otherwise run the expansion loop and return `np.average` of the atom
coordinates — the mass-weighted mean, or the plain mean when
`geometric` (`np.average` raises `ZeroDivisionError` when the weights
sum to zero). -/
def centerOfMass (h : Heap) (a : Addr) (geometric : Bool) : Except PyErr Vec3 :=
  match hget h a with
  | none => .error .keyError
  | some r =>
    if r.childList.length = 0 then .error .valueError
    else do
      let atoms ← comLoop (heapFuel h) h [a]
      let coords := atoms.map (coordD h)
      if geometric then
        if atoms.length = 0 then .error .zeroDivision
        else .ok (vsmul (1 / (atoms.length : ℚ)) (vsum coords))
      else
        let ms := atoms.map (massD h)
        if ms.sum = 0 then .error .zeroDivision
        else .ok (vsmul (1 / ms.sum) (vsum (List.zipWith vsmul ms coords)))

/-! ## `copy` and `strictly_equals` -/

/-- `Entity.copy`: shallow-copy the record (which keeps the cached
`full_id` and the coordinates), clear `child_list` and `child_dict`,
value-copy `xtra`, `detach_parent`, then `add` a recursive copy of
every child.  The fresh object is allocated at the end of the heap. -/
def copyE : Nat → Heap → Addr → Except PyErr (Heap × Addr)
  | 0, _, _ => .error .fuel
  | fuel + 1, h, a =>
    match hget h a with
    | none => .error .keyError
    | some r =>
      let na := h.length
      let h1 := h ++ [{ r with childList := [], childDict := [], parent := none }]
      (r.childList.foldlM (fun hh c => do
        let pr ← copyE fuel hh c
        addE pr.1 na pr.2) h1).map (fun hf => (hf, na))

/-- `Entity.strictly_equals`: same concrete class, same id, same child
count, and children pairwise strictly equal in order.  At atom level
the comparison is modelled from the spec: `Atom.strictly_equals`
(`Bio/PDB/Atom.py` is not among the sources) compares the atom id and,
when `compareCoordinates` is set, the coordinates.  Strict equality of
two disordered wrappers is `DisorderedEntityWrapper.strictly_equals`,
which no claim needs; the embedding rejects that case. -/
def strictlyEquals : Nat → Heap → Addr → Addr → Bool → Except PyErr Bool
  | 0, _, _, _, _ => .error .fuel
  | fuel + 1, h, a, b, cc =>
    match hget h a, hget h b with
    | some ra, some rb =>
      if ra.isWrapper && rb.isWrapper then .error .typeError
      else if ra.isWrapper != rb.isWrapper then .ok false
      else if ra.level ≠ rb.level then .ok false
      else if ra.level = .A then
        .ok (decide (ra.eid = rb.eid) && (!cc || decide (ra.coord = rb.coord)))
      else if ra.eid ≠ rb.eid then .ok false
      else if ra.childList.length ≠ rb.childList.length then .ok false
      else
        (ra.childList.zip rb.childList).foldlM
          (fun acc pr =>
            if acc then strictlyEquals fuel h pr.1 pr.2 cc else pure false)
          true
    | _, _ => .error .typeError

/-! ## The pure shape of a subtree

`extract4` reads the fields `strictly_equals` inspects (id, level,
coordinate) together with the child structure into a pure tree; it is
the bridge between the heap-threaded `copy` and the comparison
theorems. -/

/-- Pure subtree shape: id, level, coordinate, children in order. -/
inductive PTree where
  | node (eid : EId) (lvl : Level) (coord : Vec3) (children : List PTree)
deriving Repr

/-- Ids of the roots of a forest. -/
def ptreeIds (ts : List PTree) : List EId :=
  ts.map (fun t => match t with | .node e _ _ _ => e)

/-- Every node of the tree has children with pairwise distinct ids. -/
def ptreeNodup : PTree → Bool
  | .node _ _ _ cs =>
    decide (ptreeIds cs).Nodup &&
      cs.attach.all (fun c => ptreeNodup c.1)
decreasing_by
  have := List.sizeOf_lt_of_mem c.2
  simp only [PTree.node.sizeOf_spec]
  omega

/-- Read the subtree at `a` as a pure tree; `none` when the subtree
contains a wrapper, an atom with children, a dangling address, or is
deeper than the fuel. -/
def extract4 : Nat → Heap → Addr → Option PTree
  | 0, _, _ => none
  | fuel + 1, h, a =>
    match hget h a with
    | none => none
    | some r =>
      if r.isWrapper then none
      else if r.level = .A then
        if r.childList.isEmpty then some (.node r.eid .A r.coord []) else none
      else
        (r.childList.mapM (extract4 fuel h)).map (.node r.eid r.level r.coord)

/-! ## `DisorderedEntityWrapper` operations -/

/-- `DisorderedEntityWrapper.disordered_select`: `KeyError` when the
key is absent from the alternatives (in which case the selection is
untouched — the lookup happens before the assignment), otherwise store
the alternative as `selected_child`. -/
def wSelect (h : Heap) (w : Addr) (k : EId) : Except PyErr Heap :=
  match hget h w with
  | none => .error .keyError
  | some r =>
    match dictGet r.childDict k with
    | none => .error .keyError
    | some c => .ok (hset h w { r with selected := some c })

/-- `Entity.__len__`. -/
def entityLen (h : Heap) (a : Addr) : Except PyErr Nat :=
  match hget h a with
  | none => .error .keyError
  | some r => .ok r.childList.length

/-- `Entity.__getitem__`: `child_dict[id]`. -/
def entityItem (h : Heap) (a : Addr) (k : EId) : Except PyErr Addr :=
  match hget h a with
  | none => .error .keyError
  | some r =>
    match dictGet r.childDict k with
    | none => .error .keyError
    | some c => .ok c

/-- `Entity.__contains__`. -/
def entityHas (h : Heap) (a : Addr) (k : EId) : Except PyErr Bool :=
  match hget h a with
  | none => .error .keyError
  | some r => .ok (dictHas r.childDict k)

/-- `Entity.__iter__` (the children, in order). -/
def entityIter (h : Heap) (a : Addr) : Except PyErr (List Addr) :=
  match hget h a with
  | none => .error .keyError
  | some r => .ok r.childList

/-- `DisorderedEntityWrapper.__len__`: `len(self.selected_child)`;
before any selection `selected_child` is `None` and the call fails. -/
def wLen (h : Heap) (w : Addr) : Except PyErr Nat :=
  match hget h w with
  | none => .error .keyError
  | some r =>
    match r.selected with
    | none => .error .unselected
    | some s => entityLen h s

/-- `DisorderedEntityWrapper.__getitem__`: `self.selected_child[id]`. -/
def wItem (h : Heap) (w : Addr) (k : EId) : Except PyErr Addr :=
  match hget h w with
  | none => .error .keyError
  | some r =>
    match r.selected with
    | none => .error .unselected
    | some s => entityItem h s k

/-- `DisorderedEntityWrapper.__contains__`. -/
def wHas (h : Heap) (w : Addr) (k : EId) : Except PyErr Bool :=
  match hget h w with
  | none => .error .keyError
  | some r =>
    match r.selected with
    | none => .error .unselected
    | some s => entityHas h s k

/-- `DisorderedEntityWrapper.__iter__`. -/
def wIter (h : Heap) (w : Addr) : Except PyErr (List Addr) :=
  match hget h w with
  | none => .error .keyError
  | some r =>
    match r.selected with
    | none => .error .unselected
    | some s => entityIter h s

/-- `DisorderedEntityWrapper.__lt__`: `self.selected_child < other`. -/
def wLt (h : Heap) (w b : Addr) : Except PyErr Bool :=
  match hget h w with
  | none => .error .keyError
  | some r =>
    match r.selected with
    | none => .error .unselected
    | some s => pyLtB h s b

/-- `DisorderedEntityWrapper.__gt__`: `self.selected_child > other`. -/
def wGt (h : Heap) (w b : Addr) : Except PyErr Bool :=
  match hget h w with
  | none => .error .keyError
  | some r =>
    match r.selected with
    | none => .error .unselected
    | some s => pyGtB h s b

end Entity

namespace Entity

/-! ## Heap access lemmas -/

theorem hget_some_lt {h : Heap} {a : Addr} {r : NodeRec} (hr : hget h a = some r) :
    a < h.length := by
  by_contra hc
  push_neg at hc
  rw [hget, List.get?_eq_none.mpr hc] at hr
  exact Option.noConfusion hr

theorem hget_none_of_le {h : Heap} {a : Addr} (ha : h.length ≤ a) : hget h a = none :=
  List.get?_eq_none.mpr ha

theorem length_hset (h : Heap) (a : Addr) (r : NodeRec) :
    (hset h a r).length = h.length := List.length_set h a r

theorem heapFuel_hset (h : Heap) (a : Addr) (r : NodeRec) :
    heapFuel (hset h a r) = heapFuel h := by
  simp [heapFuel, length_hset]

theorem hget_hset_self {h : Heap} {a : Addr} (r : NodeRec) (ha : a < h.length) :
    hget (hset h a r) a = some r := List.get?_set_eq_of_lt r ha

theorem hget_hset_ne {h : Heap} {a b : Addr} (r : NodeRec) (hne : b ≠ a) :
    hget (hset h a r) b = hget h b := by
  rw [hget, hset, List.get?_set_ne r h (fun e => hne e.symm)]
  rfl

theorem hget_putFullId_ne {h : Heap} {a b : Addr} {v : Option (List EId)}
    (hne : b ≠ a) : hget (putFullId h a v) b = hget h b := by
  unfold putFullId
  cases hr : hget h a with
  | none => rfl
  | some r => exact hget_hset_ne _ hne

theorem length_putFullId (h : Heap) (a : Addr) (v : Option (List EId)) :
    (putFullId h a v).length = h.length := by
  unfold putFullId
  cases hget h a with
  | none => rfl
  | some r => exact length_hset _ _ _

theorem hget_putFullId_self {h : Heap} {a : Addr} {r : NodeRec} {v : Option (List EId)}
    (hr : hget h a = some r) :
    hget (putFullId h a v) a = some { r with fullId := v } := by
  unfold putFullId
  rw [hr]
  exact hget_hset_self _ (hget_some_lt hr)

end Entity

namespace Entity

/-! ## Unfolding lemmas for the fuel recursions -/

theorem walkEnds_succ_miss {h : Heap} {a : Addr} {fuel : Nat} (hr : hget h a = none) :
    walkEnds h (fuel + 1) a = true := by
  simp [walkEnds, hr]

theorem walkEnds_succ_root {h : Heap} {a : Addr} {r : NodeRec} {fuel : Nat}
    (hr : hget h a = some r) (hp : r.parent = none) :
    walkEnds h (fuel + 1) a = true := by
  simp [walkEnds, hr, hp]

theorem walkEnds_succ_step {h : Heap} {a p : Addr} {r : NodeRec} {fuel : Nat}
    (hr : hget h a = some r) (hp : r.parent = some p) :
    walkEnds h (fuel + 1) a = walkEnds h fuel p := by
  simp [walkEnds, hr, hp]

theorem walkEnds_zero {h : Heap} {a : Addr} : walkEnds h 0 a = false := rfl

theorem chainA_succ_miss {h : Heap} {a : Addr} {fuel : Nat} (hr : hget h a = none) :
    chainA h (fuel + 1) a = [] := by
  simp [chainA, hr]

theorem chainA_succ_root {h : Heap} {a : Addr} {r : NodeRec} {fuel : Nat}
    (hr : hget h a = some r) (hp : r.parent = none) :
    chainA h (fuel + 1) a = [a] := by
  simp [chainA, hr, hp]

theorem chainA_succ_step {h : Heap} {a p : Addr} {r : NodeRec} {fuel : Nat}
    (hr : hget h a = some r) (hp : r.parent = some p) :
    chainA h (fuel + 1) a = a :: chainA h fuel p := by
  simp [chainA, hr, hp]

theorem chainA_zero {h : Heap} {a : Addr} : chainA h 0 a = [] := rfl

theorem fullIdParts_succ_miss {h : Heap} {a : Addr} {fuel : Nat} (hr : hget h a = none) :
    fullIdParts h (fuel + 1) a = [] := by
  simp [fullIdParts, hr]

theorem fullIdParts_succ_root {h : Heap} {a : Addr} {r : NodeRec} {fuel : Nat}
    (hr : hget h a = some r) (hp : r.parent = none) :
    fullIdParts h (fuel + 1) a = [r.eid] := by
  simp [fullIdParts, hr, hp]

theorem fullIdParts_succ_step {h : Heap} {a p : Addr} {r : NodeRec} {fuel : Nat}
    (hr : hget h a = some r) (hp : r.parent = some p) :
    fullIdParts h (fuel + 1) a = r.eid :: fullIdParts h fuel p := by
  simp [fullIdParts, hr, hp]

theorem entSub_succ_miss {h : Heap} {a : Addr} {fuel : Nat} (hr : hget h a = none) :
    entSub h (fuel + 1) a = [] := by
  simp [entSub, hr]

theorem entSub_succ_atom {h : Heap} {a : Addr} {r : NodeRec} {fuel : Nat}
    (hr : hget h a = some r) (hl : r.level = .A) :
    entSub h (fuel + 1) a = [] := by
  simp [entSub, hr, hl]

theorem entSub_succ_node {h : Heap} {a : Addr} {r : NodeRec} {fuel : Nat}
    (hr : hget h a = some r) (hl : r.level ≠ .A) :
    entSub h (fuel + 1) a = a :: r.childList.flatMap (entSub h fuel) := by
  simp [entSub, hr, hl]

theorem entSub_zero {h : Heap} {a : Addr} : entSub h 0 a = [] := rfl

theorem resetFullId_succ_miss {h : Heap} {a : Addr} {fuel : Nat} (hr : hget h a = none) :
    resetFullId (fuel + 1) h a = h := by
  simp [resetFullId, hr]

theorem resetFullId_succ_atom {h : Heap} {a : Addr} {r : NodeRec} {fuel : Nat}
    (hr : hget h a = some r) (hl : r.level = .A) :
    resetFullId (fuel + 1) h a = h := by
  simp [resetFullId, hr, hl]

theorem resetFullId_succ_node {h : Heap} {a : Addr} {r : NodeRec} {fuel : Nat}
    (hr : hget h a = some r) (hl : r.level ≠ .A) :
    resetFullId (fuel + 1) h a =
      putFullId (r.childList.foldl (fun hh c => resetFullId fuel hh c) h) a
        (some (generateFullId
          (r.childList.foldl (fun hh c => resetFullId fuel hh c) h) a)) := by
  simp [resetFullId, hr, hl]

theorem resetFullId_zero {h : Heap} {a : Addr} : resetFullId 0 h a = h := rfl

/-! ## Parent-walk lemmas -/

/-- The id stored at an address (junk default outside the heap). -/
def eidD (h : Heap) (x : Addr) : EId := ((hget h x).map NodeRec.eid).getD default

theorem fullIdParts_eq_map (h : Heap) (fuel : Nat) : ∀ a,
    fullIdParts h fuel a = (chainA h fuel a).map (eidD h) := by
  induction fuel with
  | zero => intro a; rfl
  | succ fuel ih =>
    intro a
    cases hr : hget h a with
    | none => rw [fullIdParts_succ_miss hr, chainA_succ_miss hr]; rfl
    | some r =>
      cases hp : r.parent with
      | none =>
        rw [fullIdParts_succ_root hr hp, chainA_succ_root hr hp]
        simp [eidD, hr]
      | some p =>
        rw [fullIdParts_succ_step hr hp, chainA_succ_step hr hp]
        simp [eidD, hr, ih p]

theorem walkEnds_mono {h : Heap} {fuel m : Nat} (hm : fuel ≤ m) :
    ∀ {a}, walkEnds h fuel a = true → walkEnds h m a = true := by
  induction fuel generalizing m with
  | zero => intro a hw; exact absurd hw (by simp [walkEnds])
  | succ fuel ih =>
    intro a hw
    obtain ⟨m', rfl⟩ : ∃ m', m = m' + 1 := ⟨m - 1, by omega⟩
    cases hr : hget h a with
    | none => exact walkEnds_succ_miss hr
    | some r =>
      cases hp : r.parent with
      | none => exact walkEnds_succ_root hr hp
      | some p =>
        rw [walkEnds_succ_step hr hp] at hw ⊢
        exact ih (by omega) hw

theorem chainA_stable {h : Heap} {fuel m : Nat} (hm : fuel ≤ m) :
    ∀ {a}, walkEnds h fuel a = true → chainA h m a = chainA h fuel a := by
  induction fuel generalizing m with
  | zero => intro a hw; exact absurd hw (by simp [walkEnds])
  | succ fuel ih =>
    intro a hw
    obtain ⟨m', rfl⟩ : ∃ m', m = m' + 1 := ⟨m - 1, by omega⟩
    cases hr : hget h a with
    | none => rw [chainA_succ_miss hr, chainA_succ_miss hr]
    | some r =>
      cases hp : r.parent with
      | none => rw [chainA_succ_root hr hp, chainA_succ_root hr hp]
      | some p =>
        rw [walkEnds_succ_step hr hp] at hw
        rw [chainA_succ_step hr hp, chainA_succ_step hr hp, ih (by omega) hw]

theorem fullIdParts_stable {h : Heap} {fuel m : Nat} {a : Addr} (hm : fuel ≤ m)
    (hw : walkEnds h fuel a = true) : fullIdParts h m a = fullIdParts h fuel a := by
  rw [fullIdParts_eq_map, fullIdParts_eq_map, chainA_stable hm hw]

theorem chain_valid {h : Heap} {fuel : Nat} : ∀ {a b}, b ∈ chainA h fuel a →
    ∃ r, hget h b = some r := by
  induction fuel with
  | zero => intro a b hb; exact absurd hb (by simp [chainA])
  | succ fuel ih =>
    intro a b hb
    cases hr : hget h a with
    | none => rw [chainA_succ_miss hr] at hb; exact absurd hb (by simp)
    | some r =>
      cases hp : r.parent with
      | none =>
        rw [chainA_succ_root hr hp] at hb
        rw [List.mem_singleton.mp hb]
        exact ⟨r, hr⟩
      | some p =>
        rw [chainA_succ_step hr hp] at hb
        rcases List.mem_cons.mp hb with rfl | hb'
        · exact ⟨r, hr⟩
        · exact ih hb'

theorem mem_chainA_self {h : Heap} {a : Addr} {r : NodeRec} {fuel : Nat}
    (hr : hget h a = some r) (hf : 0 < fuel) : a ∈ chainA h fuel a := by
  obtain ⟨fuel', rfl⟩ : ∃ f, fuel = f + 1 := ⟨fuel - 1, by omega⟩
  cases hp : r.parent with
  | none => rw [chainA_succ_root hr hp]; exact List.mem_singleton_self a
  | some p => rw [chainA_succ_step hr hp]; exact List.mem_cons_self a _

theorem walkEnds_of_mem_chain {h : Heap} {fuel : Nat} :
    ∀ {a b}, walkEnds h fuel a = true → b ∈ chainA h fuel a →
    walkEnds h fuel b = true := by
  induction fuel with
  | zero => intro a b _ hb; exact absurd hb (by simp [chainA])
  | succ fuel ih =>
    intro a b hw hb
    cases hr : hget h a with
    | none => rw [chainA_succ_miss hr] at hb; exact absurd hb (by simp)
    | some r =>
      cases hp : r.parent with
      | none =>
        rw [chainA_succ_root hr hp] at hb
        rw [List.mem_singleton.mp hb]
        exact hw
      | some p =>
        rw [chainA_succ_step hr hp] at hb
        rcases List.mem_cons.mp hb with rfl | hb'
        · exact hw
        · rw [walkEnds_succ_step hr hp] at hw
          exact walkEnds_mono (Nat.le_succ fuel) (ih hw hb')

theorem chain_suffix {h : Heap} {fuel : Nat} :
    ∀ {a b}, walkEnds h fuel a = true → b ∈ chainA h fuel a →
    chainA h fuel b <:+ chainA h fuel a := by
  induction fuel with
  | zero => intro a b _ hb; exact absurd hb (by simp [chainA])
  | succ fuel ih =>
    intro a b hw hb
    cases hr : hget h a with
    | none => rw [chainA_succ_miss hr] at hb; exact absurd hb (by simp)
    | some r =>
      cases hp : r.parent with
      | none =>
        rw [chainA_succ_root hr hp] at hb
        rw [List.mem_singleton.mp hb]
      | some p =>
        rw [chainA_succ_step hr hp] at hb
        rcases List.mem_cons.mp hb with rfl | hb'
        · exact List.suffix_refl _
        · rw [walkEnds_succ_step hr hp] at hw
          have hsb : chainA h fuel b <:+ chainA h fuel p := ih hw hb'
          have hwb : walkEnds h fuel b = true := walkEnds_of_mem_chain hw hb'
          rw [chainA_stable (Nat.le_succ fuel) hwb, chainA_succ_step hr hp]
          exact hsb.trans (List.suffix_cons a _)

end Entity

namespace Entity

/-! ## Counting: a duplicate-free chain fits in the canonical fuel -/

theorem chain_length_le {h : Heap} {fuel : Nat} {a : Addr}
    (hnd : (chainA h fuel a).Nodup) : (chainA h fuel a).length ≤ h.length := by
  have hsub : chainA h fuel a ⊆ List.range h.length := by
    intro x hx
    obtain ⟨r, hr⟩ := chain_valid hx
    exact List.mem_range.mpr (hget_some_lt hr)
  simpa using (hnd.subperm hsub).length_le

theorem walkEnds_of_short {h : Heap} {fuel : Nat} :
    ∀ {a}, walkEnds h fuel a = true →
    walkEnds h ((chainA h fuel a).length + 1) a = true := by
  induction fuel with
  | zero => intro a hw; exact absurd hw (by simp [walkEnds])
  | succ fuel ih =>
    intro a hw
    cases hr : hget h a with
    | none => rw [chainA_succ_miss hr]; exact walkEnds_succ_miss hr
    | some r =>
      cases hp : r.parent with
      | none => rw [chainA_succ_root hr hp]; exact walkEnds_succ_root hr hp
      | some p =>
        rw [walkEnds_succ_step hr hp] at hw
        rw [chainA_succ_step hr hp]
        have : (a :: chainA h fuel p).length + 1 = (chainA h fuel p).length + 1 + 1 := by
          simp
        rw [this, walkEnds_succ_step hr hp]
        exact ih hw

/-- A walk that ends with a duplicate-free chain ends within the
canonical fuel. -/
theorem grounded_of_ends_nodup {h : Heap} {fuel : Nat} {a : Addr}
    (hw : walkEnds h fuel a = true) (hnd : (chainA h fuel a).Nodup) :
    Grounded h a := by
  unfold Grounded heapFuel
  exact walkEnds_mono (by have := chain_length_le hnd; omega) (walkEnds_of_short hw)

/-! ## Skeleton frame lemmas

The parent walk reads only the `eid` and `parent` fields along the
chain; two heaps that agree there produce identical walks. -/

/-- The two heaps agree at `x` on existence, id and parent. -/
def skelAt (h h2 : Heap) (x : Addr) : Prop :=
  match hget h x, hget h2 x with
  | none, none => True
  | some r, some r2 => r.eid = r2.eid ∧ r.parent = r2.parent
  | _, _ => False

theorem skelAt_none {h h2 : Heap} {x : Addr} (hsk : skelAt h h2 x)
    (hr : hget h x = none) : hget h2 x = none := by
  unfold skelAt at hsk
  rw [hr] at hsk
  cases hx : hget h2 x with
  | none => rfl
  | some r2 => rw [hx] at hsk; exact absurd hsk not_false

theorem skelAt_some {h h2 : Heap} {x : Addr} {r : NodeRec} (hsk : skelAt h h2 x)
    (hr : hget h x = some r) :
    ∃ r2, hget h2 x = some r2 ∧ r.eid = r2.eid ∧ r.parent = r2.parent := by
  unfold skelAt at hsk
  rw [hr] at hsk
  cases hx : hget h2 x with
  | none => rw [hx] at hsk; exact absurd hsk not_false
  | some r2 => rw [hx] at hsk; exact ⟨r2, rfl, hsk⟩

theorem chain_frame {h h2 : Heap} (hlen : h.length = h2.length) {fuel : Nat} :
    ∀ {a}, (∀ x ∈ a :: chainA h fuel a, skelAt h h2 x) →
    chainA h2 fuel a = chainA h fuel a ∧ walkEnds h2 fuel a = walkEnds h fuel a := by
  induction fuel with
  | zero => intro a _; exact ⟨rfl, rfl⟩
  | succ fuel ih =>
    intro a hag
    have haga : skelAt h h2 a := hag a (List.mem_cons_self a _)
    cases hr : hget h a with
    | none =>
      have hr2 : hget h2 a = none := skelAt_none haga hr
      rw [chainA_succ_miss hr, chainA_succ_miss hr2,
        walkEnds_succ_miss hr, walkEnds_succ_miss hr2]
      exact ⟨rfl, rfl⟩
    | some r =>
      obtain ⟨r2, hr2, heid, hpar⟩ := skelAt_some haga hr
      cases hp : r.parent with
      | none =>
        have hp2 : r2.parent = none := by rw [← hpar, hp]
        rw [chainA_succ_root hr hp, chainA_succ_root hr2 hp2,
          walkEnds_succ_root hr hp, walkEnds_succ_root hr2 hp2]
        exact ⟨rfl, rfl⟩
      | some p =>
        have hp2 : r2.parent = some p := by rw [← hpar, hp]
        rcases Nat.eq_zero_or_pos fuel with rfl | hfpos
        · rw [chainA_succ_step hr hp, chainA_succ_step hr2 hp2,
            walkEnds_succ_step hr hp, walkEnds_succ_step hr2 hp2]
          exact ⟨rfl, rfl⟩
        · cases hgp : hget h p with
          | none =>
            have hgp2 : hget h2 p = none := by
              refine hget_none_of_le ?_
              rw [← hlen]
              by_contra hc
              push_neg at hc
              rw [hget, List.get?_eq_get hc] at hgp
              exact Option.noConfusion hgp
            obtain ⟨f', rfl⟩ : ∃ f, fuel = f + 1 := ⟨fuel - 1, by omega⟩
            rw [chainA_succ_step hr hp, chainA_succ_step hr2 hp2,
              chainA_succ_miss hgp, chainA_succ_miss hgp2,
              walkEnds_succ_step hr hp, walkEnds_succ_step hr2 hp2,
              walkEnds_succ_miss hgp, walkEnds_succ_miss hgp2]
            exact ⟨rfl, rfl⟩
          | some rp =>
            have hyp : ∀ x ∈ p :: chainA h fuel p, skelAt h h2 x := by
              intro x hx
              rcases List.mem_cons.mp hx with rfl | hx'
              · refine hag x ?_
                rw [chainA_succ_step hr hp]
                exact List.mem_cons_of_mem a
                  (List.mem_cons_of_mem a (mem_chainA_self hgp hfpos))
              · refine hag x ?_
                rw [chainA_succ_step hr hp]
                exact List.mem_cons_of_mem a (List.mem_cons_of_mem a hx')
            obtain ⟨hc, hwk⟩ := ih hyp
            rw [chainA_succ_step hr hp, chainA_succ_step hr2 hp2,
              walkEnds_succ_step hr hp, walkEnds_succ_step hr2 hp2, hc, hwk]
            exact ⟨rfl, rfl⟩

theorem parts_frame {h h2 : Heap} (hlen : h.length = h2.length) {fuel : Nat} {a : Addr}
    (hag : ∀ x ∈ a :: chainA h fuel a, skelAt h h2 x) :
    fullIdParts h2 fuel a = fullIdParts h fuel a := by
  rw [fullIdParts_eq_map, fullIdParts_eq_map, (chain_frame hlen hag).1]
  refine List.map_eq_map_iff.mpr ?_
  intro x hx
  have hsk := hag x (List.mem_cons_of_mem a hx)
  obtain ⟨r, hr⟩ := chain_valid hx
  obtain ⟨r2, hr2, heid, _⟩ := skelAt_some hsk hr
  simp [eidD, hr, hr2, heid]

end Entity

namespace Entity

/-! ## `_reset_full_id` writes only `full_id` fields -/

/-- Erase the `full_id` field (for comparing records up to the cache). -/
def recNoFid (r : NodeRec) : NodeRec := { r with fullId := none }

/-- The two heaps agree everywhere except possibly in `full_id` caches. -/
def EqExceptFid (h h2 : Heap) : Prop :=
  h.length = h2.length ∧
  ∀ x, (hget h2 x).map recNoFid = (hget h x).map recNoFid

theorem eqExceptFid_refl (h : Heap) : EqExceptFid h h := ⟨rfl, fun _ => rfl⟩

theorem eqExceptFid_trans {h1 h2 h3 : Heap} (a : EqExceptFid h1 h2)
    (b : EqExceptFid h2 h3) : EqExceptFid h1 h3 :=
  ⟨a.1.trans b.1, fun x => (b.2 x).trans (a.2 x)⟩

theorem setFid_congr {r r2 : NodeRec} (hrr : recNoFid r = recNoFid r2)
    (v : Option (List EId)) : { r with fullId := v } = { r2 with fullId := v } := by
  cases r
  cases r2
  simp only [recNoFid, NodeRec.mk.injEq] at hrr ⊢
  tauto

theorem eqExceptFid_none {h h2 : Heap} {x : Addr} (he : EqExceptFid h h2)
    (hr : hget h x = none) : hget h2 x = none := by
  have hmm := he.2 x
  rw [hr] at hmm
  cases hx : hget h2 x with
  | none => rfl
  | some r2 => rw [hx] at hmm; simp at hmm

theorem eqExceptFid_some {h h2 : Heap} {x : Addr} {r : NodeRec} (he : EqExceptFid h h2)
    (hr : hget h x = some r) :
    ∃ r2, hget h2 x = some r2 ∧ recNoFid r2 = recNoFid r := by
  have hmm := he.2 x
  rw [hr] at hmm
  cases hx : hget h2 x with
  | none => rw [hx] at hmm; simp at hmm
  | some r2 =>
    rw [hx] at hmm
    simp at hmm
    exact ⟨r2, rfl, hmm⟩

theorem skelAt_of_eqExceptFid {h h2 : Heap} (he : EqExceptFid h h2) (x : Addr) :
    skelAt h h2 x := by
  unfold skelAt
  cases hr : hget h x with
  | none => rw [eqExceptFid_none he hr]; trivial
  | some r =>
    obtain ⟨r2, hr2, hrec⟩ := eqExceptFid_some he hr
    rw [hr2]
    cases r
    cases r2
    simp only [recNoFid, NodeRec.mk.injEq] at hrec
    exact ⟨hrec.1.symm, hrec.2.2.1.symm⟩

theorem recNoFid_eid {r r2 : NodeRec} (hrr : recNoFid r = recNoFid r2) :
    r.eid = r2.eid ∧ r.level = r2.level ∧ r.parent = r2.parent ∧
    r.childList = r2.childList ∧ r.childDict = r2.childDict ∧
    r.xtra = r2.xtra ∧ r.coord = r2.coord ∧ r.mass = r2.mass ∧
    r.isWrapper = r2.isWrapper ∧ r.selected = r2.selected := by
  cases r
  cases r2
  simp only [recNoFid, NodeRec.mk.injEq] at hrr
  simp only []
  tauto

theorem generateFullId_congr {h h2 : Heap} (he : EqExceptFid h h2) (a : Addr) :
    generateFullId h2 a = generateFullId h a := by
  unfold generateFullId
  have hf : heapFuel h2 = heapFuel h := by simp [heapFuel, he.1]
  rw [hf, parts_frame he.1 (fun x _ => skelAt_of_eqExceptFid he x)]

theorem entSub_congr {h h2 : Heap} (he : EqExceptFid h h2) (fuel : Nat) :
    ∀ a, entSub h2 fuel a = entSub h fuel a := by
  induction fuel with
  | zero => intro a; rfl
  | succ fuel ih =>
    intro a
    cases hr : hget h a with
    | none => rw [entSub_succ_miss hr, entSub_succ_miss (eqExceptFid_none he hr)]
    | some r =>
      obtain ⟨r2, hr2, hrec⟩ := eqExceptFid_some he hr
      obtain ⟨_, hlev, _, hcl, _⟩ := recNoFid_eid hrec.symm
      by_cases hl : r.level = .A
      · rw [entSub_succ_atom hr hl, entSub_succ_atom hr2 (by rw [← hlev, hl])]
      · rw [entSub_succ_node hr hl, entSub_succ_node hr2 (by rw [← hlev]; exact hl)]
        rw [← hcl]
        have hfx : entSub h2 fuel = entSub h fuel := funext ih
        rw [hfx]

end Entity

namespace Entity

theorem recNoFid_setFid (r : NodeRec) (v : Option (List EId)) :
    recNoFid { r with fullId := v } = recNoFid r := by
  cases r
  simp [recNoFid]

theorem eqExceptFid_putFullId (h : Heap) (a : Addr) (v : Option (List EId)) :
    EqExceptFid h (putFullId h a v) := by
  refine ⟨(length_putFullId h a v).symm, ?_⟩
  intro x
  by_cases hx : x = a
  · subst hx
    cases hr : hget h x with
    | none => simp only [putFullId, hr]
    | some r =>
      rw [hget_putFullId_self hr]
      cases r
      simp [recNoFid]
  · rw [hget_putFullId_ne hx]

theorem eqExceptFid_resetFullId : ∀ (fuel : Nat) (h : Heap) (a : Addr),
    EqExceptFid h (resetFullId fuel h a) := by
  intro fuel
  induction fuel with
  | zero => exact fun h a => eqExceptFid_refl h
  | succ fuel ih =>
    intro h a
    cases hr : hget h a with
    | none => rw [resetFullId_succ_miss hr]; exact eqExceptFid_refl h
    | some r =>
      by_cases hl : r.level = .A
      · rw [resetFullId_succ_atom hr hl]; exact eqExceptFid_refl h
      · rw [resetFullId_succ_node hr hl]
        have hfold : ∀ (cs : List Addr) (hh : Heap),
            EqExceptFid hh (cs.foldl (fun x c => resetFullId fuel x c) hh) := by
          intro cs
          induction cs with
          | nil => exact fun hh => eqExceptFid_refl hh
          | cons c cs ihc =>
            intro hh
            simp only [List.foldl_cons]
            exact eqExceptFid_trans (ih hh c) (ihc _)
        exact eqExceptFid_trans (hfold r.childList h) (eqExceptFid_putFullId _ _ _)

theorem eqExceptFid_resetFold (fuel : Nat) (cs : List Addr) : ∀ (hh : Heap),
    EqExceptFid hh (cs.foldl (fun x c => resetFullId fuel x c) hh) := by
  induction cs with
  | nil => exact fun hh => eqExceptFid_refl hh
  | cons c cs ihc =>
    intro hh
    simp only [List.foldl_cons]
    exact eqExceptFid_trans (eqExceptFid_resetFullId fuel hh c) (ihc _)

theorem map_setFid_congr {h hh : Heap} (hhe : EqExceptFid h hh) (b : Addr)
    (v : Option (List EId)) :
    (hget hh b).map (fun r => { r with fullId := v }) =
      (hget h b).map (fun r => { r with fullId := v }) := by
  cases hb : hget h b with
  | none => rw [eqExceptFid_none hhe hb]
  | some r =>
    obtain ⟨r2, hr2, hrec⟩ := eqExceptFid_some hhe hb
    rw [hr2]
    simp only [Option.map_some']
    rw [setFid_congr hrec v]

/-- The full effect of `_reset_full_id`: every non-atom node reachable
through child lists gets its cache overwritten with a freshly generated
full id; nothing else changes. -/
theorem resetFullId_spec : ∀ (fuel : Nat) (h : Heap) (a b : Addr),
    hget (resetFullId fuel h a) b =
      if b ∈ entSub h fuel a
      then (hget h b).map (fun r => { r with fullId := some (generateFullId h b) })
      else hget h b := by
  intro fuel
  induction fuel with
  | zero =>
    intro h a b
    rw [resetFullId_zero, entSub_zero, if_neg (List.not_mem_nil b)]
  | succ fuel ih =>
    intro h a b
    cases hr : hget h a with
    | none => rw [resetFullId_succ_miss hr, entSub_succ_miss hr]; simp
    | some r =>
      by_cases hl : r.level = .A
      · rw [resetFullId_succ_atom hr hl, entSub_succ_atom hr hl]; simp
      · rw [resetFullId_succ_node hr hl, entSub_succ_node hr hl]
        have hfold : ∀ (cs : List Addr) (hh : Heap), EqExceptFid h hh →
            ∀ b, hget (cs.foldl (fun x c => resetFullId fuel x c) hh) b =
              if b ∈ cs.flatMap (entSub h fuel)
              then (hget h b).map (fun r => { r with fullId := some (generateFullId h b) })
              else hget hh b := by
          intro cs
          induction cs with
          | nil => intro hh _ b; simp
          | cons c cs ihc =>
            intro hh hhe b
            simp only [List.foldl_cons]
            have hh1e : EqExceptFid h (resetFullId fuel hh c) :=
              eqExceptFid_trans hhe (eqExceptFid_resetFullId fuel hh c)
            rw [ihc _ hh1e b]
            have hstep := ih hh c b
            rw [entSub_congr hhe fuel c] at hstep
            rw [generateFullId_congr hhe b] at hstep
            rw [map_setFid_congr hhe b] at hstep
            rw [hstep]
            have hmemc : b ∈ (c :: cs).flatMap (entSub h fuel) ↔
                b ∈ entSub h fuel c ∨ b ∈ cs.flatMap (entSub h fuel) := by
              simp [List.flatMap_cons]
            by_cases hm2 : b ∈ cs.flatMap (entSub h fuel)
            · simp [hm2, hmemc]
            · by_cases hm1 : b ∈ entSub h fuel c
              · simp [hm1, hm2, hmemc]
              · simp [hm1, hm2, hmemc]
        have hF := hfold r.childList h (eqExceptFid_refl h) 
        have h1e : EqExceptFid h
            (r.childList.foldl (fun x c => resetFullId fuel x c) h) :=
          eqExceptFid_resetFold fuel r.childList h
        rw [generateFullId_congr h1e a]
        by_cases hba : b = a
        · subst hba
          have hFb := hF b
          by_cases hmem : b ∈ r.childList.flatMap (entSub h fuel)
          · rw [if_pos hmem, hr] at hFb
            have hFb2 : hget (r.childList.foldl (fun x c => resetFullId fuel x c) h) b =
                some { r with fullId := some (generateFullId h b) } := hFb
            rw [hget_putFullId_self hFb2, hr]
            have : b ∈ b :: r.childList.flatMap (entSub h fuel) :=
              List.mem_cons_self b _
            rw [if_pos this]
            simp
          · rw [if_neg hmem, hr] at hFb
            rw [hget_putFullId_self hFb, hr]
            have : b ∈ b :: r.childList.flatMap (entSub h fuel) :=
              List.mem_cons_self b _
            rw [if_pos this]
            rfl
        · rw [hget_putFullId_ne hba, hF b]
          have : (b ∈ a :: r.childList.flatMap (entSub h fuel)) ↔
              (b ∈ r.childList.flatMap (entSub h fuel)) := by
            simp [List.mem_cons, hba]
          by_cases hmem : b ∈ r.childList.flatMap (entSub h fuel)
          · rw [if_pos hmem, if_pos (this.mpr hmem)]
          · rw [if_neg hmem, if_neg (fun hc => hmem (this.mp hc))]

end Entity

namespace Entity

/-! ## Parent-only frame (chains read only the `parent` field) -/

/-- The two heaps agree at `x` on existence and parent. -/
def parAt (h h2 : Heap) (x : Addr) : Prop :=
  (hget h x).map (fun r => r.parent) = (hget h2 x).map (fun r => r.parent)

theorem parAt_of_skelAt {h h2 : Heap} {x : Addr} (hsk : skelAt h h2 x) :
    parAt h h2 x := by
  unfold parAt
  cases hr : hget h x with
  | none => rw [skelAt_none hsk hr]
  | some r =>
    obtain ⟨r2, hr2, _, hpar⟩ := skelAt_some hsk hr
    rw [hr2]
    simp [hpar]

theorem parAt_none {h h2 : Heap} {x : Addr} (hpa : parAt h h2 x)
    (hr : hget h x = none) : hget h2 x = none := by
  unfold parAt at hpa
  rw [hr] at hpa
  cases hx : hget h2 x with
  | none => rfl
  | some r2 => rw [hx] at hpa; simp at hpa

theorem parAt_some {h h2 : Heap} {x : Addr} {r : NodeRec} (hpa : parAt h h2 x)
    (hr : hget h x = some r) :
    ∃ r2, hget h2 x = some r2 ∧ r.parent = r2.parent := by
  unfold parAt at hpa
  rw [hr] at hpa
  cases hx : hget h2 x with
  | none => rw [hx] at hpa; simp at hpa
  | some r2 =>
    rw [hx] at hpa
    simp only [Option.map_some'] at hpa
    exact ⟨r2, rfl, Option.some.inj hpa⟩

theorem chain_parframe {h h2 : Heap} (hlen : h.length = h2.length) {fuel : Nat} :
    ∀ {a}, (∀ x ∈ a :: chainA h fuel a, parAt h h2 x) →
    chainA h2 fuel a = chainA h fuel a ∧ walkEnds h2 fuel a = walkEnds h fuel a := by
  induction fuel with
  | zero => intro a _; exact ⟨rfl, rfl⟩
  | succ fuel ih =>
    intro a hag
    have haga : parAt h h2 a := hag a (List.mem_cons_self a _)
    cases hr : hget h a with
    | none =>
      have hr2 : hget h2 a = none := parAt_none haga hr
      rw [chainA_succ_miss hr, chainA_succ_miss hr2,
        walkEnds_succ_miss hr, walkEnds_succ_miss hr2]
      exact ⟨rfl, rfl⟩
    | some r =>
      obtain ⟨r2, hr2, hpar⟩ := parAt_some haga hr
      cases hp : r.parent with
      | none =>
        have hp2 : r2.parent = none := by rw [← hpar, hp]
        rw [chainA_succ_root hr hp, chainA_succ_root hr2 hp2,
          walkEnds_succ_root hr hp, walkEnds_succ_root hr2 hp2]
        exact ⟨rfl, rfl⟩
      | some p =>
        have hp2 : r2.parent = some p := by rw [← hpar, hp]
        rcases Nat.eq_zero_or_pos fuel with rfl | hfpos
        · rw [chainA_succ_step hr hp, chainA_succ_step hr2 hp2,
            walkEnds_succ_step hr hp, walkEnds_succ_step hr2 hp2]
          exact ⟨rfl, rfl⟩
        · cases hgp : hget h p with
          | none =>
            have hgp2 : hget h2 p = none := by
              refine hget_none_of_le ?_
              rw [← hlen]
              by_contra hc
              push_neg at hc
              rw [hget, List.get?_eq_get hc] at hgp
              exact Option.noConfusion hgp
            obtain ⟨f', rfl⟩ : ∃ f, fuel = f + 1 := ⟨fuel - 1, by omega⟩
            rw [chainA_succ_step hr hp, chainA_succ_step hr2 hp2,
              chainA_succ_miss hgp, chainA_succ_miss hgp2,
              walkEnds_succ_step hr hp, walkEnds_succ_step hr2 hp2,
              walkEnds_succ_miss hgp, walkEnds_succ_miss hgp2]
            exact ⟨rfl, rfl⟩
          | some rp =>
            have hyp : ∀ x ∈ p :: chainA h fuel p, parAt h h2 x := by
              intro x hx
              rcases List.mem_cons.mp hx with rfl | hx'
              · refine hag x ?_
                rw [chainA_succ_step hr hp]
                exact List.mem_cons_of_mem a
                  (List.mem_cons_of_mem a (mem_chainA_self hgp hfpos))
              · refine hag x ?_
                rw [chainA_succ_step hr hp]
                exact List.mem_cons_of_mem a (List.mem_cons_of_mem a hx')
            obtain ⟨hc, hwk⟩ := ih hyp
            rw [chainA_succ_step hr hp, chainA_succ_step hr2 hp2,
              walkEnds_succ_step hr hp, walkEnds_succ_step hr2 hp2, hc, hwk]
            exact ⟨rfl, rfl⟩

/-! ## The well-formedness invariant -/

/-- Every parent edge is mirrored in the parent's `child_list`. -/
def parentInChildB (h : Heap) : Bool :=
  (List.range h.length).all fun a =>
    match hget h a with
    | none => true
    | some r =>
      match r.parent with
      | none => true
      | some p =>
        match hget h p with
        | none => false
        | some rp => rp.childList.contains a

/-- Every `child_list` entry points back to its container. -/
def childBackB (h : Heap) : Bool :=
  (List.range h.length).all fun x =>
    match hget h x with
    | none => true
    | some r =>
      r.childList.all fun c =>
        match hget h c with
        | none => false
        | some rc => rc.parent == some x

/-- Atom-level nodes have no children. -/
def atomsLeafB (h : Heap) : Bool :=
  (List.range h.length).all fun a =>
    match hget h a with
    | none => true
    | some r => if r.level = .A then r.childList.isEmpty else true

/-- Every parent walk terminates within the canonical fuel without
revisiting a node. -/
def saneB (h : Heap) : Bool :=
  (List.range h.length).all fun a =>
    walkEnds h (heapFuel h) a && decide (chainA h (heapFuel h) a).Nodup

/-- Every non-atom cache is unset or holds the currently correct
full id. -/
def cacheOKB (h : Heap) : Bool :=
  (List.range h.length).all fun a =>
    match hget h a with
    | none => true
    | some r =>
      if r.level = .A then true
      else
        match r.fullId with
        | none => true
        | some v => v == generateFullId h a

/-- No disordered wrappers in the heap (the cache invariant concerns
plain entity trees). -/
def noWrapB (h : Heap) : Bool :=
  (List.range h.length).all fun a =>
    match hget h a with
    | none => true
    | some r => !r.isWrapper

/-- Well-formed entity heap: consistent parent/child edges, atoms are
leaves, acyclic terminating parent chains, and every full-id cache
correct-or-unset. -/
def Inv (h : Heap) : Prop :=
  parentInChildB h = true ∧ childBackB h = true ∧ atomsLeafB h = true ∧
    saneB h = true ∧ cacheOKB h = true ∧ noWrapB h = true

instance (h : Heap) : Decidable (Inv h) := by
  unfold Inv; infer_instance

theorem pic_spec {h : Heap} (hI : parentInChildB h = true) {a p : Addr} {r : NodeRec}
    (hr : hget h a = some r) (hp : r.parent = some p) :
    ∃ rp, hget h p = some rp ∧ a ∈ rp.childList := by
  have hall := List.all_eq_true.mp hI a (List.mem_range.mpr (hget_some_lt hr))
  simp only [hr, hp] at hall
  cases hgp : hget h p with
  | none => simp only [hgp] at hall; exact absurd hall (by simp)
  | some rp =>
    simp only [hgp] at hall
    exact ⟨rp, rfl, by simpa using hall⟩

theorem back_spec {h : Heap} (hB : childBackB h = true) {x c : Addr} {r : NodeRec}
    (hr : hget h x = some r) (hc : c ∈ r.childList) :
    ∃ rc, hget h c = some rc ∧ rc.parent = some x := by
  have hall := List.all_eq_true.mp hB x (List.mem_range.mpr (hget_some_lt hr))
  simp only [hr] at hall
  have hcc := List.all_eq_true.mp hall c hc
  cases hgc : hget h c with
  | none => simp only [hgc] at hcc; exact absurd hcc (by simp)
  | some rc =>
    simp only [hgc] at hcc
    exact ⟨rc, rfl, by simpa using hcc⟩

theorem leaf_spec {h : Heap} (hL : atomsLeafB h = true) {a : Addr} {r : NodeRec}
    (hr : hget h a = some r) (hl : r.level = .A) : r.childList = [] := by
  have hall := List.all_eq_true.mp hL a (List.mem_range.mpr (hget_some_lt hr))
  simp only [hr, if_pos hl] at hall
  exact List.isEmpty_iff.mp hall

theorem sane_spec {h : Heap} (hS : saneB h = true) (a : Addr) :
    walkEnds h (heapFuel h) a = true ∧ (chainA h (heapFuel h) a).Nodup := by
  by_cases ha : a < h.length
  · have := List.all_eq_true.mp hS a (List.mem_range.mpr ha)
    simp only [Bool.and_eq_true, decide_eq_true_eq] at this
    exact this
  · push_neg at ha
    have hr : hget h a = none := hget_none_of_le ha
    constructor
    · exact walkEnds_succ_miss hr
    · rw [show heapFuel h = h.length + 1 from rfl, chainA_succ_miss hr]
      exact List.nodup_nil

theorem cache_spec {h : Heap} (hC : cacheOKB h = true) {a : Addr} {r : NodeRec}
    (hr : hget h a = some r) (hl : r.level ≠ .A) :
    r.fullId = none ∨ r.fullId = some (generateFullId h a) := by
  have hall := List.all_eq_true.mp hC a (List.mem_range.mpr (hget_some_lt hr))
  simp only [hr, if_neg hl] at hall
  cases hf : r.fullId with
  | none => exact Or.inl rfl
  | some v =>
    simp only [hf] at hall
    right
    rw [show v = generateFullId h a from by simpa using hall]

theorem nowrap_spec {h : Heap} (hW : noWrapB h = true) {a : Addr} {r : NodeRec}
    (hr : hget h a = some r) : r.isWrapper = false := by
  have hall := List.all_eq_true.mp hW a (List.mem_range.mpr (hget_some_lt hr))
  simp only [hr] at hall
  simpa using hall

end Entity

namespace Entity

/-! ## Bridging parent chains and child subtrees -/

theorem mem_entSub_valid {h : Heap} : ∀ {fuel : Nat} {a x : Addr},
    x ∈ entSub h fuel a → ∃ r, hget h x = some r ∧ r.level ≠ .A := by
  intro fuel
  induction fuel with
  | zero => intro a x hx; exact absurd hx (by simp [entSub_zero])
  | succ fuel ih =>
    intro a x hx
    cases hr : hget h a with
    | none => rw [entSub_succ_miss hr] at hx; exact absurd hx (by simp)
    | some r =>
      by_cases hl : r.level = .A
      · rw [entSub_succ_atom hr hl] at hx; exact absurd hx (by simp)
      · rw [entSub_succ_node hr hl] at hx
        rcases List.mem_cons.mp hx with rfl | hx'
        · exact ⟨r, hr, hl⟩
        · obtain ⟨c, _, hxc⟩ := List.mem_flatMap.mp hx'
          exact ih hxc

theorem mem_entSub_head {h : Heap} {a : Addr} {r : NodeRec} {fuel : Nat}
    (hr : hget h a = some r) (hl : r.level ≠ .A) (hf : 0 < fuel) :
    a ∈ entSub h fuel a := by
  obtain ⟨f', rfl⟩ : ∃ f, fuel = f + 1 := ⟨fuel - 1, by omega⟩
  rw [entSub_succ_node hr hl]
  exact List.mem_cons_self a _

theorem mem_entSub_step {h : Heap} : ∀ {fuel : Nat} {a y z : Addr} {ry rz : NodeRec},
    y ∈ entSub h fuel a → hget h y = some ry → z ∈ ry.childList →
    hget h z = some rz → rz.level ≠ .A → z ∈ entSub h (fuel + 1) a := by
  intro fuel
  induction fuel with
  | zero => intro a y z ry rz hy; exact absurd hy (by simp [entSub_zero])
  | succ fuel ih =>
    intro a y z ry rz hy hgy hzc hgz hlz
    cases hr : hget h a with
    | none => rw [entSub_succ_miss hr] at hy; exact absurd hy (by simp)
    | some r =>
      by_cases hl : r.level = .A
      · rw [entSub_succ_atom hr hl] at hy; exact absurd hy (by simp)
      · rw [entSub_succ_node hr hl] at hy
        rw [entSub_succ_node hr hl]
        rcases List.mem_cons.mp hy with rfl | hy'
        · have hry : r = ry := by rw [hr] at hgy; exact Option.some.inj hgy
          subst hry
          refine List.mem_cons_of_mem _ (List.mem_flatMap.mpr ⟨z, hzc, ?_⟩)
          exact mem_entSub_head hgz hlz (by omega)
        · obtain ⟨c, hcm, hyc⟩ := List.mem_flatMap.mp hy'
          refine List.mem_cons_of_mem _ (List.mem_flatMap.mpr ⟨c, hcm, ?_⟩)
          exact ih hyc hgy hzc hgz hlz

/-- A non-atom node whose parent chain passes through `a` lies in the
entity subtree of `a` (with matching fuel). -/
theorem chain_to_entSub {h : Heap} (hI : parentInChildB h = true)
    (hL : atomsLeafB h = true) : ∀ {fuel : Nat} {x a : Addr} {rx : NodeRec},
    a ∈ chainA h fuel x → hget h x = some rx → rx.level ≠ .A →
    x ∈ entSub h fuel a := by
  intro fuel
  induction fuel with
  | zero => intro x a rx ha; exact absurd ha (by simp [chainA_zero])
  | succ fuel ih =>
    intro x a rx ha hgx hlx
    cases hp : rx.parent with
    | none =>
      rw [chainA_succ_root hgx hp] at ha
      rw [List.mem_singleton.mp ha]
      exact mem_entSub_head hgx hlx (by omega)
    | some px =>
      rw [chainA_succ_step hgx hp] at ha
      rcases List.mem_cons.mp ha with rfl | ha'
      · exact mem_entSub_head hgx hlx (by omega)
      · have hpx : ∃ rpx, hget h px = some rpx := by
          cases hq : hget h px with
          | none =>
            rw [show chainA h fuel px = [] from ?_] at ha'
            · exact absurd ha' (by simp)
            · cases fuel with
              | zero => rfl
              | succ f => exact chainA_succ_miss hq
          | some rpx => exact ⟨rpx, rfl⟩
        obtain ⟨rpx, hgpx⟩ := hpx
        obtain ⟨rp2, hgp2, hmem⟩ := pic_spec hI hgx hp
        have hrp : rp2 = rpx := by
          rw [hgpx] at hgp2; exact (Option.some.inj hgp2).symm
        subst hrp
        have hlpx : rp2.level ≠ .A := by
          intro hc
          have hempty := leaf_spec hL hgpx hc
          rw [hempty] at hmem
          exact absurd hmem (by simp)
        have hstep := ih ha' hgpx hlpx
        exact mem_entSub_step hstep hgpx hmem hgx hlx

/-! ## The `_generate_full_id` recurrence -/

theorem generateFullId_parent {h : Heap} {a p : Addr} {r : NodeRec}
    (hg : Grounded h a) (hr : hget h a = some r) (hp : r.parent = some p) :
    generateFullId h a = generateFullId h p ++ [r.eid] := by
  unfold generateFullId
  have hF : heapFuel h = h.length + 1 := rfl
  have hstep : fullIdParts h (heapFuel h) a = r.eid :: fullIdParts h h.length p := by
    rw [hF]
    exact fullIdParts_succ_step hr hp
  have hwp : walkEnds h h.length p = true := by
    have := hg
    unfold Grounded at this
    rw [hF] at this
    rw [walkEnds_succ_step hr hp] at this
    exact this
  have hpp : fullIdParts h (heapFuel h) p = fullIdParts h h.length p := by
    rw [hF]
    exact fullIdParts_stable (Nat.le_succ _) hwp
  rw [hstep, hpp]
  simp

theorem generateFullId_root {h : Heap} {a : Addr} {r : NodeRec}
    (hr : hget h a = some r) (hp : r.parent = none) :
    generateFullId h a = [r.eid] := by
  unfold generateFullId
  rw [show heapFuel h = h.length + 1 from rfl, fullIdParts_succ_root hr hp]
  rfl

end Entity

namespace Entity

/-! ## More bridges and frames -/

/-- The two heaps agree at every address on existence, level and
child list (enough to identify the entity subtrees). -/
def lcAt (h h2 : Heap) : Prop :=
  ∀ x, (hget h x).map (fun r => (r.level, r.childList)) =
    (hget h2 x).map (fun r => (r.level, r.childList))

theorem lcAt_none {h h2 : Heap} {x : Addr} (hlc : lcAt h h2)
    (hr : hget h x = none) : hget h2 x = none := by
  have hmm := hlc x
  rw [hr] at hmm
  cases hx : hget h2 x with
  | none => rfl
  | some r2 => rw [hx] at hmm; simp at hmm

theorem lcAt_some {h h2 : Heap} {x : Addr} {r : NodeRec} (hlc : lcAt h h2)
    (hr : hget h x = some r) :
    ∃ r2, hget h2 x = some r2 ∧ r.level = r2.level ∧ r.childList = r2.childList := by
  have hmm := hlc x
  rw [hr] at hmm
  cases hx : hget h2 x with
  | none => rw [hx] at hmm; simp at hmm
  | some r2 =>
    rw [hx] at hmm
    simp only [Option.map_some'] at hmm
    obtain ⟨h1, h2⟩ : r.level = r2.level ∧ r.childList = r2.childList := by
      simpa [Prod.ext_iff] using hmm
    exact ⟨r2, rfl, h1, h2⟩

theorem entSub_congr_lc {h h2 : Heap} (hlc : lcAt h h2) (fuel : Nat) :
    ∀ a, entSub h2 fuel a = entSub h fuel a := by
  induction fuel with
  | zero => intro a; rfl
  | succ fuel ih =>
    intro a
    cases hr : hget h a with
    | none => rw [entSub_succ_miss hr, entSub_succ_miss (lcAt_none hlc hr)]
    | some r =>
      obtain ⟨r2, hr2, hlev, hcl⟩ := lcAt_some hlc hr
      by_cases hl : r.level = .A
      · rw [entSub_succ_atom hr hl, entSub_succ_atom hr2 (by rw [← hlev, hl])]
      · rw [entSub_succ_node hr hl, entSub_succ_node hr2 (by rw [← hlev]; exact hl)]
        rw [← hcl]
        have hfx : entSub h2 fuel = entSub h fuel := funext ih
        rw [hfx]

/-- A member of the entity subtree of `a` has `a` on its parent chain. -/
theorem entSub_to_chain {h : Heap} (hB : childBackB h = true) (hS : saneB h = true) :
    ∀ {fuel : Nat} {x a : Addr}, x ∈ entSub h fuel a →
    a ∈ chainA h (heapFuel h) x := by
  intro fuel
  induction fuel with
  | zero => intro x a hx; exact absurd hx (by simp [entSub_zero])
  | succ fuel ih =>
    intro x a hx
    cases hr : hget h a with
    | none => rw [entSub_succ_miss hr] at hx; exact absurd hx (by simp)
    | some r =>
      by_cases hl : r.level = .A
      · rw [entSub_succ_atom hr hl] at hx; exact absurd hx (by simp)
      · rw [entSub_succ_node hr hl] at hx
        rcases List.mem_cons.mp hx with rfl | hx'
        · exact mem_chainA_self hr (by simp [heapFuel])
        · obtain ⟨cc, hccm, hxc⟩ := List.mem_flatMap.mp hx'
          have hcx : cc ∈ chainA h (heapFuel h) x := ih hxc
          obtain ⟨rcc, hgcc, hpcc⟩ := back_spec hB hr hccm
          have hwa : walkEnds h (heapFuel h) x = true := (sane_spec hS x).1
          have hsfx : chainA h (heapFuel h) cc <:+ chainA h (heapFuel h) x :=
            chain_suffix hwa hcx
          have hacc : a ∈ chainA h (heapFuel h) cc := by
            have hcc1 : chainA h (heapFuel h) cc =
                cc :: chainA h h.length a := by
              rw [show heapFuel h = h.length + 1 from rfl]
              exact chainA_succ_step hgcc hpcc
            rw [hcc1]
            refine List.mem_cons_of_mem cc ?_
            have hlen1 : 1 ≤ h.length :=
              lt_of_le_of_lt (Nat.zero_le _) (hget_some_lt hr)
            obtain ⟨n, hn⟩ : ∃ n, h.length = n + 1 := ⟨h.length - 1, by omega⟩
            rw [hn]
            exact mem_chainA_self hr (by omega)
          exact hsfx.subset hacc

/-! ## Re-parenting a root: chain concatenation

When the heap changes only at the root `c` of a detached subtree
(giving it a parent `p`), chains that used to end at `c` continue into
the old chain of `p`. -/

theorem chain_cons_inv {h : Heap} {fuel : Nat} {x y : Addr} {rest : List Addr}
    (hc : chainA h fuel x = y :: rest) :
    x = y ∧ ∃ f', fuel = f' + 1 ∧ ∃ rx, hget h x = some rx ∧
      ((rest = [] ∧ rx.parent = none) ∨
        (∃ px, rx.parent = some px ∧ chainA h f' px = rest)) := by
  cases fuel with
  | zero => exact absurd hc (by simp [chainA_zero])
  | succ f =>
    cases hr : hget h x with
    | none => rw [chainA_succ_miss hr] at hc; exact absurd hc (by simp)
    | some rx =>
      cases hp : rx.parent with
      | none =>
        rw [chainA_succ_root hr hp] at hc
        obtain ⟨rfl, hrest⟩ : x = y ∧ [] = rest := by
          simpa using hc
        exact ⟨rfl, f, rfl, rx, rfl, Or.inl ⟨hrest.symm, hp⟩⟩
      | some px =>
        rw [chainA_succ_step hr hp] at hc
        obtain ⟨rfl, hrest⟩ : x = y ∧ chainA h f px = rest := by
          simpa using hc
        exact ⟨rfl, f, rfl, rx, rfl, Or.inr ⟨px, hp, hrest⟩⟩

theorem chain_reparent {h h3 : Heap} {c : Addr}
    (hskel : ∀ y, y ≠ c → parAt h h3 y) :
    ∀ (l : List Addr) (x : Addr) (fuel : Nat),
    chainA h fuel x = l ++ [c] → c ∉ l →
    ∀ k, chainA h3 (l.length + 1 + k) x = l ++ chainA h3 (k + 1) c ∧
      walkEnds h3 (l.length + 1 + k) x = walkEnds h3 (k + 1) c := by
  intro l
  induction l with
  | nil =>
    intro x fuel hc _ k
    obtain ⟨rfl, _⟩ := chain_cons_inv (by simpa using hc)
    have harith : ([] : List Addr).length + 1 + k = k + 1 := by
      simp only [List.length_nil]
      omega
    rw [harith]
    exact ⟨by simp, rfl⟩
  | cons y l ihl =>
    intro x fuel hc hcl k
    obtain ⟨rfl, f', rfl, rx, hgx, hcase⟩ := chain_cons_inv (by simpa using hc)
    have hyc : x ≠ c := fun e => hcl (by rw [e]; exact List.mem_cons_self c l)
    rcases hcase with ⟨hnil, _⟩ | ⟨px, hpx, hrest⟩
    · exact absurd hnil (by simp)
    · obtain ⟨rx3, hgx3, hpar3⟩ := parAt_some (hskel x hyc) hgx
      have hpx3 : rx3.parent = some px := by rw [← hpar3, hpx]
      have hlc : c ∉ l := fun e => hcl (List.mem_cons_of_mem x e)
      obtain ⟨hcc, hww⟩ := ihl px f' hrest hlc k
      have harith : (x :: l).length + 1 + k = (l.length + 1 + k) + 1 := by
        simp only [List.length_cons]
        omega
      constructor
      · rw [harith, chainA_succ_step hgx3 hpx3, hcc]
        rfl
      · rw [harith, walkEnds_succ_step hgx3 hpx3, hww]

end Entity

namespace Entity

/-! ## Topology agreement: the invariant components that ignore ids,
dicts and caches -/

/-- Agreement on existence, parent, child list, level and wrapper flag. -/
def topoAt (h h2 : Heap) (x : Addr) : Prop :=
  (hget h x).map (fun r => (r.parent, r.childList, r.level, r.isWrapper)) =
    (hget h2 x).map (fun r => (r.parent, r.childList, r.level, r.isWrapper))

theorem topoAt_none {h h2 : Heap} {x : Addr} (ht : topoAt h h2 x)
    (hr : hget h x = none) : hget h2 x = none := by
  have hmm := ht
  unfold topoAt at hmm
  rw [hr] at hmm
  cases hx : hget h2 x with
  | none => rfl
  | some r2 => rw [hx] at hmm; simp at hmm

theorem topoAt_some {h h2 : Heap} {x : Addr} {r : NodeRec} (ht : topoAt h h2 x)
    (hr : hget h x = some r) :
    ∃ r2, hget h2 x = some r2 ∧ r.parent = r2.parent ∧
      r.childList = r2.childList ∧ r.level = r2.level ∧
      r.isWrapper = r2.isWrapper := by
  have hmm := ht
  unfold topoAt at hmm
  rw [hr] at hmm
  cases hx : hget h2 x with
  | none => rw [hx] at hmm; simp at hmm
  | some r2 =>
    rw [hx] at hmm
    simp only [Option.map_some'] at hmm
    obtain ⟨h1, h2', h3, h4⟩ :
        r.parent = r2.parent ∧ r.childList = r2.childList ∧
          r.level = r2.level ∧ r.isWrapper = r2.isWrapper := by
      simpa [Prod.ext_iff] using hmm
    exact ⟨r2, rfl, h1, h2', h3, h4⟩

theorem topoAt_symm {h h2 : Heap} (ht : ∀ x, topoAt h h2 x) (x : Addr) :
    topoAt h2 h x := (ht x).symm

theorem topoAt_of_eqExceptFid {h h2 : Heap} (he : EqExceptFid h h2) (x : Addr) :
    topoAt h h2 x := by
  unfold topoAt
  cases hr : hget h x with
  | none => rw [eqExceptFid_none he hr]
  | some r =>
    obtain ⟨r2, hr2, hrec⟩ := eqExceptFid_some he hr
    obtain ⟨_, hlev, hpar, hcl, _, _, _, _, hwr, _⟩ := recNoFid_eid hrec.symm
    rw [hr2]
    simp [hlev, hpar, hcl, hwr]

theorem parAt_of_topoAt {h h2 : Heap} {x : Addr} (ht : topoAt h h2 x) :
    parAt h h2 x := by
  unfold parAt
  cases hr : hget h x with
  | none => rw [topoAt_none ht hr]
  | some r =>
    obtain ⟨r2, hr2, hpar, _⟩ := topoAt_some ht hr
    rw [hr2]
    simp [hpar]

theorem listAll_congr {l : List Addr} {f g : Addr → Bool}
    (h : ∀ x ∈ l, f x = g x) : l.all f = l.all g := by
  induction l with
  | nil => rfl
  | cons x xs ih =>
    simp only [List.all_cons]
    rw [h x (List.mem_cons_self x xs), ih (fun y hy => h y (List.mem_cons_of_mem x hy))]

theorem pic_congr {h h2 : Heap} (hlen : h.length = h2.length)
    (ht : ∀ x, topoAt h h2 x) : parentInChildB h2 = parentInChildB h := by
  unfold parentInChildB
  rw [← hlen]
  refine listAll_congr ?_
  intro a _
  cases hr : hget h a with
  | none => rw [topoAt_none (ht a) hr]
  | some r =>
    obtain ⟨r2, hr2, hpar, _, _, _⟩ := topoAt_some (ht a) hr
    simp only [hr2, hr]
    cases hp : r.parent with
    | none =>
      have hp2 : r2.parent = none := by rw [← hpar, hp]
      simp [hp, hp2]
    | some p =>
      have hp2 : r2.parent = some p := by rw [← hpar, hp]
      simp only [hp, hp2]
      cases hgp : hget h p with
      | none => simp [topoAt_none (ht p) hgp, hgp]
      | some rp =>
        obtain ⟨rp2, hgp2, _, hcl, _, _⟩ := topoAt_some (ht p) hgp
        simp [hgp2, hgp, hcl]

theorem back_congr {h h2 : Heap} (hlen : h.length = h2.length)
    (ht : ∀ x, topoAt h h2 x) : childBackB h2 = childBackB h := by
  unfold childBackB
  rw [← hlen]
  refine listAll_congr ?_
  intro x _
  cases hr : hget h x with
  | none => rw [topoAt_none (ht x) hr]
  | some r =>
    obtain ⟨r2, hr2, _, hcl, _, _⟩ := topoAt_some (ht x) hr
    simp only [hr2, hr, ← hcl]
    refine listAll_congr ?_
    intro c _
    cases hgc : hget h c with
    | none => simp [topoAt_none (ht c) hgc, hgc]
    | some rc =>
      obtain ⟨rc2, hgc2, hparc, _, _, _⟩ := topoAt_some (ht c) hgc
      simp [hgc2, hgc, hparc]

theorem leaf_congr {h h2 : Heap} (hlen : h.length = h2.length)
    (ht : ∀ x, topoAt h h2 x) : atomsLeafB h2 = atomsLeafB h := by
  unfold atomsLeafB
  rw [← hlen]
  refine listAll_congr ?_
  intro a _
  cases hr : hget h a with
  | none => rw [topoAt_none (ht a) hr]
  | some r =>
    obtain ⟨r2, hr2, _, hcl, hlev, _⟩ := topoAt_some (ht a) hr
    simp [hr2, hr, hcl, hlev]

theorem nowrap_congr {h h2 : Heap} (hlen : h.length = h2.length)
    (ht : ∀ x, topoAt h h2 x) : noWrapB h2 = noWrapB h := by
  unfold noWrapB
  rw [← hlen]
  refine listAll_congr ?_
  intro a _
  cases hr : hget h a with
  | none => rw [topoAt_none (ht a) hr]
  | some r =>
    obtain ⟨r2, hr2, _, _, _, hwr⟩ := topoAt_some (ht a) hr
    simp [hr2, hr, hwr]

theorem sane_congr {h h2 : Heap} (hlen : h.length = h2.length)
    (hpar : ∀ x, parAt h h2 x) : saneB h2 = saneB h := by
  unfold saneB
  rw [← hlen]
  refine listAll_congr ?_
  intro a _
  have hframe := @chain_parframe _ _ hlen (heapFuel h) a (fun x _ => hpar x)
  have hfl : heapFuel h2 = heapFuel h := by simp [heapFuel, hlen]
  rw [hfl, hframe.1, hframe.2]

theorem lcAt_of_topoAt {h h2 : Heap} (ht : ∀ x, topoAt h h2 x) : lcAt h h2 := by
  intro x
  cases hr : hget h x with
  | none => rw [topoAt_none (ht x) hr]
  | some r =>
    obtain ⟨r2, hr2, _, hcl, hlev, _⟩ := topoAt_some (ht x) hr
    rw [hr2]
    simp [hlev, hcl]

end Entity

namespace Entity

/-! ## Introduction forms for the invariant components -/

theorem pic_intro {h : Heap}
    (hyp : ∀ a r p, hget h a = some r → r.parent = some p →
      ∃ rp, hget h p = some rp ∧ a ∈ rp.childList) :
    parentInChildB h = true := by
  refine List.all_eq_true.mpr ?_
  intro a _
  cases hga : hget h a with
  | none => simp
  | some r =>
    cases hp : r.parent with
    | none => simp [hp]
    | some p =>
      obtain ⟨rp, hgp, hmem⟩ := hyp a r p hga hp
      simp [hp, hgp, hmem]

theorem back_intro {h : Heap}
    (hyp : ∀ x r c, hget h x = some r → c ∈ r.childList →
      ∃ rc, hget h c = some rc ∧ rc.parent = some x) :
    childBackB h = true := by
  refine List.all_eq_true.mpr ?_
  intro x _
  cases hgx : hget h x with
  | none => simp
  | some r =>
    show (r.childList.all _) = true
    refine List.all_eq_true.mpr ?_
    intro c hc
    obtain ⟨rc, hgc, hpc⟩ := hyp x r c hgx hc
    simp [hgc, hpc]

theorem leaf_intro {h : Heap}
    (hyp : ∀ a r, hget h a = some r → r.level = .A → r.childList = []) :
    atomsLeafB h = true := by
  refine List.all_eq_true.mpr ?_
  intro a _
  cases hga : hget h a with
  | none => simp
  | some r =>
    by_cases hl : r.level = .A
    · simp [hl, hyp a r hga hl]
    · simp [hl]

theorem sane_intro {h : Heap}
    (hyp : ∀ a, walkEnds h (heapFuel h) a = true ∧
      (chainA h (heapFuel h) a).Nodup) :
    saneB h = true := by
  refine List.all_eq_true.mpr ?_
  intro a _
  simp [(hyp a).1, (hyp a).2]

theorem cacheOK_intro {h : Heap}
    (hyp : ∀ a r, hget h a = some r → r.level ≠ .A →
      r.fullId = none ∨ r.fullId = some (generateFullId h a)) :
    cacheOKB h = true := by
  refine List.all_eq_true.mpr ?_
  intro a _
  cases hga : hget h a with
  | none => simp
  | some r =>
    by_cases hl : r.level = .A
    · simp [hl]
    · rcases hyp a r hga hl with h0 | h0 <;> simp [hl, h0]

theorem nowrap_intro {h : Heap}
    (hyp : ∀ a r, hget h a = some r → r.isWrapper = false) :
    noWrapB h = true := by
  refine List.all_eq_true.mpr ?_
  intro a _
  cases hga : hget h a with
  | none => simp
  | some r => simp [hyp a r hga]

/-! ## `get_full_id` -/

theorem getFullId_cached {h : Heap} {a : Addr} {r : NodeRec} {v : List EId}
    (hr : hget h a = some r) (hf : r.fullId = some v) :
    getFullId h a = some (v, h) := by
  simp [getFullId, hr, hf]

theorem getFullId_compute {h : Heap} {a : Addr} {r : NodeRec}
    (hr : hget h a = some r) (hf : r.fullId = none) :
    getFullId h a =
      some (generateFullId h a,
        hset h a { r with fullId := some (generateFullId h a) }) := by
  simp [getFullId, hr, hf]

theorem getFullId_Inv {h : Heap} {a : Addr} {r : NodeRec} (hI : Inv h)
    (hr : hget h a = some r) (hl : r.level ≠ .A) :
    ∃ h2, getFullId h a = some (generateFullId h a, h2) ∧ Inv h2 := by
  obtain ⟨hP, hB, hL, hS, hC, hW⟩ := hI
  cases hf : r.fullId with
  | some v =>
    rcases cache_spec hC hr hl with h0 | h0
    · rw [hf] at h0; exact Option.noConfusion h0
    · rw [hf] at h0
      have hv : v = generateFullId h a := Option.some.inj h0
      subst hv
      exact ⟨h, getFullId_cached hr hf, hP, hB, hL, hS, hC, hW⟩
  | none =>
    rw [getFullId_compute hr hf]
    refine ⟨_, rfl, ?_⟩
    have hput : hset h a { r with fullId := some (generateFullId h a) } =
        putFullId h a (some (generateFullId h a)) := by
      simp [putFullId, hr]
    rw [hput]
    have he : EqExceptFid h (putFullId h a (some (generateFullId h a))) :=
      eqExceptFid_putFullId h a _
    have htopo : ∀ x, topoAt h _ x := topoAt_of_eqExceptFid he
    have hlen : h.length = (putFullId h a (some (generateFullId h a))).length :=
      he.1
    refine ⟨?_, ?_, ?_, ?_, ?_, ?_⟩
    · rw [pic_congr hlen htopo]; exact hP
    · rw [back_congr hlen htopo]; exact hB
    · rw [leaf_congr hlen htopo]; exact hL
    · rw [sane_congr hlen (fun x => parAt_of_topoAt (htopo x))]; exact hS
    · refine cacheOK_intro ?_
      intro x rx hgx hlx
      by_cases hxa : x = a
      · subst hxa
        rw [hget_putFullId_self hr] at hgx
        have hrx : rx = { r with fullId := some (generateFullId h x) } :=
          (Option.some.inj hgx).symm
        right
        rw [hrx, generateFullId_congr he x]
      · rw [hget_putFullId_ne hxa] at hgx
        rcases cache_spec hC hgx hlx with h0 | h0
        · exact Or.inl h0
        · right
          rw [h0, generateFullId_congr he x]
    · rw [nowrap_congr hlen htopo]; exact hW

end Entity

namespace Entity

/-! ## Invariant preservation by the id setter -/

theorem topoAt_trans {h1 h2 h3 : Heap} (a : ∀ x, topoAt h1 h2 x)
    (b : ∀ x, topoAt h2 h3 x) (x : Addr) : topoAt h1 h3 x :=
  (a x).trans (b x)

/-- Common core of the two successful non-trivial branches of the id
setter: the heap `hB` agrees with `h` everywhere except in the `eid`
field at `a` (and in `child_dict` fields, which no invariant component
reads), and then `_reset_full_id` runs at `a`. -/
theorem setId_core_Inv {h hB : Heap} (hI : Inv h) (a : Addr)
    (hlen : hB.length = h.length)
    (htopo : ∀ x, topoAt h hB x)
    (hfid : ∀ x r rB, hget h x = some r → hget hB x = some rB →
      rB.fullId = r.fullId)
    (heid : ∀ x r rB, x ≠ a → hget h x = some r → hget hB x = some rB →
      rB.eid = r.eid) :
    Inv (resetFullId (heapFuel hB) hB a) := by
  obtain ⟨hP, hB', hL, hS, hC, hW⟩ := hI
  set h3 := resetFullId (heapFuel hB) hB a with hh3
  have heB : EqExceptFid hB h3 := eqExceptFid_resetFullId _ hB a
  have htopo3 : ∀ x, topoAt h h3 x :=
    topoAt_trans htopo (topoAt_of_eqExceptFid heB)
  have hlen3 : h.length = h3.length := by rw [← heB.1, hlen]
  have hfuel3 : heapFuel h3 = heapFuel h := by simp [heapFuel, ← hlen3]
  have hfuelB : heapFuel hB = heapFuel h := by simp [heapFuel, hlen]
  have hsub : ∀ x, x ∈ entSub hB (heapFuel hB) a ↔
      x ∈ entSub h (heapFuel h) a := by
    intro x
    rw [hfuelB, entSub_congr_lc (lcAt_of_topoAt htopo) (heapFuel h) a]
  refine ⟨?_, ?_, ?_, ?_, ?_, ?_⟩
  · rw [pic_congr hlen3 htopo3]; exact hP
  · rw [back_congr hlen3 htopo3]; exact hB'
  · rw [leaf_congr hlen3 htopo3]; exact hL
  · rw [sane_congr hlen3 (fun x => parAt_of_topoAt (htopo3 x))]; exact hS
  · refine cacheOK_intro ?_
    intro x rx3 hgx3 hlx3
    have hspec := resetFullId_spec (heapFuel hB) hB a x
    rw [← hh3] at hspec
    by_cases hmem : x ∈ entSub hB (heapFuel hB) a
    · rw [if_pos hmem] at hspec
      rw [hspec] at hgx3
      cases hgxB : hget hB x with
      | none => rw [hgxB] at hgx3; exact Option.noConfusion hgx3
      | some rxB =>
        rw [hgxB] at hgx3
        simp only [Option.map_some'] at hgx3
        have hrx3 : rx3 = { rxB with fullId := some (generateFullId hB x) } :=
          (Option.some.inj hgx3).symm
        right
        rw [hrx3]
        show some (generateFullId hB x) = some (generateFullId h3 x)
        rw [generateFullId_congr heB x]
    · rw [if_neg hmem] at hspec
      rw [hspec] at hgx3
      obtain ⟨rx, hgx, hparx, hclx, hlevx, hwrx⟩ :=
        topoAt_some (topoAt_symm htopo x) hgx3
      have hfidx : rx3.fullId = rx.fullId := hfid x rx rx3 hgx hgx3
      have hlx : rx.level ≠ .A := by rw [← hlevx]; exact hlx3
      have hxa : x ≠ a := by
        intro he
        subst he
        exact hmem (mem_entSub_head hgx3 hlx3 (by simp [heapFuel]))
      rcases cache_spec hC hgx hlx with h0 | h0
      · exact Or.inl (by rw [hfidx, h0])
      · right
        rw [hfidx, h0]
        have hchain : a ∉ chainA h (heapFuel h) x := by
          intro hc
          have := chain_to_entSub hP hL hc hgx hlx
          rw [← hsub x] at this
          exact hmem this
      
        have hskel : ∀ y ∈ x :: chainA h (heapFuel h) x, skelAt h h3 y := by
          intro y hy
          have hya : y ≠ a := by
            rcases List.mem_cons.mp hy with rfl | hy'
            · exact hxa
            · exact fun e => hchain (e ▸ hy')
          unfold skelAt
          cases hgy : hget h y with
          | none =>
            rw [eqExceptFid_none heB (topoAt_none (htopo y) hgy)]
            trivial
          | some ry =>
            obtain ⟨ryB, hgyB, hpary, _, _, _⟩ := topoAt_some (htopo y) hgy
            obtain ⟨ry3, hgy3, hrec3⟩ := eqExceptFid_some heB hgyB
            obtain ⟨heid3, _, hpar3, _⟩ := recNoFid_eid hrec3.symm
            rw [hgy3]
            constructor
            · rw [← heid3, heid y ry ryB hya hgy hgyB]
            · rw [← hpar3, ← hpary]
        have hparts := @parts_frame _ _ hlen3 (heapFuel h) _ hskel
        show some (generateFullId h x) = some (generateFullId h3 x)
        unfold generateFullId
        rw [hfuel3, hparts]
  · rw [nowrap_congr hlen3 htopo3]; exact hW

end Entity

namespace Entity

theorem topoAt_hset_of {h : Heap} {a : Addr} {r r2 : NodeRec}
    (hr : hget h a = some r) (hpar : r2.parent = r.parent)
    (hcl : r2.childList = r.childList) (hlev : r2.level = r.level)
    (hwr : r2.isWrapper = r.isWrapper) :
    ∀ x, topoAt h (hset h a r2) x := by
  intro x
  unfold topoAt
  by_cases hx : x = a
  · subst hx
    rw [hr, hget_hset_self r2 (hget_some_lt hr)]
    simp [hpar, hcl, hlev, hwr]
  · rw [hget_hset_ne r2 hx]

theorem setIdE_noop {h : Heap} {a : Addr} {r : NodeRec} (hr : hget h a = some r) :
    setIdE h a r.eid = .ok (h, false) := by
  simp [setIdE, hr]

theorem setIdE_root_eq {h : Heap} {a : Addr} {r : NodeRec} {v : EId}
    (hr : hget h a = some r) (hne : v ≠ r.eid) (hp : r.parent = none) :
    setIdE h a v =
      .ok (resetFullId (heapFuel (hset h a { r with eid := v }))
        (hset h a { r with eid := v }) a, false) := by
  simp [setIdE, hr, hne, hp]

theorem setIdE_parent_eq {h : Heap} {a p : Addr} {r rp : NodeRec} {v : EId}
    {d1 : List (EId × Addr)}
    (hr : hget h a = some r) (hne : v ≠ r.eid) (hp : r.parent = some p)
    (hgp : hget h p = some rp) (hdel : dictDel rp.childDict r.eid = some d1)
    (hap : a ≠ p) :
    setIdE h a v =
      .ok (resetFullId
        (heapFuel (hset (hset h p { rp with childDict := dictPut d1 v a }) a
          { r with eid := v }))
        (hset (hset h p { rp with childDict := dictPut d1 v a }) a
          { r with eid := v }) a, dictHas rp.childDict v) := by
  have hga1 : hget (hset h p { rp with childDict := dictPut d1 v a }) a =
      some r := by
    rw [hget_hset_ne _ hap]; exact hr
  simp [setIdE, hr, hne, hp, hgp, hdel, hga1]

/-- A node is never its own parent in a sane heap. -/
theorem no_self_parent {h : Heap} (hS : saneB h = true) {a : Addr} {r : NodeRec}
    (hr : hget h a = some r) : r.parent ≠ some a := by
  intro hp
  have hnd := (sane_spec hS a).2
  have hlen1 : 1 ≤ h.length := lt_of_le_of_lt (Nat.zero_le _) (hget_some_lt hr)
  have hchain : chainA h (heapFuel h) a = a :: chainA h h.length a := by
    rw [show heapFuel h = h.length + 1 from rfl]
    exact chainA_succ_step hr hp
  rw [hchain] at hnd
  have hmem : a ∈ chainA h h.length a := by
    obtain ⟨n, hn⟩ : ∃ n, h.length = n + 1 := ⟨h.length - 1, by omega⟩
    rw [hn]
    exact mem_chainA_self hr (by omega)
  exact (List.nodup_cons.mp hnd).1 hmem

/-- The id setter preserves the heap invariant. -/
theorem setIdE_Inv {h : Heap} {a : Addr} {v : EId} {h3 : Heap} {w : Bool}
    (hI : Inv h) (hok : setIdE h a v = .ok (h3, w)) : Inv h3 := by
  obtain ⟨hP, hBk, hL, hS, hC, hW⟩ := hI
  cases hga : hget h a with
  | none => simp [setIdE, hga] at hok
  | some r =>
    by_cases hv : v = r.eid
    · subst hv
      rw [setIdE_noop hga, Except.ok.injEq, Prod.mk.injEq] at hok
      obtain ⟨rfl, rfl⟩ := hok
      exact ⟨hP, hBk, hL, hS, hC, hW⟩
    · cases hp : r.parent with
      | none =>
        rw [setIdE_root_eq hga hv hp, Except.ok.injEq, Prod.mk.injEq] at hok
        obtain ⟨hh3, hw⟩ := hok
        rw [← hh3]
        refine setId_core_Inv ⟨hP, hBk, hL, hS, hC, hW⟩ a (length_hset h a _) ?_ ?_ ?_
        · exact topoAt_hset_of hga rfl rfl rfl rfl
        · intro x rx rB hgx hgB
          by_cases hxa : x = a
          · subst hxa
            rw [hget_hset_self _ (hget_some_lt hga)] at hgB
            rw [hga] at hgx
            rw [← Option.some.inj hgB, ← Option.some.inj hgx]
          · rw [hget_hset_ne _ hxa] at hgB
            rw [hgB] at hgx
            rw [Option.some.inj hgx]
        · intro x rx rB hxa hgx hgB
          rw [hget_hset_ne _ hxa] at hgB
          rw [hgB] at hgx
          rw [Option.some.inj hgx]
      | some p =>
        obtain ⟨rp, hgp, hmemp⟩ := pic_spec hP hga hp
        have hap : a ≠ p := by
          intro he
          subst he
          exact no_self_parent hS hga hp
        cases hdel : dictDel rp.childDict r.eid with
        | none => simp [setIdE, hga, hv, hp, hgp, hdel] at hok
        | some d1 =>
          rw [setIdE_parent_eq hga hv hp hgp hdel hap, Except.ok.injEq,
            Prod.mk.injEq] at hok
          obtain ⟨hh3, hw⟩ := hok
          rw [← hh3]
          have hga1 : hget (hset h p { rp with childDict := dictPut d1 v a }) a =
              some r := by
            rw [hget_hset_ne _ hap]; exact hga
          have hlenB : (hset (hset h p { rp with childDict := dictPut d1 v a }) a
              { r with eid := v }).length = h.length := by
            rw [length_hset, length_hset]
          refine setId_core_Inv ⟨hP, hBk, hL, hS, hC, hW⟩ a hlenB ?_ ?_ ?_
          · refine @topoAt_trans _ (hset h p { rp with childDict := dictPut d1 v a }) _ ?_ ?_
            · exact topoAt_hset_of hgp rfl rfl rfl rfl
            · exact topoAt_hset_of hga1 rfl rfl rfl rfl
          · intro x rx rB hgx hgB
            by_cases hxa : x = a
            · subst hxa
              rw [hget_hset_self _ (by rw [length_hset]; exact hget_some_lt hga)] at hgB
              rw [hga] at hgx
              rw [← Option.some.inj hgB, ← Option.some.inj hgx]
            · rw [hget_hset_ne _ hxa] at hgB
              by_cases hxp : x = p
              · subst hxp
                rw [hget_hset_self _ (hget_some_lt hgp)] at hgB
                rw [hgp] at hgx
                rw [← Option.some.inj hgB, ← Option.some.inj hgx]
              · rw [hget_hset_ne _ hxp] at hgB
                rw [hgB] at hgx
                rw [Option.some.inj hgx]
          · intro x rx rB hxa hgx hgB
            rw [hget_hset_ne _ hxa] at hgB
            by_cases hxp : x = p
            · subst hxp
              rw [hget_hset_self _ (hget_some_lt hgp)] at hgB
              rw [hgp] at hgx
              rw [← Option.some.inj hgB, ← Option.some.inj hgx]
            · rw [hget_hset_ne _ hxp] at hgB
              rw [hgB] at hgx
              rw [Option.some.inj hgx]

end Entity

namespace Entity

/-! ## `add`: result shape and invariant preservation -/

theorem mem_of_suffix_concat {ch l : List Addr} {c : Addr}
    (hs : ch <:+ l ++ [c]) (hne : ch ≠ []) : c ∈ ch := by
  obtain ⟨t, ht⟩ := hs
  rcases List.eq_nil_or_concat ch with rfl | ⟨ch2, d, rfl⟩
  · exact absurd rfl hne
  · have h2 : some d = some c := by
      have ha : (t ++ ch2) ++ [d] = l ++ [c] := by
        simpa [List.concat_eq_append, List.append_assoc] using ht
      have hb := congrArg List.getLast? ha
      rwa [List.getLast?_concat, List.getLast?_concat] at hb
    rw [List.concat_eq_append, Option.some.inj h2]
    exact List.mem_append_right _ (List.mem_singleton_self c)

theorem lcAt_hset_parent {h : Heap} {c : Addr} {rc : NodeRec} {q : Option Addr}
    (hgc : hget h c = some rc) : lcAt h (hset h c { rc with parent := q }) := by
  intro x
  by_cases hx : x = c
  · subst hx
    rw [hgc, hget_hset_self _ (hget_some_lt hgc)]
    rfl
  · rw [hget_hset_ne _ hx]

theorem setParentE_eq {h : Heap} {c p : Addr} {rc : NodeRec}
    (hgc : hget h c = some rc) :
    setParentE h c p =
      resetFullId (heapFuel h) (hset h c { rc with parent := some p }) c := by
  simp [setParentE, hgc]

theorem addE_ok_eq {h : Heap} {p c : Addr} {rp rc : NodeRec}
    (hgp : hget h p = some rp) (hgc : hget h c = some rc)
    (hdup : dictHas rp.childDict rc.eid = false)
    (hpc : p ≠ c)
    (hpent : p ∉ entSub h (heapFuel h) c) :
    addE h p c = .ok
      (hset (resetFullId (heapFuel h) (hset h c { rc with parent := some p }) c) p
        { rp with
          childList := rp.childList ++ [c]
          childDict := dictPut rp.childDict rc.eid c }) := by
  have hent1 : entSub (hset h c { rc with parent := some p }) (heapFuel h) c =
      entSub h (heapFuel h) c :=
    entSub_congr_lc (lcAt_hset_parent hgc) (heapFuel h) c
  have hg2p : hget (setParentE h c p) p = some rp := by
    rw [setParentE_eq hgc, resetFullId_spec, hent1, if_neg hpent,
      hget_hset_ne _ hpc]
    exact hgp
  rw [show addE h p c = addE h p c from rfl]
  unfold addE
  rw [hgp, hgc]
  simp only [hdup, Bool.false_eq_true, if_false]
  rw [hg2p]
  rw [setParentE_eq hgc]

/-- Lookup in the heap produced by a successful `add`. -/
theorem addE_lookup {h : Heap} {p c : Addr} {rp rc : NodeRec}
    (hgp : hget h p = some rp) (hgc : hget h c = some rc)
    (hpc : p ≠ c)
    (hpent : p ∉ entSub h (heapFuel h) c) (x : Addr) :
    hget (hset (resetFullId (heapFuel h) (hset h c { rc with parent := some p }) c) p
      { rp with
        childList := rp.childList ++ [c]
        childDict := dictPut rp.childDict rc.eid c }) x =
    if x = p then
      some { rp with
        childList := rp.childList ++ [c]
        childDict := dictPut rp.childDict rc.eid c }
    else if x ∈ entSub h (heapFuel h) c then
      (hget (hset h c { rc with parent := some p }) x).map
        (fun r =>
          { r with
            fullId := some (generateFullId (hset h c { rc with parent := some p }) x) })
    else hget (hset h c { rc with parent := some p }) x := by
  set h1 := hset h c { rc with parent := some p } with hh1
  have hent1 : entSub h1 (heapFuel h) c = entSub h (heapFuel h) c :=
    entSub_congr_lc (lcAt_hset_parent hgc) (heapFuel h) c
  by_cases hx : x = p
  · subst hx
    rw [if_pos rfl]
    refine hget_hset_self _ ?_
    rw [← (eqExceptFid_resetFullId (heapFuel h) h1 c).1, length_hset]
    exact hget_some_lt hgp
  · rw [if_neg hx, hget_hset_ne _ hx, resetFullId_spec, hent1]

end Entity


namespace Entity

/-- `add` preserves the heap invariant when the attached child is a
detached root whose subtree does not contain the new parent. -/
theorem addE_Inv {h h3 : Heap} {p c : Addr} {rp rc : NodeRec} (hI : Inv h)
    (hgp : hget h p = some rp) (hgc : hget h c = some rc)
    (hlp : rp.level ≠ .A) (hparc : rc.parent = none)
    (hchain : c ∉ chainA h (heapFuel h) p)
    (hok : addE h p c = .ok h3) : Inv h3 := by
  obtain ⟨hP, hBk, hL, hS, hC, hW⟩ := hI
  have hpc : p ≠ c := by
    intro he
    subst he
    exact hchain (mem_chainA_self hgp (by simp [heapFuel]))
  have hpent : p ∉ entSub h (heapFuel h) c := by
    intro hmem
    exact hchain (entSub_to_chain hBk hS hmem)
  cases hdup : dictHas rp.childDict rc.eid with
  | true =>
    unfold addE at hok
    rw [hgp, hgc] at hok
    simp [hdup] at hok
  | false =>
    rw [addE_ok_eq hgp hgc hdup hpc hpent, Except.ok.injEq] at hok
    subst hok
    set rc1 : NodeRec := { rc with parent := some p } with hrc1
    set h1 : Heap := hset h c rc1 with hh1
    set rpN : NodeRec := { rp with
      childList := rp.childList ++ [c]
      childDict := dictPut rp.childDict rc.eid c } with hrpN
    set h2 : Heap := resetFullId (heapFuel h) h1 c with hh2
    have hlen1 : h1.length = h.length := length_hset h c rc1
    have he12 : EqExceptFid h1 h2 := eqExceptFid_resetFullId (heapFuel h) h1 c
    have hlen2 : h2.length = h.length := by rw [← he12.1, hlen1]
    have hlen3 : (hset h2 p rpN).length = h.length := by rw [length_hset, hlen2]
    have hfuel1 : heapFuel h1 = heapFuel h := by simp [heapFuel, hlen1]
    have hfuel3 : heapFuel (hset h2 p rpN) = heapFuel h := by
      simp [heapFuel, hlen3]
    have h1look : ∀ x, hget h1 x = if x = c then some rc1 else hget h x := by
      intro x
      by_cases hx : x = c
      · subst hx
        rw [if_pos rfl]
        exact hget_hset_self _ (hget_some_lt hgc)
      · rw [if_neg hx]
        exact hget_hset_ne _ hx
    have hlook : ∀ x, hget (hset h2 p rpN) x =
        if x = p then some rpN
        else if x ∈ entSub h (heapFuel h) c then
          (hget h1 x).map (fun r => { r with fullId := some (generateFullId h1 x) })
        else hget h1 x := addE_lookup hgp hgc hpc hpent
    have hsome3 : ∀ x rx, hget h x = some rx →
        ∃ rx3, hget (hset h2 p rpN) x = some rx3 ∧ rx3.eid = rx.eid ∧
          rx3.level = rx.level ∧ rx3.isWrapper = rx.isWrapper ∧
          rx3.childList = (if x = p then rx.childList ++ [c] else rx.childList) ∧
          rx3.parent = (if x = c then some p else rx.parent) := by
      intro x rx hgx
      rw [hlook x]
      by_cases hxp : x = p
      · subst hxp
        have hrxrp : rx = rp := by rw [hgx] at hgp; exact Option.some.inj hgp
        subst hrxrp
        rw [if_pos rfl, if_pos rfl, if_neg hpc]
        exact ⟨rpN, rfl, rfl, rfl, rfl, rfl, rfl⟩
      · rw [if_neg hxp, if_neg hxp]
        by_cases hxc : x = c
        · have hrxrc : rx = rc := by
            rw [hxc] at hgx
            rw [hgx] at hgc
            exact Option.some.inj hgc
          subst hrxrc
          rw [if_pos hxc]
          by_cases hmem : x ∈ entSub h (heapFuel h) c
          · rw [if_pos hmem, h1look x, if_pos hxc]
            exact ⟨_, rfl, rfl, rfl, rfl, rfl, rfl⟩
          · rw [if_neg hmem, h1look x, if_pos hxc]
            exact ⟨rc1, rfl, rfl, rfl, rfl, rfl, rfl⟩
        · rw [if_neg hxc]
          by_cases hmem : x ∈ entSub h (heapFuel h) c
          · rw [if_pos hmem, h1look x, if_neg hxc, hgx]
            exact ⟨_, rfl, rfl, rfl, rfl, rfl, rfl⟩
          · rw [if_neg hmem, h1look x, if_neg hxc, hgx]
            exact ⟨rx, rfl, rfl, rfl, rfl, rfl, rfl⟩
    have hnone3 : ∀ x, hget h x = none → hget (hset h2 p rpN) x = none := by
      intro x hgx
      have hxp : x ≠ p := fun e => by rw [e, hgp] at hgx; exact Option.noConfusion hgx
      have hxc : x ≠ c := fun e => by rw [e, hgc] at hgx; exact Option.noConfusion hgx
      have hxm : x ∉ entSub h (heapFuel h) c := by
        intro hmem
        obtain ⟨r, hr, _⟩ := mem_entSub_valid hmem
        rw [hgx] at hr
        exact Option.noConfusion hr
      rw [hlook x, if_neg hxp, if_neg hxm, h1look x, if_neg hxc]
      exact hgx
    have hcorr3 : ∀ x rx3, hget (hset h2 p rpN) x = some rx3 →
        ∃ rx, hget h x = some rx ∧ rx3.eid = rx.eid ∧
          rx3.level = rx.level ∧ rx3.isWrapper = rx.isWrapper ∧
          rx3.childList = (if x = p then rx.childList ++ [c] else rx.childList) ∧
          rx3.parent = (if x = c then some p else rx.parent) := by
      intro x rx3 hgx3
      cases hgx : hget h x with
      | none => rw [hnone3 x hgx] at hgx3; exact Option.noConfusion hgx3
      | some rx =>
        obtain ⟨rx3', hgx3', hf⟩ := hsome3 x rx hgx
        rw [hgx3] at hgx3'
        have heq3 : rx3' = rx3 := (Option.some.inj hgx3').symm
        subst heq3
        exact ⟨rx, rfl, hf⟩
    have hpar3 : ∀ y, y ≠ c → parAt h (hset h2 p rpN) y := by
      intro y hyc
      unfold parAt
      cases hgy : hget h y with
      | none => rw [hnone3 y hgy]
      | some ry =>
        obtain ⟨ry3, hgy3, _, _, _, _, hpar⟩ := hsome3 y ry hgy
        rw [hgy3]
        simp [hpar, hyc]
    have hskel13 : ∀ y, skelAt h1 (hset h2 p rpN) y := by
      intro y
      unfold skelAt
      rw [h1look y]
      by_cases hyc : y = c
      · subst hyc
        rw [if_pos rfl]
        obtain ⟨rc3, hgc3, heid, _, _, _, hpar⟩ := hsome3 y rc hgc
        rw [hgc3]
        rw [if_pos rfl] at hpar
        exact ⟨heid.symm, hpar.symm⟩
      · rw [if_neg hyc]
        cases hgy : hget h y with
        | none => rw [hnone3 y hgy]; trivial
        | some ry =>
          obtain ⟨ry3, hgy3, heid, _, _, _, hpar⟩ := hsome3 y ry hgy
          rw [hgy3]
          rw [if_neg hyc] at hpar
          exact ⟨heid.symm, hpar.symm⟩
    have hlen13 : h1.length = (hset h2 p rpN).length := by rw [hlen1, hlen3]
    have hgen13 : ∀ y, generateFullId (hset h2 p rpN) y = generateFullId h1 y := by
      intro y
      unfold generateFullId
      rw [hfuel3, hfuel1]
      have hpf := @parts_frame _ _ hlen13 (heapFuel h) y (fun z _ => hskel13 z)
      rw [hpf]
    have hskelh : ∀ y, y ≠ c → skelAt h (hset h2 p rpN) y := by
      intro y hyc
      unfold skelAt
      cases hgy : hget h y with
      | none => rw [hnone3 y hgy]; trivial
      | some ry =>
        obtain ⟨ry3, hgy3, heid, _, _, _, hpar⟩ := hsome3 y ry hgy
        rw [hgy3]
        rw [if_neg hyc] at hpar
        exact ⟨heid.symm, hpar.symm⟩
    refine ⟨?_, ?_, ?_, ?_, ?_, ?_⟩
    · refine pic_intro ?_
      intro a r3 pa hga3 hpa3
      obtain ⟨ra, hga, _, _, _, _, hparf⟩ := hcorr3 a r3 hga3
      rw [hparf] at hpa3
      by_cases hac : a = c
      · subst hac
        rw [if_pos rfl] at hpa3
        have hpap : pa = p := (Option.some.inj hpa3).symm
        subst hpap
        obtain ⟨rp3, hgp3, _, _, _, hclf, _⟩ := hsome3 pa rp hgp
        rw [if_pos rfl] at hclf
        refine ⟨rp3, hgp3, ?_⟩
        rw [hclf]
        exact List.mem_append_right _ (List.mem_singleton_self a)
      · rw [if_neg hac] at hpa3
        obtain ⟨rpa, hgpa, hmempa⟩ := pic_spec hP hga hpa3
        obtain ⟨rpa3, hgpa3, _, _, _, hclf, _⟩ := hsome3 pa rpa hgpa
        refine ⟨rpa3, hgpa3, ?_⟩
        rw [hclf]
        by_cases hpap : pa = p
        · rw [if_pos hpap]
          exact List.mem_append_left _ hmempa
        · rw [if_neg hpap]
          exact hmempa
    · refine back_intro ?_
      intro x r3 cc hgx3 hcc
      obtain ⟨rx, hgx, _, _, _, hclf, _⟩ := hcorr3 x r3 hgx3
      rw [hclf] at hcc
      by_cases hxp : x = p
      · subst hxp
        rw [if_pos rfl] at hcc
        rcases List.mem_append.mp hcc with hcc' | hcc'
        · have hrx : rx = rp := by rw [hgx] at hgp; exact Option.some.inj hgp
          subst hrx
          obtain ⟨rcc, hgcc, hpcc⟩ := back_spec hBk hgx hcc'
          obtain ⟨rcc3, hgcc3, _, _, _, _, hparf⟩ := hsome3 cc rcc hgcc
          refine ⟨rcc3, hgcc3, ?_⟩
          rw [hparf]
          by_cases hccc : cc = c
          · rw [if_pos hccc]
          · rw [if_neg hccc]
            exact hpcc
        · have hccc : cc = c := List.mem_singleton.mp hcc'
          subst hccc
          obtain ⟨rc3, hgc3, _, _, _, _, hparf⟩ := hsome3 cc rc hgc
          refine ⟨rc3, hgc3, ?_⟩
          rw [hparf, if_pos rfl]
      · rw [if_neg hxp] at hcc
        obtain ⟨rcc, hgcc, hpcc⟩ := back_spec hBk hgx hcc
        have hccc : cc ≠ c := by
          intro he
          subst he
          rw [hgc] at hgcc
          have hrcc : rc = rcc := Option.some.inj hgcc
          rw [← hrcc, hparc] at hpcc
          exact Option.noConfusion hpcc
        obtain ⟨rcc3, hgcc3, _, _, _, _, hparf⟩ := hsome3 cc rcc hgcc
        refine ⟨rcc3, hgcc3, ?_⟩
        rw [hparf, if_neg hccc]
        exact hpcc
    · refine leaf_intro ?_
      intro a r3 hga3 hl3
      obtain ⟨ra, hga, _, hlev, _, hclf, _⟩ := hcorr3 a r3 hga3
      have hla : ra.level = .A := by rw [← hlev]; exact hl3
      rw [hclf]
      by_cases hap : a = p
      · subst hap
        rw [hga] at hgp
        have hra : ra = rp := Option.some.inj hgp
        rw [hra] at hla
        exact absurd hla hlp
      · rw [if_neg hap]
        exact leaf_spec hL hga hla
    · refine sane_intro ?_
      intro x
      rw [hfuel3]
      by_cases hcx : c ∈ chainA h (heapFuel h) x
      · have hwx : walkEnds h (heapFuel h) x = true := (sane_spec hS x).1
        have hndx : (chainA h (heapFuel h) x).Nodup := (sane_spec hS x).2
        have hchc : chainA h (heapFuel h) c = [c] := by
          rw [show heapFuel h = h.length + 1 from rfl]
          exact chainA_succ_root hgc hparc
        have hsfx : chainA h (heapFuel h) c <:+ chainA h (heapFuel h) x :=
          chain_suffix hwx hcx
        rw [hchc] at hsfx
        obtain ⟨l, hl⟩ := hsfx
        have hndlc : (l ++ [c]).Nodup := by rw [hl]; exact hndx
        have hcl : c ∉ l := by
          have hdd := (List.nodup_append.mp hndlc).2.2
          intro hmem
          exact hdd hmem (List.mem_singleton_self c)
        have hwp : walkEnds h (heapFuel h) p = true := (sane_spec hS p).1
        have hndp : (chainA h (heapFuel h) p).Nodup := (sane_spec hS p).2
        have hdisj : ∀ y ∈ l ++ [c], y ∉ chainA h (heapFuel h) p := by
          intro y hy hyP
          have hsy : chainA h (heapFuel h) y <:+ l ++ [c] := by
            rw [hl]
            refine chain_suffix hwx ?_
            rw [hl] at hy
            exact hy
          have hcy : c ∈ chainA h (heapFuel h) y := by
            refine mem_of_suffix_concat hsy ?_
            obtain ⟨ry, hgy⟩ := chain_valid (show y ∈ chainA h (heapFuel h) x by
              rw [hl] at hy; exact hy)
            intro hnil
            have hself := mem_chainA_self hgy
              (show 0 < heapFuel h by simp [heapFuel])
            rw [hnil] at hself
            exact absurd hself (by simp)
          have hsyp : chainA h (heapFuel h) y <:+ chainA h (heapFuel h) p :=
            chain_suffix hwp hyP
          exact hchain (hsyp.subset hcy)
        have hbig : ((l ++ [c]) ++ chainA h (heapFuel h) p).Nodup := by
          rw [List.nodup_append]
          exact ⟨hndlc, hndp, fun y hy => hdisj y hy⟩
        have hcount : ((l ++ [c]) ++ chainA h (heapFuel h) p).length ≤ h.length := by
          have hsubR : ((l ++ [c]) ++ chainA h (heapFuel h) p) ⊆
              List.range h.length := by
            intro y hy
            rcases List.mem_append.mp hy with hy' | hy'
            · obtain ⟨ry, hgy⟩ := chain_valid (show y ∈ chainA h (heapFuel h) x by
                rw [hl] at hy'; exact hy')
              exact List.mem_range.mpr (hget_some_lt hgy)
            · obtain ⟨ry, hgy⟩ := chain_valid hy'
              exact List.mem_range.mpr (hget_some_lt hgy)
          simpa using (hbig.subperm hsubR).length_le
        have hllen : l.length + 1 + (chainA h (heapFuel h) p).length ≤ h.length := by
          have hlc2 : ((l ++ [c]) ++ chainA h (heapFuel h) p).length =
              l.length + 1 + (chainA h (heapFuel h) p).length := by
            simp
            omega
          omega
        have hk1 : l.length + 1 + (heapFuel h - l.length - 1) = heapFuel h := by
          simp only [heapFuel] at *
          omega
        have hkL : (chainA h (heapFuel h) p).length + 1 ≤ heapFuel h - l.length - 1 := by
          simp only [heapFuel] at *
          omega
        obtain ⟨rc3, hgc3, _, _, _, _, hparf⟩ := hsome3 c rc hgc
        have hpc3 : rc3.parent = some p := by rw [hparf, if_pos rfl]
        have hrep := @chain_reparent _ (hset h2 p rpN) c hpar3
          l x (heapFuel h) hl.symm hcl (heapFuel h - l.length - 1)
        rw [hk1] at hrep
        have hwLp : walkEnds h ((chainA h (heapFuel h) p).length + 1) p = true :=
          walkEnds_of_short hwp
        have hstab1 : chainA h (heapFuel h - l.length - 1) p =
            chainA h ((chainA h (heapFuel h) p).length + 1) p :=
          chainA_stable hkL hwLp
        have hstab2 : chainA h (heapFuel h) p =
            chainA h ((chainA h (heapFuel h) p).length + 1) p :=
          chainA_stable (by simp only [heapFuel] at *; omega) hwLp
        have hkp : chainA h (heapFuel h - l.length - 1) p =
            chainA h (heapFuel h) p := by rw [hstab1, ← hstab2]
        have hframeP := @chain_parframe _ _ hlen3.symm (heapFuel h - l.length - 1) p ?_
        · have hwkp : walkEnds h (heapFuel h - l.length - 1) p = true :=
            walkEnds_mono hkL hwLp
          have hchain3 : chainA (hset h2 p rpN) (heapFuel h) x =
              l ++ c :: chainA h (heapFuel h) p := by
            rw [hrep.1, chainA_succ_step hgc3 hpc3, hframeP.1, hkp]
          have hwalk3 : walkEnds (hset h2 p rpN) (heapFuel h) x = true := by
            rw [hrep.2, walkEnds_succ_step hgc3 hpc3, hframeP.2]
            exact hwkp
          refine ⟨hwalk3, ?_⟩
          rw [hchain3]
          have hassoc : l ++ c :: chainA h (heapFuel h) p =
              (l ++ [c]) ++ chainA h (heapFuel h) p := by simp
          rw [hassoc]
          exact hbig
        · intro y hy
          refine hpar3 y ?_
          rcases List.mem_cons.mp hy with rfl | hy'
          · exact hpc
          · rw [hkp] at hy'
            exact fun e => hchain (e ▸ hy')
      · have hxc : x ≠ c := by
          intro he
          subst he
          exact hcx (mem_chainA_self hgc (by simp [heapFuel]))
        have hframe := @chain_parframe _ _ hlen3.symm (heapFuel h) x ?_
        · rw [hframe.1, hframe.2]
          exact sane_spec hS x
        · intro y hy
          refine hpar3 y ?_
          rcases List.mem_cons.mp hy with rfl | hy'
          · exact hxc
          · exact fun e => hcx (e ▸ hy')
    · refine cacheOK_intro ?_
      intro x rx3 hgx3 hlx3
      have hgenp : generateFullId h1 p = generateFullId h p := by
        unfold generateFullId
        rw [hfuel1]
        have hpf : fullIdParts h1 (heapFuel h) p = fullIdParts h (heapFuel h) p := by
          refine parts_frame hlen1.symm ?_
          intro y hy
          have hyc : y ≠ c := by
            rcases List.mem_cons.mp hy with rfl | hy'
            · exact hpc
            · exact fun e => hchain (e ▸ hy')
          unfold skelAt
          rw [h1look y, if_neg hyc]
          cases hget h y with
          | none => trivial
          | some ry => exact ⟨rfl, rfl⟩
        rw [hpf]
      rw [hlook x] at hgx3
      by_cases hxp : x = p
      · rw [if_pos hxp] at hgx3
        have hrx3 : rx3 = rpN := (Option.some.inj hgx3).symm
        subst hrx3
        rcases cache_spec hC hgp hlp with h0 | h0
        · exact Or.inl h0
        · right
          show rp.fullId = some (generateFullId (hset h2 p rpN) x)
          rw [h0, hxp, hgen13 p, hgenp]
      · rw [if_neg hxp] at hgx3
        by_cases hmem : x ∈ entSub h (heapFuel h) c
        · rw [if_pos hmem] at hgx3
          cases hg1x : hget h1 x with
          | none => rw [hg1x] at hgx3; exact Option.noConfusion hgx3
          | some rx1 =>
            rw [hg1x] at hgx3
            simp only [Option.map_some'] at hgx3
            have hrx3 : rx3 = { rx1 with fullId := some (generateFullId h1 x) } :=
              (Option.some.inj hgx3).symm
            right
            rw [hrx3]
            show some (generateFullId h1 x) = some (generateFullId (hset h2 p rpN) x)
            rw [hgen13 x]
        · rw [if_neg hmem] at hgx3
          have hxc : x ≠ c := by
            intro he
            subst he
            rw [h1look x, if_pos rfl] at hgx3
            have hrx3 : rx3 = rc1 := (Option.some.inj hgx3).symm
            have hlc1 : rc.level ≠ .A := by
              intro hcA
              refine hlx3 ?_
              rw [hrx3]
              exact hcA
            exact hmem (mem_entSub_head hgc hlc1 (by simp [heapFuel]))
          rw [h1look x, if_neg hxc] at hgx3
          have hlx : rx3.level ≠ .A := hlx3
          rcases cache_spec hC hgx3 hlx with h0 | h0
          · exact Or.inl h0
          · right
            rw [h0]
            have hchx : c ∉ chainA h (heapFuel h) x := by
              intro hcmem
              exact hmem (chain_to_entSub hP hL hcmem hgx3 hlx)
            have hgenx : generateFullId (hset h2 p rpN) x = generateFullId h x := by
              unfold generateFullId
              rw [hfuel3]
              have hpf : fullIdParts (hset h2 p rpN) (heapFuel h) x =
                  fullIdParts h (heapFuel h) x := by
                refine parts_frame hlen3.symm ?_
                intro y hy
                refine hskelh y ?_
                rcases List.mem_cons.mp hy with rfl | hy'
                · exact hxc
                · exact fun e => hchx (e ▸ hy')
              rw [hpf]
            rw [hgenx]
    · refine nowrap_intro ?_
      intro a r3 hga3
      obtain ⟨ra, hga, _, _, hwr, _, _⟩ := hcorr3 a r3 hga3
      rw [hwr]
      exact nowrap_spec hW hga

end Entity

namespace Entity

/-! ## Dictionary lemmas for the claim theorems -/

theorem dictGet_map_put {d : List (EId × Addr)} {k : EId} (v : Addr)
    (hh : dictHas d k = true) :
    dictGet (d.map (fun e => if e.1 = k then (k, v) else e)) k = some v := by
  induction d with
  | nil => simp [dictHas, dictGet] at hh
  | cons e rest ih =>
    by_cases he : e.1 = k
    · unfold dictGet
      rw [List.map_cons, if_pos he, List.find?_cons_of_pos _ (by simp)]
      rfl
    · have hh' : dictHas rest k = true := by
        unfold dictHas dictGet at hh ⊢
        rw [List.find?_cons_of_neg _ (by simp [he])] at hh
        exact hh
      unfold dictGet
      rw [List.map_cons, if_neg he, List.find?_cons_of_neg _ (by simp [he])]
      exact ih hh'

theorem dictGet_append_fresh {d : List (EId × Addr)} {k : EId} (v : Addr)
    (hh : dictHas d k = false) :
    dictGet (d ++ [(k, v)]) k = some v := by
  induction d with
  | nil =>
    unfold dictGet
    rw [List.nil_append, List.find?_cons_of_pos _ (by simp)]
    rfl
  | cons e rest ih =>
    by_cases he : e.1 = k
    · unfold dictHas dictGet at hh
      rw [List.find?_cons_of_pos _ (by simp [he])] at hh
      simp at hh
    · have hh' : dictHas rest k = false := by
        unfold dictHas dictGet at hh ⊢
        rw [List.find?_cons_of_neg _ (by simp [he])] at hh
        exact hh
      unfold dictGet
      rw [List.cons_append, List.find?_cons_of_neg _ (by simp [he])]
      exact ih hh'

theorem dictGet_dictPut_self (d : List (EId × Addr)) (k : EId) (v : Addr) :
    dictGet (dictPut d k v) k = some v := by
  unfold dictPut
  cases hh : dictHas d k
  · rw [if_neg (by simp)]
    exact dictGet_append_fresh v hh
  · rw [if_pos rfl]
    exact dictGet_map_put v hh

theorem dictKeys_dictPut_fresh {d : List (EId × Addr)} {k : EId} (v : Addr)
    (hh : dictHas d k = false) :
    dictKeys (dictPut d k v) = dictKeys d ++ [k] := by
  unfold dictPut
  rw [if_neg (by simp [hh])]
  simp [dictKeys]

/-! ## More agreement helpers -/

theorem lcAt_hset_keep {h : Heap} {x : Addr} {r r2 : NodeRec}
    (hr : hget h x = some r) (hl : r2.level = r.level)
    (hc : r2.childList = r.childList) : lcAt h (hset h x r2) := by
  intro y
  by_cases hy : y = x
  · subst hy
    rw [hr, hget_hset_self _ (hget_some_lt hr)]
    simp [hl, hc]
  · rw [hget_hset_ne _ hy]

theorem lcAt_comp {h1 h2 h3 : Heap} (a : lcAt h1 h2) (b : lcAt h2 h3) :
    lcAt h1 h3 := fun x => (a x).trans (b x)

end Entity

namespace Entity

/-! ## Concrete heaps for the witnesses and counterexamples -/

/-- A plain entity record with the given structural fields. -/
def mkRec (e : EId) (lv : Level) (par : Option Addr) (cl : List Addr)
    (cd : List (EId × Addr)) (fid : Option (List EId)) : NodeRec where
  eid := e
  level := lv
  parent := par
  childList := cl
  childDict := cd
  fullId := fid
  xtra := []
  coord := (0, 0, 0)
  mass := 0
  isWrapper := false
  selected := none

/-- Structure node `"P"`, before any attachment. -/
def rBase0 : NodeRec := mkRec (EId.s "P") Level.S none [] [] none

/-- Chain node `"C"`, before any attachment. -/
def rBase1 : NodeRec := mkRec (EId.s "C") Level.C none [] [] none

/-- Two fresh nodes: a structure `"P"` and a chain `"C"`. -/
def hBase : Heap := [rBase0, rBase1]

/-- The heap after `add`ing the chain to the structure. -/
def hAtt : Heap := (addE hBase 0 1).toOption.getD []

/-- The chain record after the `add` (parent set, cache eagerly filled). -/
def rAtt1 : NodeRec :=
  mkRec (EId.s "C") Level.C (some 0) [] [] (some [EId.s "P", EId.s "C"])

/-- The heap after detaching the chain from its parent again. -/
def hDet : Heap := detachParentE hAtt 1

end Entity

namespace Entity

/-- C1: claim of spec section on full ids.  For every grounded non-atom
node of a well-formed heap, the generated full id is the parent full id
extended by the own id (the bare own id at a root), and `get_full_id`
returns exactly this value, computing and caching it when the cache is
unset.  (The spec additionally asserts the property of the *cached*
value after arbitrary attach/detach sequences, which fails after
`detach_parent`; see the counterexample.) -/
theorem C1_full_id_recurrence {h : Heap} {a : Addr} {r : NodeRec} (hI : Inv h)
    (hr : hget h a = some r) (hl : r.level ≠ Level.A) (hg : Grounded h a) :
    (∀ p, r.parent = some p →
      generateFullId h a = generateFullId h p ++ [r.eid]) ∧
    (r.parent = none → generateFullId h a = [r.eid]) ∧
    (∃ h2, getFullId h a = some (generateFullId h a, h2) ∧ Inv h2) ∧
    (r.fullId = none →
      getFullId h a = some (generateFullId h a,
        hset h a { r with fullId := some (generateFullId h a) })) :=
  ⟨fun _ hp => generateFullId_parent hg hr hp,
   fun hp => generateFullId_root hr hp,
   getFullId_Inv hI hr hl,
   fun hf => getFullId_compute hr hf⟩

theorem C1_full_id_recurrence_witness :
    (∀ p, rAtt1.parent = some p →
      generateFullId hAtt 1 = generateFullId hAtt p ++ [rAtt1.eid]) ∧
    (rAtt1.parent = none → generateFullId hAtt 1 = [rAtt1.eid]) ∧
    (∃ h2, getFullId hAtt 1 = some (generateFullId hAtt 1, h2) ∧ Inv h2) ∧
    (rAtt1.fullId = none →
      getFullId hAtt 1 = some (generateFullId hAtt 1,
        hset hAtt 1 { rAtt1 with fullId := some (generateFullId hAtt 1) })) :=
  @C1_full_id_recurrence hAtt 1 rAtt1 (by decide) (by decide) (by decide)
    (by decide)

/-- C1 counterexample: after `add` followed by `detach_parent`, node 1
is a root named `"C"`, yet `get_full_id` returns the stale cached value
`["P", "C"]` instead of `["C"]`: the claimed identity between
`full_id(n)` and the path to `n` does not survive arbitrary
attach/detach sequences. -/
theorem C1_stale_full_id_after_detach :
    getFullId hDet 1 = some ([EId.s "P", EId.s "C"], hDet) ∧
    (hget hDet 1).map NodeRec.parent = some none ∧
    (hget hDet 1).map NodeRec.eid = some (EId.s "C") :=
  ⟨by decide, by decide, by decide⟩

end Entity

namespace Entity

/-- C2: corrected cache discipline.  `detach_parent` leaves every cached
`full_id` untouched (first conjunct: no invalidation at all), while a
successful `add` eagerly *recomputes* the cache of the attached child
and of every node of its subtree to the correct new value (second
conjunct) — the caches are not set to unset and recomputed on the next
read, and after a detach a stale-but-present cache remains (see the
counterexample). -/
theorem C2_eager_recompute {h h3 : Heap} {p c : Addr} {rp rc : NodeRec}
    (hI : Inv h) (hgp : hget h p = some rp) (hgc : hget h c = some rc)
    (hlp : rp.level ≠ Level.A) (hlc : rc.level ≠ Level.A)
    (hparc : rc.parent = none) (hchain : c ∉ chainA h (heapFuel h) p)
    (hok : addE h p c = .ok h3) :
    (∀ b x, (hget (detachParentE h b) x).map NodeRec.fullId =
        (hget h x).map NodeRec.fullId) ∧
    (∀ y, y ∈ entSub h (heapFuel h) c →
      (hget h3 y).map NodeRec.fullId = some (some (generateFullId h3 y))) := by
  have hI3 : Inv h3 := addE_Inv hI hgp hgc hlp hparc hchain hok
  have hpc : p ≠ c := by
    intro he
    subst he
    exact hchain (mem_chainA_self hgp (by simp [heapFuel]))
  have hpent : p ∉ entSub h (heapFuel h) c := by
    intro hmem
    exact hchain (entSub_to_chain hI.2.1 hI.2.2.2.1 hmem)
  have hdup : dictHas rp.childDict rc.eid = false := by
    cases hd : dictHas rp.childDict rc.eid
    · rfl
    · exfalso
      unfold addE at hok
      rw [hgp, hgc] at hok
      simp [hd] at hok
  rw [addE_ok_eq hgp hgc hdup hpc hpent, Except.ok.injEq] at hok
  subst hok
  constructor
  · intro b x
    unfold detachParentE
    cases hb : hget h b with
    | none => rfl
    | some rb =>
      by_cases hx : x = b
      · subst hx
        rw [hget_hset_self _ (hget_some_lt hb), hb]
        rfl
      · rw [hget_hset_ne _ hx]
  · intro y hy
    obtain ⟨ry, hgy, hly⟩ := mem_entSub_valid hy
    have hyp : y ≠ p := fun he => hpent (he ▸ hy)
    have hy1 : hget (hset h c { rc with parent := some p }) y =
        some (if y = c then { rc with parent := some p } else ry) := by
      by_cases hyc : y = c
      · subst hyc
        rw [if_pos rfl]
        exact hget_hset_self _ (hget_some_lt hgc)
      · rw [if_neg hyc, hget_hset_ne _ hyc]
        exact hgy
    have hlook := addE_lookup hgp hgc hpc hpent y
    rw [if_neg hyp, if_pos hy, hy1, Option.map_some'] at hlook
    obtain ⟨_, _, _, _, hC3, _⟩ := hI3
    have hlvl : ({ (if y = c then { rc with parent := some p } else ry) with
        fullId := some (generateFullId (hset h c { rc with parent := some p }) y)
        : NodeRec }).level ≠ Level.A := by
      by_cases hyc : y = c
      · simpa [hyc] using hlc
      · simpa [hyc] using hly
    have hfid := cache_spec hC3 hlook hlvl
    rcases hfid with h0 | h0
    · exact absurd h0 (by simp)
    · rw [hlook, Option.map_some', h0]

theorem C2_eager_recompute_witness :
    (∀ b x, (hget (detachParentE hBase b) x).map NodeRec.fullId =
        (hget hBase x).map NodeRec.fullId) ∧
    (∀ y, y ∈ entSub hBase (heapFuel hBase) 1 →
      (hget hAtt y).map NodeRec.fullId = some (some (generateFullId hAtt y))) :=
  @C2_eager_recompute hBase hAtt 0 1 rBase0 rBase1 (by decide) (by decide)
    (by decide) (by decide) (by decide) (by decide) (by decide) (by rfl)

/-- C2 counterexample: after `add` the child's cache is already present
(so `add` *does* eagerly recompute the child's `full_path`), and after
`detach_parent` the cache is stale-but-present: node 1 still caches
`["P", "C"]` although its correct full id is now `["C"]`. -/
theorem C2_stale_cache_after_detach :
    (hget hAtt 1).map NodeRec.fullId = some (some [EId.s "P", EId.s "C"]) ∧
    (hget hDet 1).map NodeRec.fullId = some (some [EId.s "P", EId.s "C"]) ∧
    generateFullId hDet 1 = [EId.s "C"] :=
  ⟨by decide, by decide, by decide⟩

end Entity

namespace Entity

/-- C3: `add` raises the duplicate error exactly when the child's id is
already a key of the parent's `child_dict`; the check precedes every
mutation, so a failing call returns the error with no heap change.  On
the fresh-id side the call succeeds and (i) sets the child's parent to
`p`, (ii) appends the child to `child_list`, and (iii) inserts the
child into `child_dict` under its id, the other keys preserved in
order. -/
theorem C3_add_duplicate_check {h : Heap} {p c : Addr} {rp rc : NodeRec}
    (hgp : hget h p = some rp) (hgc : hget h c = some rc)
    (hpc : p ≠ c) (hpent : p ∉ entSub h (heapFuel h) c) :
    (addE h p c = .error .duplicateId ↔ dictHas rp.childDict rc.eid = true) ∧
    (dictHas rp.childDict rc.eid = false →
      ∃ h3, addE h p c = .ok h3 ∧
        (hget h3 c).map NodeRec.parent = some (some p) ∧
        (hget h3 p).map NodeRec.childList = some (rp.childList ++ [c]) ∧
        (hget h3 p).map (fun q => dictGet q.childDict rc.eid) = some (some c) ∧
        (hget h3 p).map (fun q => dictKeys q.childDict) =
          some (dictKeys rp.childDict ++ [rc.eid])) := by
  have hsucc : dictHas rp.childDict rc.eid = false →
      ∃ h3, addE h p c = .ok h3 ∧
        (hget h3 c).map NodeRec.parent = some (some p) ∧
        (hget h3 p).map NodeRec.childList = some (rp.childList ++ [c]) ∧
        (hget h3 p).map (fun q => dictGet q.childDict rc.eid) = some (some c) ∧
        (hget h3 p).map (fun q => dictKeys q.childDict) =
          some (dictKeys rp.childDict ++ [rc.eid]) := by
    intro hdup
    refine ⟨_, addE_ok_eq hgp hgc hdup hpc hpent, ?_, ?_, ?_, ?_⟩
    · have hlook := addE_lookup hgp hgc hpc hpent c
      rw [if_neg (Ne.symm hpc)] at hlook
      have hgc1 : hget (hset h c { rc with parent := some p }) c =
          some { rc with parent := some p } :=
        hget_hset_self _ (hget_some_lt hgc)
      by_cases hmem : c ∈ entSub h (heapFuel h) c
      · rw [if_pos hmem, hgc1, Option.map_some'] at hlook
        rw [hlook]
        rfl
      · rw [if_neg hmem, hgc1] at hlook
        rw [hlook]
        rfl
    · have hlook := addE_lookup hgp hgc hpc hpent p
      rw [if_pos rfl] at hlook
      rw [hlook]
      rfl
    · have hlook := addE_lookup hgp hgc hpc hpent p
      rw [if_pos rfl] at hlook
      rw [hlook, Option.map_some']
      rw [dictGet_dictPut_self]
    · have hlook := addE_lookup hgp hgc hpc hpent p
      rw [if_pos rfl] at hlook
      rw [hlook, Option.map_some']
      rw [dictKeys_dictPut_fresh c hdup]
  refine ⟨⟨fun herr => ?_, fun hdup => ?_⟩, hsucc⟩
  · cases hd : dictHas rp.childDict rc.eid
    · exfalso
      obtain ⟨h3, hok, _⟩ := hsucc hd
      rw [hok] at herr
      exact Except.noConfusion herr
    · rfl
  · unfold addE
    rw [hgp, hgc]
    simp [hdup]

theorem C3_add_duplicate_check_witness :
    (addE hBase 0 1 = .error .duplicateId ↔
      dictHas rBase0.childDict rBase1.eid = true) ∧
    (dictHas rBase0.childDict rBase1.eid = false →
      ∃ h3, addE hBase 0 1 = .ok h3 ∧
        (hget h3 1).map NodeRec.parent = some (some 0) ∧
        (hget h3 0).map NodeRec.childList = some (rBase0.childList ++ [1]) ∧
        (hget h3 0).map (fun q => dictGet q.childDict rBase1.eid) =
          some (some 1) ∧
        (hget h3 0).map (fun q => dictKeys q.childDict) =
          some (dictKeys rBase0.childDict ++ [rBase1.eid])) :=
  @C3_add_duplicate_check hBase 0 1 rBase0 rBase1 (by decide) (by decide)
    (by decide) (by decide)

end Entity

namespace Entity

/-- Parent `"P"` with two chains `"X"` (address 1) and `"Y"` (address 2). -/
def hColl : Heap :=
  [mkRec (EId.s "P") Level.S none [1, 2] [(EId.s "X", 1), (EId.s "Y", 2)] none,
   mkRec (EId.s "X") Level.C (some 0) [] [] none,
   mkRec (EId.s "Y") Level.C (some 0) [] [] none]

/-- The record of node 1 of `hColl`. -/
def rColl1 : NodeRec := mkRec (EId.s "X") Level.C (some 0) [] [] none

/-- The record of node 0 of `hColl`. -/
def rColl0 : NodeRec :=
  mkRec (EId.s "P") Level.S none [1, 2] [(EId.s "X", 1), (EId.s "Y", 2)] none

/-- The heap after renaming the root of `hAtt` to `"Q"`. -/
def h9c : Heap := ((setIdE hAtt 0 (EId.s "Q")).toOption.getD (hAtt, false)).1

/-- C9: the id setter.  Setting the current id again is a no-op.  A
rename to an id already used by a sibling *succeeds* with the warning
flag set (it does not fail): the parent's `child_dict` is re-keyed from
the old id to the new one, with the renamed node's entry shadowing the
sibling's entry under the colliding key; the node's own id is updated;
and the node's `full_id` cache ends eagerly recomputed to the correct
new value (the spec's "invalidate, recompute on next read" is corrected
by the counterexample). -/
theorem C9_set_id_collision {h : Heap} {a p : Addr} {r rp : NodeRec} {v : EId}
    (hr : hget h a = some r) (hla : r.level ≠ Level.A)
    (hp : r.parent = some p) (hgp : hget h p = some rp) (hap : a ≠ p)
    (hne : v ≠ r.eid) (hcol : dictHas rp.childDict v = true)
    (hhas : dictHas rp.childDict r.eid = true)
    (hpent : p ∉ entSub h (heapFuel h) a) :
    setIdE h a r.eid = .ok (h, false) ∧
    ∃ h9, setIdE h a v = .ok (h9, true) ∧
      (hget h9 a).map NodeRec.eid = some v ∧
      (hget h9 p).map (fun q => dictGet q.childDict v) = some (some a) ∧
      (hget h9 a).map NodeRec.fullId =
        some (some (generateFullId h9 a)) := by
  refine ⟨setIdE_noop hr, ?_⟩
  have hdel : dictDel rp.childDict r.eid =
      some (rp.childDict.filter (fun e => !(e.1 == r.eid))) := by
    unfold dictDel
    rw [if_pos (by simp [hhas])]
  set d1 := rp.childDict.filter (fun e => !(e.1 == r.eid)) with hd1
  set hB := hset (hset h p { rp with childDict := dictPut d1 v a }) a
    { r with eid := v } with hhB
  have heq := setIdE_parent_eq hr hne hp hgp hdel hap
  rw [hcol] at heq
  have hlenB : hB.length = h.length := by
    rw [hhB, length_hset, length_hset]
  have hfB : heapFuel hB = heapFuel h := by simp [heapFuel, hlenB]
  have hga1 : hget (hset h p { rp with childDict := dictPut d1 v a }) a =
      some r := by
    rw [hget_hset_ne _ hap]
    exact hr
  have hgaB : hget hB a = some { r with eid := v } :=
    hget_hset_self _ (by rw [length_hset]; exact hget_some_lt hr)
  have hgpB : hget hB p =
      some { rp with childDict := dictPut d1 v a } := by
    rw [hhB, hget_hset_ne _ (Ne.symm hap)]
    exact hget_hset_self _ (hget_some_lt hgp)
  have hlc1 : lcAt h (hset h p { rp with childDict := dictPut d1 v a }) :=
    lcAt_hset_keep hgp rfl rfl
  have hlc2 : lcAt (hset h p { rp with childDict := dictPut d1 v a }) hB :=
    lcAt_hset_keep hga1 rfl rfl
  have hlcB : lcAt h hB := lcAt_comp hlc1 hlc2
  have hentB : ∀ x, entSub hB (heapFuel h) x = entSub h (heapFuel h) x :=
    entSub_congr_lc hlcB (heapFuel h)
  have hmemB : a ∈ entSub hB (heapFuel hB) a := by
    refine mem_entSub_head hgaB ?_ (by simp [heapFuel])
    simpa using hla
  have hpentB : p ∉ entSub hB (heapFuel hB) a := by
    rw [hfB, hentB]
    exact hpent
  have hgen : generateFullId (resetFullId (heapFuel hB) hB a) a =
      generateFullId hB a :=
    generateFullId_congr (eqExceptFid_resetFullId (heapFuel hB) hB a) a
  refine ⟨resetFullId (heapFuel hB) hB a, heq, ?_, ?_, ?_⟩
  · rw [resetFullId_spec, if_pos hmemB, hgaB]
    rfl
  · rw [resetFullId_spec, if_neg hpentB, hgpB, Option.map_some',
      dictGet_dictPut_self]
  · rw [hgen, resetFullId_spec, if_pos hmemB, hgaB, Option.map_some']
    rfl

theorem C9_set_id_collision_witness :
    setIdE hColl 1 rColl1.eid = .ok (hColl, false) ∧
    ∃ h9, setIdE hColl 1 (EId.s "Y") = .ok (h9, true) ∧
      (hget h9 1).map NodeRec.eid = some (EId.s "Y") ∧
      (hget h9 0).map (fun q => dictGet q.childDict (EId.s "Y")) =
        some (some 1) ∧
      (hget h9 1).map NodeRec.fullId =
        some (some (generateFullId h9 1)) :=
  @C9_set_id_collision hColl 1 0 rColl1 rColl0 (EId.s "Y") (by decide)
    (by decide) (by decide) (by decide) (by decide) (by decide) (by decide)
    (by decide) (by decide)

/-- C9 counterexample: renaming the root of `hAtt` to `"Q"` leaves the
descendant chain with a *present* and already-updated cache
`["Q", "C"]` immediately after the call — `set_id` recomputes the
caches eagerly rather than invalidating them for recomputation on the
next read. -/
theorem C9_descendant_cache_present :
    setIdE hAtt 0 (EId.s "Q") = .ok (h9c, false) ∧
    (hget h9c 1).map NodeRec.fullId = some (some [EId.s "Q", EId.s "C"]) :=
  ⟨by rfl, by decide⟩

end Entity

namespace Entity

/-- C8: forwarding through a disordered wrapper.  Selecting an absent
key fails with the lookup error and returns no new state; selecting a
present key stores the alternative, after which every forwarded
read-only operation (`len`, lookup, membership, iteration, `<`, `>`)
returns exactly what the operation applied directly to the selected
alternative returns; before any selection every forwarded operation
fails with the unselected error. -/
theorem C8_wrapper_forwarding {h : Heap} {w : Addr} {r : NodeRec}
    (hw : hget h w = some r) :
    (∀ k, dictGet r.childDict k = none → wSelect h w k = .error .keyError) ∧
    (∀ k c, dictGet r.childDict k = some c →
      ∃ h2, wSelect h w k = .ok h2 ∧
        h2 = hset h w { r with selected := some c } ∧
        wLen h2 w = entityLen h2 c ∧
        (∀ j, wItem h2 w j = entityItem h2 c j) ∧
        (∀ j, wHas h2 w j = entityHas h2 c j) ∧
        wIter h2 w = entityIter h2 c ∧
        (∀ b, wLt h2 w b = pyLtB h2 c b) ∧
        (∀ b, wGt h2 w b = pyGtB h2 c b)) ∧
    (r.selected = none →
      wLen h w = .error .unselected ∧
      (∀ j, wItem h w j = .error .unselected) ∧
      (∀ j, wHas h w j = .error .unselected) ∧
      wIter h w = .error .unselected ∧
      (∀ b, wLt h w b = .error .unselected) ∧
      (∀ b, wGt h w b = .error .unselected)) := by
  refine ⟨?_, ?_, ?_⟩
  · intro k hk
    simp [wSelect, hw, hk]
  · intro k c hk
    refine ⟨hset h w { r with selected := some c }, ?_, rfl, ?_⟩
    · simp [wSelect, hw, hk]
    · have hw2 : hget (hset h w { r with selected := some c }) w =
          some { r with selected := some c } :=
        hget_hset_self _ (hget_some_lt hw)
      refine ⟨?_, fun j => ?_, fun j => ?_, ?_, fun b => ?_, fun b => ?_⟩
      · simp [wLen, hw2]
      · simp [wItem, hw2]
      · simp [wHas, hw2]
      · simp [wIter, hw2]
      · simp [wLt, hw2]
      · simp [wGt, hw2]
  · intro hsel
    refine ⟨?_, fun j => ?_, fun j => ?_, ?_, fun b => ?_, fun b => ?_⟩
    · simp [wLen, hw, hsel]
    · simp [wItem, hw, hsel]
    · simp [wHas, hw, hsel]
    · simp [wIter, hw, hsel]
    · simp [wLt, hw, hsel]
    · simp [wGt, hw, hsel]

/-- A disordered wrapper over two alternative atoms, nothing selected. -/
def rW0 : NodeRec :=
  { mkRec (EId.s "CA") Level.A none [] [(EId.s "A", 1), (EId.s "B", 2)] none
      with isWrapper := true }

/-- The wrapper heap: the wrapper and its two alternative atoms. -/
def hW : Heap :=
  [rW0,
   mkRec (EId.s "A") Level.A none [] [] none,
   mkRec (EId.s "B") Level.A none [] [] none]

theorem C8_wrapper_forwarding_witness :
    (∀ k, dictGet rW0.childDict k = none →
      wSelect hW 0 k = .error .keyError) ∧
    (∀ k c, dictGet rW0.childDict k = some c →
      ∃ h2, wSelect hW 0 k = .ok h2 ∧
        h2 = hset hW 0 { rW0 with selected := some c } ∧
        wLen h2 0 = entityLen h2 c ∧
        (∀ j, wItem h2 0 j = entityItem h2 c j) ∧
        (∀ j, wHas h2 0 j = entityHas h2 c j) ∧
        wIter h2 0 = entityIter h2 c ∧
        (∀ b, wLt h2 0 b = pyLtB h2 c b) ∧
        (∀ b, wGt h2 0 b = pyGtB h2 c b)) ∧
    (rW0.selected = none →
      wLen hW 0 = .error .unselected ∧
      (∀ j, wItem hW 0 j = .error .unselected) ∧
      (∀ j, wHas hW 0 j = .error .unselected) ∧
      wIter hW 0 = .error .unselected ∧
      (∀ b, wLt hW 0 b = .error .unselected) ∧
      (∀ b, wGt hW 0 b = .error .unselected)) :=
  @C8_wrapper_forwarding hW 0 rW0 (by decide)

end Entity

namespace Entity

/-- Atom `"A"` below root `"R1"`, at the origin. -/
def rCmp2 : NodeRec :=
  mkRec (EId.s "A") Level.A (some 0) [] [] (some [EId.s "R1", EId.s "A"])

/-- Atom `"A"` below root `"R2"`, displaced along the first axis. -/
def rCmp3 : NodeRec :=
  { mkRec (EId.s "A") Level.A (some 1) [] []
      (some [EId.s "R2", EId.s "A"]) with coord := (1, 0, 0) }

/-- Two atoms named `"A"` with the same path below *different* roots
and different coordinates. -/
def hCmp : Heap :=
  [mkRec (EId.s "R1") Level.S none [2] [(EId.s "A", 2)] none,
   mkRec (EId.s "R2") Level.S none [3] [(EId.s "A", 3)] none,
   rCmp2,
   rCmp3]

/-- C7: comparisons.  Equality on same-level nodes compares the cached
full id with the root id dropped (the bare id at a root), so it is
reflexive (given the reachable-state property that an attached node has
a cache) and holds across different root instances whenever the paths
below the roots agree; nodes of different concrete levels are never
equal and ordering them is a type error; and two equal-by-path atoms
with different coordinates are distinguished by `strictly_equals`. -/
theorem C7_path_comparison {h : Heap} {a b : Addr} {ra rb : NodeRec}
    (hga : hget h a = some ra) (hgb : hget h b = some rb)
    (hwa : ra.isWrapper = false) (hwb : rb.isWrapper = false)
    (hca : ra.parent = none ∨ ra.fullId ≠ none) :
    pyEqB h a a = .ok true ∧
    (ra.level ≠ rb.level → a ≠ b →
      pyEqB h a b = .ok false ∧ pyLtB h a b = .error .typeError ∧
      pyGtB h a b = .error .typeError) ∧
    (∀ la lb q, ra.level = rb.level → ra.fullId = some la →
      rb.fullId = some lb → ra.parent = some q →
      la.tail = lb.tail → pyEqB h a b = .ok true) ∧
    (pyEqB hCmp 2 3 = .ok true ∧
      strictlyEquals (heapFuel hCmp) hCmp 2 3 true = .ok false) := by
  refine ⟨?_, ?_, ?_, by rfl, by rfl⟩
  · cases hpar : ra.parent with
    | none => simp [pyEqB, hga, hwa, hpar]
    | some q =>
      rcases hca with hc | hc
      · rw [hpar] at hc
        exact Option.noConfusion hc
      · cases hl : ra.fullId with
        | none => exact absurd hl hc
        | some l => simp [pyEqB, hga, hwa, hpar, hl]
  · intro hlv hab
    refine ⟨?_, ?_, ?_⟩
    · simp [pyEqB, hga, hgb, hwa, hwb, hlv, hab]
    · simp [pyLtB, pyCmpB, hga, hgb, hwa, hwb, hlv]
    · simp [pyGtB, pyCmpB, hga, hgb, hwa, hwb, hlv]
  · intro la lb q hlv hla hlb hq htail
    simp [pyEqB, hga, hgb, hwa, hwb, hlv, hq, hla, hlb, htail]

theorem C7_path_comparison_witness :
    pyEqB hCmp 2 2 = .ok true ∧
    (rCmp2.level ≠ rCmp3.level → (2 : Addr) ≠ 3 →
      pyEqB hCmp 2 3 = .ok false ∧ pyLtB hCmp 2 3 = .error .typeError ∧
      pyGtB hCmp 2 3 = .error .typeError) ∧
    (∀ la lb q, rCmp2.level = rCmp3.level → rCmp2.fullId = some la →
      rCmp3.fullId = some lb → rCmp2.parent = some q →
      la.tail = lb.tail → pyEqB hCmp 2 3 = .ok true) ∧
    (pyEqB hCmp 2 3 = .ok true ∧
      strictlyEquals (heapFuel hCmp) hCmp 2 3 true = .ok false) :=
  @C7_path_comparison hCmp 2 3 rCmp2 rCmp3
    (by decide) (by decide) (by decide) (by decide) (by decide)

end Entity

namespace Entity

/-! ## `center_of_mass` lemmas -/

theorem mapM_except_ne {α β : Type} (f : α → Except PyErr β) (v : PyErr) :
    ∀ l : List α, (∀ c ∈ l, f c ≠ .error v) → l.mapM f ≠ .error v := by
  intro l
  induction l with
  | nil =>
    intro _ hc
    rw [List.mapM_nil] at hc
    exact Except.noConfusion hc
  | cons c rest ih =>
    intro hf hc
    rw [List.mapM_cons] at hc
    rcases hfc : f c with e1 | b1
    · rw [hfc] at hc
      have hc2 : (Except.error e1 : Except PyErr (List β)) =
          Except.error v := hc
      exact hf c (List.mem_cons_self c rest) (by rw [hfc, Except.error.inj hc2])
    · rw [hfc] at hc
      have hc2 : ((rest.mapM f).bind (fun bs => Except.ok (b1 :: bs))) =
          Except.error v := hc
      rcases hm : rest.mapM f with e2 | bs
      · rw [hm] at hc2
        have hc3 : (Except.error e2 : Except PyErr (List β)) =
            Except.error v := hc2
        exact ih (fun x hx => hf x (List.mem_cons_of_mem _ hx))
          (by rw [hm, Except.error.inj hc3])
      · rw [hm] at hc2
        have hc3 : (Except.ok (b1 :: bs) : Except PyErr (List β)) =
            Except.error v := hc2
        exact Except.noConfusion hc3

theorem unpackedList_ne_value {h : Heap} {e : Addr} :
    unpackedList h e ≠ .error .valueError := by
  unfold unpackedList
  cases hr : hget h e with
  | none =>
    intro hc
    have hc2 : (Except.error PyErr.keyError : Except PyErr (List Addr)) =
        Except.error PyErr.valueError := hc
    exact PyErr.noConfusion (Except.error.inj hc2)
  | some r =>
    refine mapM_except_ne _ _ r.childList ?_
    intro c _ hc
    cases hgc : hget h c with
    | none =>
      rw [hgc] at hc
      have hc2 : (Except.error PyErr.keyError : Except PyErr Addr) =
          Except.error PyErr.valueError := hc
      exact PyErr.noConfusion (Except.error.inj hc2)
    | some rc =>
      rw [hgc] at hc
      have hcw : (if rc.isWrapper = true then
          (match rc.selected with
            | none => Except.error PyErr.unselected
            | some s => Except.ok s)
          else Except.ok c) = Except.error PyErr.valueError := hc
      by_cases hwc : rc.isWrapper = true
      · rw [if_pos hwc] at hcw
        cases hsel : rc.selected with
        | none =>
          rw [hsel] at hcw
          have hc2 : (Except.error PyErr.unselected : Except PyErr Addr) =
              Except.error PyErr.valueError := hcw
          exact PyErr.noConfusion (Except.error.inj hc2)
        | some sx =>
          rw [hsel] at hcw
          exact Except.noConfusion hcw
      · rw [if_neg hwc] at hcw
        exact Except.noConfusion hcw

theorem comLoop_cons_eq (fuel : Nat) (h : Heap) (e : Addr)
    (rest : List Addr) :
    comLoop (fuel + 1) h (e :: rest) =
      (match hget h e with
        | none => Except.error PyErr.keyError
        | some r =>
          if r.level = Level.R ∨ r.level = Level.C then unpackedList h e
          else Except.ok r.childList).bind
        (fun exp =>
          if allAtoms h (rest ++ exp) then Except.ok (rest ++ exp)
          else comLoop fuel h (rest ++ exp)) := rfl

theorem comLoop_ne_value : ∀ {fuel : Nat} {h : Heap} {q : List Addr},
    comLoop fuel h q ≠ .error .valueError := by
  intro fuel
  induction fuel with
  | zero =>
    intro h q hc
    have hc2 : (Except.error PyErr.fuel : Except PyErr (List Addr)) =
        Except.error PyErr.valueError := hc
    exact PyErr.noConfusion (Except.error.inj hc2)
  | succ fuel ih =>
    intro h q hc
    cases q with
    | nil =>
      have hc2 : (Except.error PyErr.indexError : Except PyErr (List Addr)) =
          Except.error PyErr.valueError := hc
      exact PyErr.noConfusion (Except.error.inj hc2)
    | cons e rest =>
      rw [comLoop_cons_eq] at hc
      rcases hx : (match hget h e with
        | none => Except.error PyErr.keyError
        | some r =>
          if r.level = Level.R ∨ r.level = Level.C then unpackedList h e
          else Except.ok r.childList : Except PyErr (List Addr)) with e1 | exp
      · rw [hx] at hc
        have hc2 : (Except.error e1 : Except PyErr (List Addr)) =
            Except.error PyErr.valueError := hc
        have he1 : e1 = PyErr.valueError := Except.error.inj hc2
        subst he1
        cases hge : hget h e with
        | none =>
          rw [hge] at hx
          exact PyErr.noConfusion (Except.error.inj hx)
        | some r =>
          rw [hge] at hx
          have hx2 : (if r.level = Level.R ∨ r.level = Level.C then
              unpackedList h e else Except.ok r.childList) =
              Except.error PyErr.valueError := hx
          by_cases hlv : r.level = Level.R ∨ r.level = Level.C
          · rw [if_pos hlv] at hx2
            exact unpackedList_ne_value hx2
          · rw [if_neg hlv] at hx2
            exact Except.noConfusion hx2
      · rw [hx] at hc
        have hc2 : (if allAtoms h (rest ++ exp) then Except.ok (rest ++ exp)
            else comLoop fuel h (rest ++ exp)) =
            Except.error PyErr.valueError := hc
        by_cases hall : allAtoms h (rest ++ exp) = true
        · rw [hall, if_pos rfl] at hc2
          exact Except.noConfusion hc2
        · rw [if_neg hall] at hc2
          exact ih hc2

theorem comLoop_ok_atoms : ∀ {fuel : Nat} {h : Heap} {q l : List Addr},
    comLoop fuel h q = .ok l → allAtoms h l = true := by
  intro fuel
  induction fuel with
  | zero =>
    intro h q l hc
    have hc2 : (Except.error PyErr.fuel : Except PyErr (List Addr)) =
        Except.ok l := hc
    exact Except.noConfusion hc2
  | succ fuel ih =>
    intro h q l hc
    cases q with
    | nil =>
      have hc2 : (Except.error PyErr.indexError : Except PyErr (List Addr)) =
          Except.ok l := hc
      exact Except.noConfusion hc2
    | cons e rest =>
      rw [comLoop_cons_eq] at hc
      rcases hx : (match hget h e with
        | none => Except.error PyErr.keyError
        | some r =>
          if r.level = Level.R ∨ r.level = Level.C then unpackedList h e
          else Except.ok r.childList : Except PyErr (List Addr)) with e1 | exp
      · rw [hx] at hc
        have hc2 : (Except.error e1 : Except PyErr (List Addr)) =
            Except.ok l := hc
        exact Except.noConfusion hc2
      · rw [hx] at hc
        have hc2 : (if allAtoms h (rest ++ exp) then Except.ok (rest ++ exp)
            else comLoop fuel h (rest ++ exp)) = Except.ok l := hc
        by_cases hall : allAtoms h (rest ++ exp) = true
        · rw [hall, if_pos rfl] at hc2
          rw [← Except.ok.inj hc2]
          exact hall
        · rw [if_neg hall] at hc2
          exact ih hc2

theorem allAtoms_ne_nil {h : Heap} {l : List Addr}
    (hall : allAtoms h l = true) : l ≠ [] := by
  intro he
  subst he
  simp [allAtoms] at hall

/-! ## Exact vector arithmetic -/

theorem vsum_singleton (c : Vec3) : vsum [c] = c := by
  obtain ⟨x, y, z⟩ := c
  simp [vsum, vadd]

theorem vsmul_one_eq (c : Vec3) : vsmul 1 c = c := by
  obtain ⟨x, y, z⟩ := c
  simp [vsmul]

theorem vsmul_inv_self {m : ℚ} (hm : m ≠ 0) (c : Vec3) :
    vsmul (1 / m) (vsmul m c) = c := by
  obtain ⟨x, y, z⟩ := c
  simp [vsmul]
  refine ⟨?_, ?_, ?_⟩
  all_goals field_simp

end Entity

namespace Entity

theorem centerOfMass_eq (h : Heap) (a : Addr) (r : NodeRec) (g : Bool)
    (hr : hget h a = some r) :
    centerOfMass h a g =
      if r.childList.length = 0 then Except.error PyErr.valueError
      else (comLoop (heapFuel h) h [a]).bind (fun atoms =>
        if g then
          (if atoms.length = 0 then Except.error PyErr.zeroDivision
           else Except.ok (vsmul (1 / (atoms.length : ℚ))
             (vsum (atoms.map (coordD h)))))
        else
          (if (atoms.map (massD h)).sum = 0 then
            Except.error PyErr.zeroDivision
           else Except.ok (vsmul (1 / (atoms.map (massD h)).sum)
             (vsum (List.zipWith vsmul (atoms.map (massD h))
               (atoms.map (coordD h))))))) := by
  unfold centerOfMass
  rw [hr]
  rfl

theorem centerOfMass_err_eq {h : Heap} {a : Addr} {r : NodeRec} {e1 : PyErr}
    (g : Bool) (hr : hget h a = some r) (hclen : r.childList.length ≠ 0)
    (hcm : comLoop (heapFuel h) h [a] = .error e1) :
    centerOfMass h a g = .error e1 := by
  rw [centerOfMass_eq h a r g hr, if_neg hclen, hcm]
  rfl

theorem centerOfMass_ok_eq {h : Heap} {a : Addr} {r : NodeRec}
    {atoms : List Addr} (g : Bool) (hr : hget h a = some r)
    (hclen : r.childList.length ≠ 0)
    (hcm : comLoop (heapFuel h) h [a] = .ok atoms) :
    centerOfMass h a g =
      if g then
        (if atoms.length = 0 then Except.error PyErr.zeroDivision
         else Except.ok (vsmul (1 / (atoms.length : ℚ))
           (vsum (atoms.map (coordD h)))))
      else
        (if (atoms.map (massD h)).sum = 0 then
          Except.error PyErr.zeroDivision
         else Except.ok (vsmul (1 / (atoms.map (massD h)).sum)
           (vsum (List.zipWith vsmul (atoms.map (massD h))
             (atoms.map (coordD h)))))) := by
  rw [centerOfMass_eq h a r g hr, if_neg hclen, hcm]
  rfl

/-- C4: corrected `center_of_mass`.  The empty-container error is
raised exactly when the node has no *children* (not: no descendants —
a childless child makes the call fail with the deque's index error
instead, see the counterexample).  When the expansion loop returns the
atom list, the geometric result is the plain mean of the atom
coordinates, the default result is the mass-weighted mean, and a
single-leaf subtree yields that leaf's own coordinate; disorder is
resolved through the selected alternative inside the loop
(`get_unpacked_list`). -/
theorem C4_center_of_mass {h : Heap} {a : Addr} {r : NodeRec} (g : Bool)
    (hr : hget h a = some r) :
    (centerOfMass h a g = .error .valueError ↔ r.childList = []) ∧
    (∀ atoms, comLoop (heapFuel h) h [a] = .ok atoms → r.childList ≠ [] →
      (centerOfMass h a true =
        .ok (vsmul (1 / (atoms.length : ℚ)) (vsum (atoms.map (coordD h))))) ∧
      ((atoms.map (massD h)).sum ≠ 0 →
        centerOfMass h a false =
          .ok (vsmul (1 / (atoms.map (massD h)).sum)
            (vsum (List.zipWith vsmul (atoms.map (massD h))
              (atoms.map (coordD h)))))) ∧
      (∀ x, atoms = [x] → massD h x ≠ 0 →
        centerOfMass h a true = .ok (coordD h x) ∧
        centerOfMass h a false = .ok (coordD h x))) := by
  constructor
  · constructor
    · intro herr
      by_cases hcl : r.childList.length = 0
      · exact List.length_eq_zero.mp hcl
      · exfalso
        rcases hcm : comLoop (heapFuel h) h [a] with e1 | atoms
        · rw [centerOfMass_err_eq g hr hcl hcm] at herr
          have he1 : e1 = PyErr.valueError := Except.error.inj herr
          exact comLoop_ne_value (by rw [hcm, he1])
        · rw [centerOfMass_ok_eq g hr hcl hcm] at herr
          cases g
          · rw [if_neg (fun hh => Bool.noConfusion hh)] at herr
            by_cases hms : (atoms.map (massD h)).sum = 0
            · rw [if_pos hms] at herr
              exact PyErr.noConfusion (Except.error.inj herr)
            · rw [if_neg hms] at herr
              exact Except.noConfusion herr
          · rw [if_pos rfl] at herr
            by_cases hlz : atoms.length = 0
            · rw [if_pos hlz] at herr
              exact PyErr.noConfusion (Except.error.inj herr)
            · rw [if_neg hlz] at herr
              exact Except.noConfusion herr
    · intro hcl
      rw [centerOfMass_eq h a r g hr, if_pos (by rw [hcl]; rfl)]
  · intro atoms hcm hcl
    have hall := comLoop_ok_atoms hcm
    have hne : atoms ≠ [] := allAtoms_ne_nil hall
    have hlen : atoms.length ≠ 0 := fun hz => hne (List.length_eq_zero.mp hz)
    have hclen : r.childList.length ≠ 0 :=
      fun hz => hcl (List.length_eq_zero.mp hz)
    have hgeo : centerOfMass h a true =
        .ok (vsmul (1 / (atoms.length : ℚ)) (vsum (atoms.map (coordD h)))) := by
      rw [centerOfMass_ok_eq true hr hclen hcm, if_pos rfl, if_neg hlen]
    have hmass : (atoms.map (massD h)).sum ≠ 0 →
        centerOfMass h a false =
          .ok (vsmul (1 / (atoms.map (massD h)).sum)
            (vsum (List.zipWith vsmul (atoms.map (massD h))
              (atoms.map (coordD h))))) := by
      intro hms
      rw [centerOfMass_ok_eq false hr hclen hcm,
        if_neg (fun hh => Bool.noConfusion hh), if_neg hms]
    refine ⟨hgeo, hmass, ?_⟩
    intro x hx hmx
    subst hx
    constructor
    · rw [hgeo]
      simp only [List.map_cons, List.map_nil, List.length_cons,
        List.length_nil, vsum_singleton]
      norm_num [vsmul_one_eq]
    · have hsum : ([x].map (massD h)).sum = massD h x := by simp
      have h2 := hmass (by rw [hsum]; exact hmx)
      rw [h2]
      simp only [List.map_cons, List.map_nil, List.zipWith_cons_cons,
        List.zipWith_nil_right, vsum_singleton, hsum]
      rw [show ([massD h x].sum) = massD h x from by simp]
      rw [vsmul_inv_self hmx]

/-- A residue whose only child is a disordered wrapper with the
alternative `"A"` (at the origin moved to `(4,0,0)`) selected and the
alternative `"B"` unselected. -/
def hComW : Heap :=
  [mkRec (EId.s "res") Level.R none [1] [(EId.s "CA", 1)] none,
   { mkRec (EId.s "CA") Level.A (some 0) []
       [(EId.s "A", 2), (EId.s "B", 3)] none with
       isWrapper := true, selected := some 2 },
   { mkRec (EId.s "A") Level.A (some 1) [] [] none with
       coord := (4, 0, 0), mass := 1 },
   { mkRec (EId.s "B") Level.A (some 1) [] [] none with
       coord := (0, 0, 0), mass := 1 }]

/-- The record of node 0 of `hComW`. -/
def rComW0 : NodeRec := mkRec (EId.s "res") Level.R none [1] [(EId.s "CA", 1)] none

theorem C4_center_of_mass_witness :
    (centerOfMass hComW 0 false = .error .valueError ↔
      rComW0.childList = []) ∧
    (∀ atoms, comLoop (heapFuel hComW) hComW [0] = .ok atoms →
      rComW0.childList ≠ [] →
      (centerOfMass hComW 0 true =
        .ok (vsmul (1 / (atoms.length : ℚ))
          (vsum (atoms.map (coordD hComW))))) ∧
      ((atoms.map (massD hComW)).sum ≠ 0 →
        centerOfMass hComW 0 false =
          .ok (vsmul (1 / (atoms.map (massD hComW)).sum)
            (vsum (List.zipWith vsmul (atoms.map (massD hComW))
              (atoms.map (coordD hComW)))))) ∧
      (∀ x, atoms = [x] → massD hComW x ≠ 0 →
        centerOfMass hComW 0 true = .ok (coordD hComW x) ∧
        centerOfMass hComW 0 false = .ok (coordD hComW x))) :=
  @C4_center_of_mass hComW 0 rComW0 false (by decide)

/-- A chain whose single residue has no atoms. -/
def hEmptyR : Heap :=
  [mkRec (EId.s "C") Level.C none [1] [(EId.s "r", 1)] none,
   mkRec (EId.s "r") Level.R (some 0) [] [] none]

/-- C4 counterexample: the chain node has a descendant (the empty
residue), so by the claim `center_of_mass` should not raise the
empty-container error and should average the (zero) leaf atoms; the
code instead pops an empty deque and dies with `IndexError`. -/
theorem C4_index_error_on_atomless_subtree :
    centerOfMass hEmptyR 0 false = .error .indexError ∧
    (hget hEmptyR 0).map NodeRec.childList = some [1] :=
  ⟨by rfl, by decide⟩

end Entity

namespace Entity

/-! ## The `transform` frame -/

/-- A record with its coordinate blanked: what `transform` must
preserve. -/
def recNoCoord (r : NodeRec) : NodeRec := { r with coord := (0, 0, 0) }

/-- The two heaps agree everywhere on everything except coordinates. -/
def ncAt (h h2 : Heap) : Prop :=
  ∀ x, (hget h2 x).map recNoCoord = (hget h x).map recNoCoord

theorem ncAt_refl (h : Heap) : ncAt h h := fun _ => rfl

theorem ncAt_none {h h2 : Heap} {x : Addr} (hnc : ncAt h h2)
    (hr : hget h x = none) : hget h2 x = none := by
  have hmm := hnc x
  rw [hr] at hmm
  cases hx : hget h2 x with
  | none => rfl
  | some r2 => rw [hx] at hmm; simp at hmm

theorem ncAt_some {h h2 : Heap} {x : Addr} {r : NodeRec} (hnc : ncAt h h2)
    (hr : hget h x = some r) :
    ∃ r2, hget h2 x = some r2 ∧ recNoCoord r2 = recNoCoord r := by
  have hmm := hnc x
  rw [hr] at hmm
  cases hx : hget h2 x with
  | none => rw [hx] at hmm; simp at hmm
  | some r2 =>
    rw [hx, Option.map_some', Option.map_some'] at hmm
    exact ⟨r2, rfl, Option.some.inj hmm⟩

theorem recNoCoord_fields {r r2 : NodeRec} (hrr : recNoCoord r = recNoCoord r2) :
    r.eid = r2.eid ∧ r.level = r2.level ∧ r.parent = r2.parent ∧
    r.childList = r2.childList ∧ r.childDict = r2.childDict ∧
    r.fullId = r2.fullId ∧ r.xtra = r2.xtra ∧ r.mass = r2.mass ∧
    r.isWrapper = r2.isWrapper ∧ r.selected = r2.selected := by
  cases r
  cases r2
  simp only [recNoCoord, NodeRec.mk.injEq] at hrr
  simp only []
  tauto

theorem tsub_zero (h : Heap) (a : Addr) : tsub 0 h a = [] := rfl

theorem tsub_succ_miss {h : Heap} {a : Addr} {fuel : Nat}
    (hr : hget h a = none) : tsub (fuel + 1) h a = [] := by
  simp [tsub, hr]

theorem tsub_succ_wrap_none {h : Heap} {a : Addr} {r : NodeRec} {fuel : Nat}
    (hr : hget h a = some r) (hw : r.isWrapper = true)
    (hs : r.selected = none) : tsub (fuel + 1) h a = [] := by
  simp [tsub, hr, hw, hs]

theorem tsub_succ_wrap_some {h : Heap} {a sx : Addr} {r : NodeRec} {fuel : Nat}
    (hr : hget h a = some r) (hw : r.isWrapper = true)
    (hs : r.selected = some sx) : tsub (fuel + 1) h a = tsub fuel h sx := by
  simp [tsub, hr, hw, hs]

theorem tsub_succ_atom {h : Heap} {a : Addr} {r : NodeRec} {fuel : Nat}
    (hr : hget h a = some r) (hw : r.isWrapper = false)
    (hl : r.level = Level.A) : tsub (fuel + 1) h a = [a] := by
  simp [tsub, hr, hw, hl]

theorem tsub_succ_node {h : Heap} {a : Addr} {r : NodeRec} {fuel : Nat}
    (hr : hget h a = some r) (hw : r.isWrapper = false)
    (hl : r.level ≠ Level.A) :
    tsub (fuel + 1) h a = r.childList.flatMap (tsub fuel h) := by
  simp [tsub, hr, hw, hl]

theorem tsub_congr {h h2 : Heap} (hnc : ncAt h h2) :
    ∀ (fuel : Nat) (a : Addr), tsub fuel h2 a = tsub fuel h a := by
  intro fuel
  induction fuel with
  | zero => intro a; rfl
  | succ fuel ih =>
    intro a
    cases hr : hget h a with
    | none => rw [tsub_succ_miss hr, tsub_succ_miss (ncAt_none hnc hr)]
    | some r =>
      obtain ⟨r2, hr2, hrr⟩ := ncAt_some hnc hr
      obtain ⟨_, hlv, _, hcl, _, _, _, _, hwr, hsel⟩ := recNoCoord_fields hrr
      cases hw : r.isWrapper with
      | true =>
        cases hs : r.selected with
        | none =>
          rw [tsub_succ_wrap_none hr hw hs,
            tsub_succ_wrap_none hr2 (hwr ▸ hw) (hsel ▸ hs)]
        | some sx =>
          rw [tsub_succ_wrap_some hr hw hs,
            tsub_succ_wrap_some hr2 (hwr ▸ hw) (hsel ▸ hs)]
          exact ih sx
      | false =>
        by_cases hl : r.level = Level.A
        · rw [tsub_succ_atom hr hw hl,
            tsub_succ_atom hr2 (hwr ▸ hw) (hlv ▸ hl)]
        · rw [tsub_succ_node hr hw hl,
            tsub_succ_node hr2 (hwr ▸ hw) (fun hc => hl (by rw [hlv] at hc; exact hc)),
            hcl]
          have hfx : tsub fuel h2 = tsub fuel h := funext ih
          rw [hfx]

theorem transformE_zero (h : Heap) (a : Addr) (m : Mat3) (t : Vec3) :
    transformE 0 h a m t = .error .fuel := rfl

theorem transformE_succ_miss {h : Heap} {a : Addr} {m : Mat3} {t : Vec3}
    {fuel : Nat} (hr : hget h a = none) :
    transformE (fuel + 1) h a m t = .error .keyError := by
  simp [transformE, hr]

theorem transformE_succ_wrap_none {h : Heap} {a : Addr} {r : NodeRec}
    {m : Mat3} {t : Vec3} {fuel : Nat} (hr : hget h a = some r)
    (hw : r.isWrapper = true) (hs : r.selected = none) :
    transformE (fuel + 1) h a m t = .error .unselected := by
  simp [transformE, hr, hw, hs]

theorem transformE_succ_wrap_some {h : Heap} {a sx : Addr} {r : NodeRec}
    {m : Mat3} {t : Vec3} {fuel : Nat} (hr : hget h a = some r)
    (hw : r.isWrapper = true) (hs : r.selected = some sx) :
    transformE (fuel + 1) h a m t = transformE fuel h sx m t := by
  simp [transformE, hr, hw, hs]

theorem transformE_succ_atom {h : Heap} {a : Addr} {r : NodeRec}
    {m : Mat3} {t : Vec3} {fuel : Nat} (hr : hget h a = some r)
    (hw : r.isWrapper = false) (hl : r.level = Level.A) :
    transformE (fuel + 1) h a m t =
      .ok (hset h a { r with coord := vadd (rowMul r.coord m) t }) := by
  simp [transformE, hr, hw, hl]

theorem transformE_succ_node {h : Heap} {a : Addr} {r : NodeRec}
    {m : Mat3} {t : Vec3} {fuel : Nat} (hr : hget h a = some r)
    (hw : r.isWrapper = false) (hl : r.level ≠ Level.A) :
    transformE (fuel + 1) h a m t =
      r.childList.foldlM (fun hh c => transformE fuel hh c m t) h := by
  simp [transformE, hr, hw, hl]

theorem transformE_frame : ∀ {fuel : Nat} {h h2 : Heap} {a : Addr}
    {m : Mat3} {t : Vec3},
    transformE fuel h a m t = .ok h2 →
    h2.length = h.length ∧ ncAt h h2 ∧
    (∀ x, x ∉ tsub fuel h a → hget h2 x = hget h x) := by
  intro fuel
  induction fuel with
  | zero =>
    intro h h2 a m t hok
    rw [transformE_zero] at hok
    exact Except.noConfusion hok
  | succ fuel ih =>
    intro h h2 a m t hok
    cases hr : hget h a with
    | none =>
      rw [transformE_succ_miss hr] at hok
      exact Except.noConfusion hok
    | some r =>
      cases hw : r.isWrapper with
      | true =>
        cases hs : r.selected with
        | none =>
          rw [transformE_succ_wrap_none hr hw hs] at hok
          exact Except.noConfusion hok
        | some sx =>
          rw [transformE_succ_wrap_some hr hw hs] at hok
          obtain ⟨hlen, hnc, hfr⟩ := ih hok
          refine ⟨hlen, hnc, ?_⟩
          intro x hx
          refine hfr x ?_
          rw [tsub_succ_wrap_some hr hw hs] at hx
          exact hx
      | false =>
        by_cases hl : r.level = Level.A
        · rw [transformE_succ_atom hr hw hl] at hok
          have hh2 : h2 = hset h a { r with coord := vadd (rowMul r.coord m) t } :=
            (Except.ok.inj hok).symm
          subst hh2
          refine ⟨length_hset h a _, ?_, ?_⟩
          · intro x
            by_cases hx : x = a
            · subst hx
              rw [hget_hset_self _ (hget_some_lt hr), hr]
              rfl
            · rw [hget_hset_ne _ hx]
          · intro x hx
            rw [tsub_succ_atom hr hw hl] at hx
            have hxa : x ≠ a := by
              intro he
              exact hx (by rw [he]; exact List.mem_singleton_self a)
            exact hget_hset_ne _ hxa
        · rw [transformE_succ_node hr hw hl] at hok
          have hfold : ∀ (cs : List Addr) (g g2 : Heap),
              cs.foldlM (fun x c => transformE fuel x c m t) g = .ok g2 →
              g2.length = g.length ∧ ncAt g g2 ∧
              (∀ x, (∀ c ∈ cs, x ∉ tsub fuel g c) → hget g2 x = hget g x) := by
            intro cs
            induction cs with
            | nil =>
              intro g g2 hok3
              rw [List.foldlM_nil] at hok3
              have hgg : g = g2 := Except.ok.inj hok3
              subst hgg
              exact ⟨rfl, ncAt_refl g, fun x _ => rfl⟩
            | cons c cs ihc =>
              intro g g2 hok3
              rw [List.foldlM_cons] at hok3
              rcases ht : transformE fuel g c m t with e1 | gmid
              · rw [ht] at hok3
                have hc : (Except.error e1 : Except PyErr Heap) = .ok g2 := hok3
                exact Except.noConfusion hc
              · rw [ht] at hok3
                have hok4 : cs.foldlM (fun x c => transformE fuel x c m t) gmid =
                    .ok g2 := hok3
                obtain ⟨hlen1, hnc1, hfr1⟩ := ih ht
                obtain ⟨hlen2, hnc2, hfr2⟩ := ihc gmid g2 hok4
                refine ⟨hlen2.trans hlen1, fun x => (hnc2 x).trans (hnc1 x), ?_⟩
                intro x hx
                have heq1 : hget gmid x = hget g x :=
                  hfr1 x (hx c (List.mem_cons_self c cs))
                have hx2 : ∀ e ∈ cs, x ∉ tsub fuel gmid e := by
                  intro e he
                  rw [tsub_congr hnc1 fuel e]
                  exact hx e (List.mem_cons_of_mem _ he)
                exact (hfr2 x hx2).trans heq1
          obtain ⟨hlen, hnc, hfr⟩ := hfold r.childList h h2 hok
          refine ⟨hlen, hnc, ?_⟩
          intro x hx
          refine hfr x ?_
          intro c hc hmem
          rw [tsub_succ_node hr hw hl] at hx
          exact hx (List.mem_flatMap.mpr ⟨c, hc, hmem⟩)

end Entity

namespace Entity

theorem eq_up_to_coord {r r2 : NodeRec} (hrr : recNoCoord r2 = recNoCoord r) :
    r2 = { r with coord := r2.coord } := by
  obtain ⟨h1, h2, h3, h4, h5, h6, h7, h8, h9, h10⟩ := recNoCoord_fields hrr
  cases r2
  cases r
  simp only [] at h1 h2 h3 h4 h5 h6 h7 h8 h9 h10
  simp only [NodeRec.mk.injEq]
  exact ⟨h1, h2, h3, h4, h5, h6, h7, trivial, h8, h9, h10⟩

/-- C10: frame of `transform`.  A successful `transform` keeps the heap
size, rewrites every record to the same record with at most the
coordinate replaced (so ids, levels, parent references, child lists,
child dictionaries, extra tables, masses and cached full ids are all
unchanged), and leaves every node outside the visited leaf set
(disordered wrappers resolved to their selected alternative)
entirely untouched. -/
theorem C10_transform_frame {fuel : Nat} {h h2 : Heap} {a : Addr}
    {m : Mat3} {t : Vec3} (hok : transformE fuel h a m t = .ok h2) :
    h2.length = h.length ∧
    (∀ x rx, hget h x = some rx →
      ∃ cv, hget h2 x = some { rx with coord := cv }) ∧
    (∀ x, x ∉ tsub fuel h a → hget h2 x = hget h x) := by
  obtain ⟨hlen, hnc, hfr⟩ := transformE_frame hok
  refine ⟨hlen, ?_, hfr⟩
  intro x rx hgx
  obtain ⟨r2, hg2, hrr⟩ := ncAt_some hnc hgx
  exact ⟨r2.coord, by rw [hg2, eq_up_to_coord hrr]⟩

/-- The identity rotation. -/
def mId : Mat3 where
  a11 := 1
  a12 := 0
  a13 := 0
  a21 := 0
  a22 := 1
  a23 := 0
  a31 := 0
  a32 := 0
  a33 := 1

/-- `hComW` after translating by `(1, 2, 3)`. -/
def hT : Heap :=
  (transformE (heapFuel hComW) hComW 0 mId (1, 2, 3)).toOption.getD []

theorem C10_transform_frame_witness :
    hT.length = hComW.length ∧
    (∀ x rx, hget hComW x = some rx →
      ∃ cv, hget hT x = some { rx with coord := cv }) ∧
    (∀ x, x ∉ tsub (heapFuel hComW) hComW 0 → hget hT x = hget hComW x) :=
  @C10_transform_frame (heapFuel hComW) hComW hT 0 mId (1, 2, 3) (by rfl)

end Entity

namespace Entity

/-! ## `child_list`/`child_dict` synchrony -/

theorem dictGet_append_ne {d : List (EId × Addr)} {k k' : EId} {v : Addr}
    (hne : k' ≠ k) : dictGet (d ++ [(k, v)]) k' = dictGet d k' := by
  induction d with
  | nil =>
    unfold dictGet
    rw [List.nil_append, List.find?_cons_of_neg _
      (by simp only [beq_iff_eq]; exact fun hc => hne hc.symm)]
  | cons e rest ih =>
    by_cases he : e.1 = k'
    · unfold dictGet
      rw [List.cons_append, List.find?_cons_of_pos _ (by simp [he]),
        List.find?_cons_of_pos _ (by simp [he])]
    · unfold dictGet
      rw [List.cons_append, List.find?_cons_of_neg _ (by simp [he]),
        List.find?_cons_of_neg _ (by simp [he])]
      exact ih

theorem dictGet_filter_ne {d : List (EId × Addr)} {cid k : EId}
    (hne : k ≠ cid) :
    dictGet (d.filter (fun e => !(e.1 == cid))) k = dictGet d k := by
  induction d with
  | nil => rfl
  | cons e rest ih =>
    by_cases hec : e.1 = cid
    · rw [List.filter_cons_of_neg (by simp [hec])]
      unfold dictGet
      rw [List.find?_cons_of_neg _
        (by simp only [beq_iff_eq, hec]; exact fun hc => hne hc.symm)]
      exact ih
    · rw [List.filter_cons_of_pos (by simp [hec])]
      by_cases hek : e.1 = k
      · unfold dictGet
        rw [List.find?_cons_of_pos _ (by simp [hek]),
          List.find?_cons_of_pos _ (by simp [hek])]
      · unfold dictGet
        rw [List.find?_cons_of_neg _ (by simp [hek]),
          List.find?_cons_of_neg _ (by simp [hek])]
        exact ih

theorem dictGet_isSome_iff {d : List (EId × Addr)} {k : EId} :
    (dictGet d k).isSome = true ↔ k ∈ dictKeys d := by
  induction d with
  | nil => simp [dictGet, dictKeys]
  | cons e rest ih =>
    by_cases he : e.1 = k
    · unfold dictGet dictKeys
      rw [List.find?_cons_of_pos _ (by simp [he])]
      simp [he]
    · unfold dictGet dictKeys
      rw [List.find?_cons_of_neg _ (by simp [he])]
      simp only [List.map_cons, List.mem_cons]
      constructor
      · intro hh
        exact Or.inr (ih.mp hh)
      · intro hh
        rcases hh with hh | hh
        · exact absurd hh.symm he
        · exact ih.mpr hh

theorem length_detachParentE (h : Heap) (a : Addr) :
    (detachParentE h a).length = h.length := by
  unfold detachParentE
  cases hget h a with
  | none => rfl
  | some r => exact length_hset _ _ _

theorem sliceIns_perm (l : List Addr) (pos : Int) (c : Addr) :
    (sliceIns l pos c).Perm (c :: l) := by
  unfold sliceIns
  refine List.perm_middle.trans ?_
  rw [List.take_append_drop]

/-- The node-local synchrony invariant of the claim: the children carry
pairwise distinct heap addresses, every `child_dict` key is the id of
some child, and `child_dict` maps each child's id back to that child
(which makes the key set equal to the id set). -/
def syncB (h : Heap) (p : Addr) : Bool :=
  match hget h p with
  | none => false
  | some rp =>
    decide rp.childList.Nodup &&
    (dictKeys rp.childDict).all (fun k =>
      decide (k ∈ rp.childList.map (eidD h))) &&
    rp.childList.all (fun c => dictGet rp.childDict (eidD h c) == some c)

theorem syncB_spec {h : Heap} {p : Addr} {rp : NodeRec}
    (hgp : hget h p = some rp) (hs : syncB h p = true) :
    rp.childList.Nodup ∧
    (∀ k, k ∈ dictKeys rp.childDict → k ∈ rp.childList.map (eidD h)) ∧
    (∀ c ∈ rp.childList, dictGet rp.childDict (eidD h c) = some c) := by
  unfold syncB at hs
  rw [hgp] at hs
  have hs2 : (decide rp.childList.Nodup &&
      (dictKeys rp.childDict).all (fun k =>
        decide (k ∈ rp.childList.map (eidD h))) &&
      rp.childList.all (fun c =>
        dictGet rp.childDict (eidD h c) == some c)) = true := hs
  simp only [Bool.and_eq_true, List.all_eq_true, decide_eq_true_eq,
    beq_iff_eq] at hs2
  exact ⟨hs2.1.1, hs2.1.2, hs2.2⟩

theorem syncB_intro {h : Heap} {p : Addr} {rp : NodeRec}
    (hgp : hget h p = some rp) (h1 : rp.childList.Nodup)
    (h2 : ∀ k, k ∈ dictKeys rp.childDict → k ∈ rp.childList.map (eidD h))
    (h3 : ∀ c ∈ rp.childList, dictGet rp.childDict (eidD h c) = some c) :
    syncB h p = true := by
  unfold syncB
  rw [hgp]
  show (decide rp.childList.Nodup &&
      (dictKeys rp.childDict).all (fun k =>
        decide (k ∈ rp.childList.map (eidD h))) &&
      rp.childList.all (fun c =>
        dictGet rp.childDict (eidD h c) == some c)) = true
  simp only [Bool.and_eq_true, List.all_eq_true, decide_eq_true_eq,
    beq_iff_eq]
  exact ⟨⟨h1, h2⟩, h3⟩

end Entity

namespace Entity

/-- Generalisation of `addE_lookup` to any final record stored at the
parent: covers `add` and `insert`, which differ only in the spliced
`child_list`. -/
theorem attach_lookup {h : Heap} {p c : Addr} {rc : NodeRec} (R : NodeRec)
    (hlt : p < h.length) (hgc : hget h c = some rc)
    (hpc : p ≠ c) (hpent : p ∉ entSub h (heapFuel h) c) (x : Addr) :
    hget (hset (resetFullId (heapFuel h)
        (hset h c { rc with parent := some p }) c) p R) x =
    if x = p then some R
    else if x ∈ entSub h (heapFuel h) c then
      (hget (hset h c { rc with parent := some p }) x).map
        (fun r =>
          { r with
            fullId := some (generateFullId
              (hset h c { rc with parent := some p }) x) })
    else hget (hset h c { rc with parent := some p }) x := by
  set h1 := hset h c { rc with parent := some p } with hh1
  have hent1 : entSub h1 (heapFuel h) c = entSub h (heapFuel h) c :=
    entSub_congr_lc (lcAt_hset_parent hgc) (heapFuel h) c
  by_cases hx : x = p
  · subst hx
    rw [if_pos rfl]
    refine hget_hset_self _ ?_
    rw [← (eqExceptFid_resetFullId (heapFuel h) h1 c).1, length_hset]
    exact hlt
  · rw [if_neg hx, hget_hset_ne _ hx, resetFullId_spec, hent1]

/-- The ids of all records survive an attach. -/
theorem attach_eidD {h : Heap} {p c : Addr} {rc : NodeRec} (R : NodeRec)
    (hR : R.eid = eidD h p)
    (hlt : p < h.length) (hgc : hget h c = some rc)
    (hpc : p ≠ c) (hpent : p ∉ entSub h (heapFuel h) c) (x : Addr) :
    eidD (hset (resetFullId (heapFuel h)
      (hset h c { rc with parent := some p }) c) p R) x = eidD h x := by
  have hlook := attach_lookup R hlt hgc hpc hpent x
  unfold eidD
  rw [hlook]
  have h1x : hget (hset h c { rc with parent := some p }) x =
      if x = c then some { rc with parent := some p } else hget h x := by
    by_cases hxc : x = c
    · rw [if_pos hxc, hxc]
      exact hget_hset_self _ (hget_some_lt hgc)
    · rw [if_neg hxc]
      exact hget_hset_ne _ hxc
  by_cases hxp : x = p
  · subst hxp
    rw [if_pos rfl]
    show R.eid = eidD h x
    exact hR
  · rw [if_neg hxp]
    by_cases hmem : x ∈ entSub h (heapFuel h) c
    · rw [if_pos hmem, h1x]
      by_cases hxc : x = c
      · rw [if_pos hxc, hxc, hgc]
        rfl
      · rw [if_neg hxc]
        cases hgx : hget h x with
        | none => rfl
        | some rx => rfl
    · rw [if_neg hmem, h1x]
      by_cases hxc : x = c
      · rw [if_pos hxc, hxc, hgc]
        rfl
      · rw [if_neg hxc]

/-- `insert` on the success path, like `addE_ok_eq`. -/
theorem insertE_ok_eq {h : Heap} {p c : Addr} {rp rc : NodeRec} {pos : Int}
    (hgp : hget h p = some rp) (hgc : hget h c = some rc)
    (hdup : dictHas rp.childDict rc.eid = false)
    (hpc : p ≠ c)
    (hpent : p ∉ entSub h (heapFuel h) c) :
    insertE h p pos c = .ok
      (hset (resetFullId (heapFuel h) (hset h c { rc with parent := some p }) c) p
        { rp with
          childList := sliceIns rp.childList pos c
          childDict := dictPut rp.childDict rc.eid c }) := by
  have hent1 : entSub (hset h c { rc with parent := some p }) (heapFuel h) c =
      entSub h (heapFuel h) c :=
    entSub_congr_lc (lcAt_hset_parent hgc) (heapFuel h) c
  have hg2p : hget (setParentE h c p) p = some rp := by
    rw [setParentE_eq hgc, resetFullId_spec, hent1, if_neg hpent,
      hget_hset_ne _ hpc]
    exact hgp
  unfold insertE
  rw [hgp, hgc]
  simp only [hdup, Bool.false_eq_true, if_false]
  rw [hg2p]
  rw [setParentE_eq hgc]

end Entity

namespace Entity

theorem listRemoveEq_cons_eq (h : Heap) (b : Addr) (rest : List Addr)
    (c : Addr) :
    listRemoveEq h (b :: rest) c =
      (pyEqB h b c).bind (fun t => if t then Except.ok rest
        else (listRemoveEq h rest c).map (fun l => b :: l)) := rfl

/-- When `__eq__` coincides with identity on the scanned list,
`list.remove` deletes exactly the first occurrence of the element. -/
theorem listRemoveEq_erase {h1 : Heap} {c : Addr} : ∀ {l : List Addr},
    (∀ b ∈ l, pyEqB h1 b c = .ok (decide (b = c))) → c ∈ l →
    listRemoveEq h1 l c = .ok (l.erase c) := by
  intro l
  induction l with
  | nil => intro _ hc; exact absurd hc (List.not_mem_nil c)
  | cons b rest ih =>
    intro hall hc
    rw [listRemoveEq_cons_eq, hall b (List.mem_cons_self b rest)]
    by_cases hbc : b = c
    · subst hbc
      have hd : decide (b = b) = true := by simp
      rw [hd]
      show Except.ok rest = Except.ok ((b :: rest).erase b)
      rw [List.erase_cons_head]
    · have hd : decide (b = c) = false := by simp [hbc]
      rw [hd]
      have hcr : c ∈ rest := by
        rcases List.mem_cons.mp hc with hh | hh
        · exact absurd hh.symm hbc
        · exact hh
      show (listRemoveEq h1 rest c).map (fun l => b :: l) =
        Except.ok ((b :: rest).erase c)
      rw [ih (fun x hx => hall x (List.mem_cons_of_mem _ hx)) hcr]
      rw [List.erase_cons_tail]
      · rfl
      · simp [hbc]

/-- `add` preserves the synchrony invariant of the parent. -/
theorem addE_sync {h h3 : Heap} {p c : Addr} {rp rc : NodeRec}
    (hgp : hget h p = some rp) (hgc : hget h c = some rc)
    (hpc : p ≠ c) (hpent : p ∉ entSub h (heapFuel h) c)
    (hs : syncB h p = true) (hok : addE h p c = .ok h3) :
    syncB h3 p = true := by
  have hdup : dictHas rp.childDict rc.eid = false := by
    cases hd : dictHas rp.childDict rc.eid
    · rfl
    · exfalso
      unfold addE at hok
      rw [hgp, hgc] at hok
      simp [hd] at hok
  rw [addE_ok_eq hgp hgc hdup hpc hpent, Except.ok.injEq] at hok
  subst hok
  obtain ⟨hnd, hkeys, hmap⟩ := syncB_spec hgp hs
  have heidc : eidD h c = rc.eid := by
    unfold eidD
    rw [hgc]
    rfl
  have heid := @attach_eidD h p c rc
    { rp with
      childList := rp.childList ++ [c]
      childDict := dictPut rp.childDict rc.eid c }
    (by unfold eidD; rw [hgp]; rfl) (hget_some_lt hgp) hgc hpc hpent
  have hgp3 := @attach_lookup h p c rc
    { rp with
      childList := rp.childList ++ [c]
      childDict := dictPut rp.childDict rc.eid c }
    (hget_some_lt hgp) hgc hpc hpent p
  rw [if_pos rfl] at hgp3
  refine syncB_intro hgp3 ?_ ?_ ?_
  · have hcnotin : c ∉ rp.childList := by
      intro hcm
      have hmm := hmap c hcm
      rw [heidc] at hmm
      unfold dictHas at hdup
      rw [hmm] at hdup
      simp at hdup
    simp only [List.nodup_append, List.nodup_cons, List.not_mem_nil,
      not_false_iff, List.nodup_nil, and_true, true_and]
    refine ⟨hnd, ?_⟩
    intro b hb hb1
    rw [List.mem_singleton.mp hb1] at hb
    exact hcnotin hb
  · intro k hk
    rw [show ({ rp with
        childList := rp.childList ++ [c]
        childDict := dictPut rp.childDict rc.eid c } : NodeRec).childDict =
      dictPut rp.childDict rc.eid c from rfl] at hk
    rw [dictKeys_dictPut_fresh c hdup] at hk
    rcases List.mem_append.mp hk with hk | hk
    · obtain ⟨b, hb, hbe⟩ := List.mem_map.mp (hkeys k hk)
      refine List.mem_map.mpr ⟨b, List.mem_append_left _ hb, ?_⟩
      rw [heid b]
      exact hbe
    · have hkc : k = rc.eid := List.mem_singleton.mp hk
      refine List.mem_map.mpr
        ⟨c, List.mem_append_right _ (List.mem_singleton_self c), ?_⟩
      rw [heid c, heidc, hkc]
  · intro b hb
    rcases List.mem_append.mp hb with hb | hb
    · have hmb := hmap b hb
      have hbne : eidD h b ≠ rc.eid := by
        intro he
        unfold dictHas at hdup
        rw [← he, hmb] at hdup
        simp at hdup
      rw [heid b]
      show dictGet (dictPut rp.childDict rc.eid c) (eidD h b) = some b
      unfold dictPut
      rw [if_neg (by simp [hdup])]
      rw [dictGet_append_ne hbne]
      exact hmb
    · have hbc : b = c := List.mem_singleton.mp hb
      subst hbc
      rw [heid b]
      show dictGet (dictPut rp.childDict rc.eid b) (eidD h b) = some b
      rw [heidc, dictGet_dictPut_self]

end Entity

namespace Entity

/-- `insert` preserves the synchrony invariant of the parent. -/
theorem insertE_sync {h h3 : Heap} {p c : Addr} {pos : Int} {rp rc : NodeRec}
    (hgp : hget h p = some rp) (hgc : hget h c = some rc)
    (hpc : p ≠ c) (hpent : p ∉ entSub h (heapFuel h) c)
    (hs : syncB h p = true) (hok : insertE h p pos c = .ok h3) :
    syncB h3 p = true := by
  have hdup : dictHas rp.childDict rc.eid = false := by
    cases hd : dictHas rp.childDict rc.eid
    · rfl
    · exfalso
      unfold insertE at hok
      rw [hgp, hgc] at hok
      simp [hd] at hok
  rw [insertE_ok_eq hgp hgc hdup hpc hpent, Except.ok.injEq] at hok
  subst hok
  obtain ⟨hnd, hkeys, hmap⟩ := syncB_spec hgp hs
  have heidc : eidD h c = rc.eid := by
    unfold eidD
    rw [hgc]
    rfl
  have hmemS : ∀ b, b ∈ sliceIns rp.childList pos c ↔
      b = c ∨ b ∈ rp.childList := by
    intro b
    rw [(sliceIns_perm rp.childList pos c).mem_iff]
    exact List.mem_cons
  have heid := @attach_eidD h p c rc
    { rp with
      childList := sliceIns rp.childList pos c
      childDict := dictPut rp.childDict rc.eid c }
    (by unfold eidD; rw [hgp]; rfl) (hget_some_lt hgp) hgc hpc hpent
  have hgp3 := @attach_lookup h p c rc
    { rp with
      childList := sliceIns rp.childList pos c
      childDict := dictPut rp.childDict rc.eid c }
    (hget_some_lt hgp) hgc hpc hpent p
  rw [if_pos rfl] at hgp3
  refine syncB_intro hgp3 ?_ ?_ ?_
  · have hcnotin : c ∉ rp.childList := by
      intro hcm
      have hmm := hmap c hcm
      rw [heidc] at hmm
      unfold dictHas at hdup
      rw [hmm] at hdup
      simp at hdup
    refine ((sliceIns_perm rp.childList pos c).nodup_iff).mpr ?_
    exact List.nodup_cons.mpr ⟨hcnotin, hnd⟩
  · intro k hk
    rw [show ({ rp with
        childList := sliceIns rp.childList pos c
        childDict := dictPut rp.childDict rc.eid c } : NodeRec).childDict =
      dictPut rp.childDict rc.eid c from rfl] at hk
    rw [dictKeys_dictPut_fresh c hdup] at hk
    rcases List.mem_append.mp hk with hk | hk
    · obtain ⟨b, hb, hbe⟩ := List.mem_map.mp (hkeys k hk)
      refine List.mem_map.mpr ⟨b, (hmemS b).mpr (Or.inr hb), ?_⟩
      rw [heid b]
      exact hbe
    · have hkc : k = rc.eid := List.mem_singleton.mp hk
      refine List.mem_map.mpr ⟨c, (hmemS c).mpr (Or.inl rfl), ?_⟩
      rw [heid c, heidc, hkc]
  · intro b hb
    rcases (hmemS b).mp hb with hb | hb
    · subst hb
      rw [heid b]
      show dictGet (dictPut rp.childDict rc.eid b) (eidD h b) = some b
      rw [heidc, dictGet_dictPut_self]
    · have hmb := hmap b hb
      have hbne : eidD h b ≠ rc.eid := by
        intro he
        unfold dictHas at hdup
        rw [← he, hmb] at hdup
        simp at hdup
      rw [heid b]
      show dictGet (dictPut rp.childDict rc.eid c) (eidD h b) = some b
      unfold dictPut
      rw [if_neg (by simp [hdup])]
      rw [dictGet_append_ne hbne]
      exact hmb

/-- `detach_child` preserves the synchrony invariant of the parent,
when `__eq__` against the detached child coincides with identity on the
sibling list (the reachable-state situation: distinct sibling ids and
correct caches). -/
theorem detachChildE_sync {h h5 : Heap} {p c : Addr} {cid : EId}
    {rp : NodeRec}
    (hgp : hget h p = some rp) (hdg : dictGet rp.childDict cid = some c)
    (hpc : p ≠ c) (hs : syncB h p = true)
    (hrm : ∀ b ∈ rp.childList,
      pyEqB (detachParentE h c) b c = .ok (decide (b = c)))
    (hok : detachChildE h p cid = .ok h5) : syncB h5 p = true := by
  obtain ⟨hnd, hkeys, hmap⟩ := syncB_spec hgp hs
  have hcidmem : cid ∈ dictKeys rp.childDict :=
    dictGet_isSome_iff.mp (by rw [hdg]; rfl)
  obtain ⟨b0, hb0, hb0e⟩ := List.mem_map.mp (hkeys cid hcidmem)
  have hb0c : b0 = c := by
    have hmm := hmap b0 hb0
    rw [hb0e, hdg] at hmm
    exact (Option.some.inj hmm).symm
  have hcml : c ∈ rp.childList := hb0c ▸ hb0
  have heidc : eidD h c = cid := hb0c ▸ hb0e
  have hlen1 : (detachParentE h c).length = h.length := length_detachParentE h c
  have hplt : p < (detachParentE h c).length := by
    rw [hlen1]
    exact hget_some_lt hgp
  have hdel : dictDel rp.childDict cid =
      some (rp.childDict.filter (fun e => !(e.1 == cid))) := by
    unfold dictDel
    rw [if_pos (by unfold dictHas; rw [hdg]; rfl)]
  have hg1p : hget (detachParentE h c) p = some rp := by
    unfold detachParentE
    cases hgc : hget h c with
    | none => exact hgp
    | some rc =>
      rw [hget_hset_ne _ hpc]
      exact hgp
  have hrm1 : listRemoveEq (detachParentE h c) rp.childList c =
      .ok (rp.childList.erase c) :=
    listRemoveEq_erase hrm hcml
  have heq : detachChildE h p cid = .ok (hset (detachParentE h c) p
      { rp with
        childDict := rp.childDict.filter (fun e => !(e.1 == cid))
        childList := rp.childList.erase c }) := by
    have s1 : detachChildE h p cid =
        (match dictGet rp.childDict cid with
         | none => Except.error PyErr.keyError
         | some c0 =>
           match dictDel rp.childDict cid with
           | none => Except.error PyErr.keyError
           | some d1 =>
             match hget (detachParentE h c0) p with
             | none => Except.error PyErr.keyError
             | some rp1 =>
               (listRemoveEq (detachParentE h c0) rp1.childList c0).bind
                 (fun l1 => Except.ok (hset (detachParentE h c0) p
                   { rp1 with childDict := d1, childList := l1 }))) := by
      unfold detachChildE
      rw [hgp]
      rfl
    have s2 : detachChildE h p cid =
        (match dictDel rp.childDict cid with
         | none => Except.error PyErr.keyError
         | some d1 =>
           match hget (detachParentE h c) p with
           | none => Except.error PyErr.keyError
           | some rp1 =>
             (listRemoveEq (detachParentE h c) rp1.childList c).bind
               (fun l1 => Except.ok (hset (detachParentE h c) p
                 { rp1 with childDict := d1, childList := l1 }))) := by
      rw [s1, hdg]
    have s3 : detachChildE h p cid =
        (match hget (detachParentE h c) p with
         | none => Except.error PyErr.keyError
         | some rp1 =>
           (listRemoveEq (detachParentE h c) rp1.childList c).bind
             (fun l1 => Except.ok (hset (detachParentE h c) p
               { rp1 with
                 childDict := rp.childDict.filter (fun e => !(e.1 == cid))
                 childList := l1 }))) := by
      rw [s2, hdel]
    have s4 : detachChildE h p cid =
        (listRemoveEq (detachParentE h c) rp.childList c).bind
          (fun l1 => Except.ok (hset (detachParentE h c) p
            { rp with
              childDict := rp.childDict.filter (fun e => !(e.1 == cid))
              childList := l1 })) := by
      rw [s3, hg1p]
    rw [s4, hrm1]
    rfl
  rw [heq, Except.ok.injEq] at hok
  subst hok
  have hg5p : hget (hset (detachParentE h c) p
      { rp with
        childDict := rp.childDict.filter (fun e => !(e.1 == cid))
        childList := rp.childList.erase c }) p = some
      { rp with
        childDict := rp.childDict.filter (fun e => !(e.1 == cid))
        childList := rp.childList.erase c } :=
    hget_hset_self _ hplt
  have heid5 : ∀ x, eidD (hset (detachParentE h c) p
      { rp with
        childDict := rp.childDict.filter (fun e => !(e.1 == cid))
        childList := rp.childList.erase c }) x = eidD h x := by
    intro x
    unfold eidD
    by_cases hxp : x = p
    · subst hxp
      rw [hget_hset_self _ hplt, hgp]
      rfl
    · rw [hget_hset_ne _ hxp]
      unfold detachParentE
      cases hgc : hget h c with
      | none => rfl
      | some rc =>
        by_cases hxc : x = c
        · subst hxc
          rw [hget_hset_self _ (hget_some_lt hgc), hgc]
          rfl
        · rw [hget_hset_ne _ hxc]
  refine syncB_intro hg5p ?_ ?_ ?_
  · exact hnd.erase c
  · intro k hk
    have hk2 : k ∈ dictKeys rp.childDict ∧ k ≠ cid := by
      obtain ⟨e, he, hek⟩ := List.mem_map.mp hk
      obtain ⟨hed, hepred⟩ := List.mem_filter.mp he
      constructor
      · exact List.mem_map.mpr ⟨e, hed, hek⟩
      · intro hkc
        rw [hek, hkc] at hepred
        simp at hepred
    obtain ⟨b, hb, hbe⟩ := List.mem_map.mp (hkeys k hk2.1)
    have hbc : b ≠ c := by
      intro he
      rw [he, heidc] at hbe
      exact hk2.2 hbe.symm
    refine List.mem_map.mpr ⟨b, ?_, ?_⟩
    · exact (hnd.mem_erase_iff).mpr ⟨hbc, hb⟩
    · rw [heid5 b]
      exact hbe
  · intro b hb
    obtain ⟨hbc, hbl⟩ := (hnd.mem_erase_iff).mp hb
    have hmb := hmap b hbl
    have hbne : eidD h b ≠ cid := by
      intro he
      exact hbc (by
        have hmb2 := hmap b hbl
        rw [he, hdg] at hmb2
        exact (Option.some.inj hmb2).symm)
    rw [heid5 b]
    show dictGet (rp.childDict.filter (fun e => !(e.1 == cid))) (eidD h b) =
      some b
    rw [dictGet_filter_ne hbne]
    exact hmb

end Entity

namespace Entity

/-- C5: the `child_list`/`child_index` synchrony invariant.  On an
empty node the invariant holds; `add`, `insert` and `detach_child`
each preserve it at the parent (for `detach_child` under the
reachable-state condition that `__eq__` against the detached child
coincides with identity on the sibling list); and the invariant states
exactly the claimed property: the `child_index` key set equals the
id-set of `children`, and the index maps each id to the child in the
list bearing that id. -/
theorem C5_child_index_sync :
    (∀ h p rp, hget h p = some rp → syncB h p = true →
      ((∀ k, dictHas rp.childDict k = true ↔
          k ∈ rp.childList.map (eidD h)) ∧
       (∀ c, c ∈ rp.childList →
          dictGet rp.childDict (eidD h c) = some c))) ∧
    (∀ h p rp, hget h p = some rp → rp.childList = [] →
      rp.childDict = [] → syncB h p = true) ∧
    (∀ h h3 p c rp rc, hget h p = some rp → hget h c = some rc → p ≠ c →
      p ∉ entSub h (heapFuel h) c → syncB h p = true →
      addE h p c = .ok h3 → syncB h3 p = true) ∧
    (∀ h h3 p c pos rp rc, hget h p = some rp → hget h c = some rc →
      p ≠ c → p ∉ entSub h (heapFuel h) c → syncB h p = true →
      insertE h p pos c = .ok h3 → syncB h3 p = true) ∧
    (∀ h h5 p c cid rp, hget h p = some rp →
      dictGet rp.childDict cid = some c → p ≠ c → syncB h p = true →
      (∀ b ∈ rp.childList,
        pyEqB (detachParentE h c) b c = .ok (decide (b = c))) →
      detachChildE h p cid = .ok h5 → syncB h5 p = true) := by
  refine ⟨?_, ?_, ?_, ?_, ?_⟩
  · intro h p rp hgp hs
    obtain ⟨hnd, hkeys, hmap⟩ := syncB_spec hgp hs
    refine ⟨?_, fun c hc => hmap c hc⟩
    intro k
    constructor
    · intro hk
      exact hkeys k (dictGet_isSome_iff.mp hk)
    · intro hk
      obtain ⟨b, hb, hbe⟩ := List.mem_map.mp hk
      show (dictGet rp.childDict k).isSome = true
      rw [← hbe, hmap b hb]
      rfl
  · intro h p rp hgp hcl hcd
    refine syncB_intro hgp ?_ ?_ ?_
    · rw [hcl]
      exact List.nodup_nil
    · intro k hk
      rw [hcd] at hk
      exact absurd hk (List.not_mem_nil k)
    · intro c hc
      rw [hcl] at hc
      exact absurd hc (List.not_mem_nil c)
  · intro h h3 p c rp rc hgp hgc hpc hpent hs hok
    exact addE_sync hgp hgc hpc hpent hs hok
  · intro h h3 p c pos rp rc hgp hgc hpc hpent hs hok
    exact insertE_sync hgp hgc hpc hpent hs hok
  · intro h h5 p c cid rp hgp hdg hpc hs hrm hok
    exact detachChildE_sync hgp hdg hpc hs hrm hok

/-- A parent `"P"` with children `"X"` and `"Y"`, caches set as the
operations leave them. -/
def hSync : Heap :=
  [mkRec (EId.s "P") Level.S none [1, 2]
     [(EId.s "X", 1), (EId.s "Y", 2)] none,
   mkRec (EId.s "X") Level.C (some 0) [] []
     (some [EId.s "P", EId.s "X"]),
   mkRec (EId.s "Y") Level.C (some 0) [] []
     (some [EId.s "P", EId.s "Y"])]

/-- The record of node 0 of `hSync`. -/
def rSync0 : NodeRec :=
  mkRec (EId.s "P") Level.S none [1, 2]
    [(EId.s "X", 1), (EId.s "Y", 2)] none

/-- `hSync` after detaching the child `"X"`. -/
def h5S : Heap := (detachChildE hSync 0 (EId.s "X")).toOption.getD []

theorem C5_child_index_sync_witness : syncB h5S 0 = true :=
  C5_child_index_sync.2.2.2.2 hSync h5S 0 1 (EId.s "X") rSync0 (by decide)
    (by decide) (by decide) (by decide)
    (by
      intro b hb
      rcases List.mem_cons.mp hb with rfl | hb2
      · rfl
      · rcases List.mem_cons.mp hb2 with rfl | hb3
        · rfl
        · exact absurd hb3 (List.not_mem_nil b))
    (by rfl)

end Entity

namespace Entity

/-! ## The `copy` development: extraction stability -/

/-- The fields `extract4` (and `strictly_equals`) read. -/
def exKey (r : NodeRec) : EId × Level × Vec3 × List Addr × Bool :=
  (r.eid, r.level, r.coord, r.childList, r.isWrapper)

/-- Agreement of two heaps at one address on the extracted fields. -/
def exAt (h h2 : Heap) (y : Addr) : Prop :=
  (hget h2 y).map exKey = (hget h y).map exKey

theorem exAt_none {h h2 : Heap} {y : Addr} (he : exAt h h2 y)
    (hr : hget h y = none) : hget h2 y = none := by
  unfold exAt at he
  rw [hr] at he
  cases hx : hget h2 y with
  | none => rfl
  | some r2 => rw [hx] at he; simp at he

theorem exAt_some {h h2 : Heap} {y : Addr} {r : NodeRec} (he : exAt h h2 y)
    (hr : hget h y = some r) :
    ∃ r2, hget h2 y = some r2 ∧ r2.eid = r.eid ∧ r2.level = r.level ∧
      r2.coord = r.coord ∧ r2.childList = r.childList ∧
      r2.isWrapper = r.isWrapper := by
  unfold exAt at he
  rw [hr] at he
  cases hx : hget h2 y with
  | none => rw [hx] at he; simp at he
  | some r2 =>
    rw [hx, Option.map_some', Option.map_some'] at he
    have hk := Option.some.inj he
    unfold exKey at hk
    exact ⟨r2, rfl, congrArg (fun p => p.1) hk,
      congrArg (fun p => p.2.1) hk, congrArg (fun p => p.2.2.1) hk,
      congrArg (fun p => p.2.2.2.1) hk, congrArg (fun p => p.2.2.2.2) hk⟩

/-- The set of addresses `extract4` visits. -/
def xsub : Nat → Heap → Addr → List Addr
  | 0, _, _ => []
  | fuel + 1, h, a =>
    a :: (match hget h a with
      | none => []
      | some r =>
        if r.isWrapper then []
        else if r.level = .A then []
        else r.childList.flatMap (xsub fuel h))

theorem xsub_zero (h : Heap) (a : Addr) : xsub 0 h a = [] := rfl

theorem xsub_succ_miss {h : Heap} {a : Addr} {fuel : Nat}
    (hr : hget h a = none) : xsub (fuel + 1) h a = [a] := by
  simp [xsub, hr]

theorem xsub_succ_wrap {h : Heap} {a : Addr} {r : NodeRec} {fuel : Nat}
    (hr : hget h a = some r) (hw : r.isWrapper = true) :
    xsub (fuel + 1) h a = [a] := by
  simp [xsub, hr, hw]

theorem xsub_succ_atom {h : Heap} {a : Addr} {r : NodeRec} {fuel : Nat}
    (hr : hget h a = some r) (hw : r.isWrapper = false)
    (hl : r.level = Level.A) : xsub (fuel + 1) h a = [a] := by
  simp [xsub, hr, hw, hl]

theorem xsub_succ_node {h : Heap} {a : Addr} {r : NodeRec} {fuel : Nat}
    (hr : hget h a = some r) (hw : r.isWrapper = false)
    (hl : r.level ≠ Level.A) :
    xsub (fuel + 1) h a = a :: r.childList.flatMap (xsub fuel h) := by
  simp [xsub, hr, hw, hl]

theorem mem_xsub_self {h : Heap} {a : Addr} {fuel : Nat} :
    a ∈ xsub (fuel + 1) h a := by
  cases hr : hget h a with
  | none => rw [xsub_succ_miss hr]; exact List.mem_singleton_self a
  | some r =>
    cases hw : r.isWrapper with
    | true => rw [xsub_succ_wrap hr hw]; exact List.mem_singleton_self a
    | false =>
      by_cases hl : r.level = Level.A
      · rw [xsub_succ_atom hr hw hl]; exact List.mem_singleton_self a
      · rw [xsub_succ_node hr hw hl]; exact List.mem_cons_self _ _

theorem extract4_zero (h : Heap) (a : Addr) : extract4 0 h a = none := rfl

theorem extract4_succ_miss {h : Heap} {a : Addr} {fuel : Nat}
    (hr : hget h a = none) : extract4 (fuel + 1) h a = none := by
  simp [extract4, hr]

theorem extract4_succ_wrap {h : Heap} {a : Addr} {r : NodeRec} {fuel : Nat}
    (hr : hget h a = some r) (hw : r.isWrapper = true) :
    extract4 (fuel + 1) h a = none := by
  simp [extract4, hr, hw]

theorem extract4_succ_atom {h : Heap} {a : Addr} {r : NodeRec} {fuel : Nat}
    (hr : hget h a = some r) (hw : r.isWrapper = false)
    (hl : r.level = Level.A) :
    extract4 (fuel + 1) h a =
      if r.childList.isEmpty then some (.node r.eid .A r.coord []) else none := by
  simp [extract4, hr, hw, hl]

theorem extract4_succ_node {h : Heap} {a : Addr} {r : NodeRec} {fuel : Nat}
    (hr : hget h a = some r) (hw : r.isWrapper = false)
    (hl : r.level ≠ Level.A) :
    extract4 (fuel + 1) h a =
      (r.childList.mapM (extract4 fuel h)).map
        (.node r.eid r.level r.coord) := by
  simp [extract4, hr, hw, hl]

end Entity


namespace Entity

/-! ## Option `mapM` helpers -/

theorem mapM_option_eq_some {α β : Type} {f : α → Option β} :
    ∀ {l : List α} {bs : List β},
    l.mapM f = some bs ↔ List.Forall₂ (fun a b => f a = some b) l bs := by
  intro l
  induction l with
  | nil =>
    intro bs
    rw [List.mapM_nil]
    constructor
    · intro hh
      rw [← Option.some.inj hh]
      exact List.Forall₂.nil
    · intro hh
      cases hh
      rfl
  | cons a l ih =>
    intro bs
    rw [List.mapM_cons]
    constructor
    · intro hh
      rcases hfa : f a with _ | b
      · rw [hfa] at hh
        exact Option.noConfusion hh
      · rw [hfa] at hh
        rcases hm : l.mapM f with _ | bs'
        · rw [hm] at hh
          exact Option.noConfusion hh
        · rw [hm] at hh
          have hbs : b :: bs' = bs := Option.some.inj hh
          rw [← hbs]
          exact List.Forall₂.cons hfa (ih.mp hm)
    · intro hh
      cases hh with
      | cons hfa hrest =>
        rw [hfa, ih.mpr hrest]
        rfl

theorem mapM_option_length {α β : Type} {f : α → Option β} {l : List α}
    {bs : List β} (hm : l.mapM f = some bs) : bs.length = l.length :=
  (List.Forall₂.length_eq (mapM_option_eq_some.mp hm)).symm

theorem flatMap_congr_mem {α β : Type} {f g : α → List β} :
    ∀ {l : List α}, (∀ c ∈ l, f c = g c) → l.flatMap f = l.flatMap g := by
  intro l
  induction l with
  | nil => intro _; rfl
  | cons c l ih =>
    intro hfg
    rw [List.flatMap_cons, List.flatMap_cons, hfg c (List.mem_cons_self c l),
      ih (fun x hx => hfg x (List.mem_cons_of_mem _ hx))]

theorem mapM_congr_mem {α β : Type} {f g : α → Option β} :
    ∀ {l : List α}, (∀ c ∈ l, f c = g c) → l.mapM f = l.mapM g := by
  intro l
  induction l with
  | nil => intro _; rfl
  | cons c l ih =>
    intro hfg
    rw [List.mapM_cons, List.mapM_cons, hfg c (List.mem_cons_self c l),
      ih (fun x hx => hfg x (List.mem_cons_of_mem _ hx))]

/-! ## Region bounds -/

/-- Every child pointer of a node allocated at or above `L` stays at or
above `L`. -/
def regionOK (g : Heap) (L : Nat) : Prop :=
  ∀ y ry, L ≤ y → hget g y = some ry → ∀ z ∈ ry.childList, L ≤ z

theorem xsub_region_bound {g : Heap} {L : Nat} (hreg : regionOK g L) :
    ∀ {fuel : Nat} {a : Addr}, L ≤ a → ∀ y ∈ xsub fuel g a, L ≤ y := by
  intro fuel
  induction fuel with
  | zero => intro a _ y hy; exact absurd hy (List.not_mem_nil y)
  | succ fuel ih =>
    intro a ha y hy
    cases hr : hget g a with
    | none =>
      rw [xsub_succ_miss hr] at hy
      rw [List.mem_singleton.mp hy]
      exact ha
    | some r =>
      cases hw : r.isWrapper with
      | true =>
        rw [xsub_succ_wrap hr hw] at hy
        rw [List.mem_singleton.mp hy]
        exact ha
      | false =>
        by_cases hl : r.level = Level.A
        · rw [xsub_succ_atom hr hw hl] at hy
          rw [List.mem_singleton.mp hy]
          exact ha
        · rw [xsub_succ_node hr hw hl] at hy
          rcases List.mem_cons.mp hy with rfl | hy'
          · exact ha
          · obtain ⟨z, hz, hyz⟩ := List.mem_flatMap.mp hy'
            exact ih (hreg a r ha hr z hz) y hyz

theorem entSub_region_bound {g : Heap} {L : Nat} (hreg : regionOK g L) :
    ∀ {fuel : Nat} {a : Addr}, L ≤ a → ∀ y ∈ entSub g fuel a, L ≤ y := by
  intro fuel
  induction fuel with
  | zero =>
    intro a _ y hy
    rw [entSub_zero] at hy
    exact absurd hy (List.not_mem_nil y)
  | succ fuel ih =>
    intro a ha y hy
    cases hr : hget g a with
    | none =>
      rw [entSub_succ_miss hr] at hy
      exact absurd hy (List.not_mem_nil y)
    | some r =>
      by_cases hl : r.level = .A
      · rw [entSub_succ_atom hr hl] at hy
        exact absurd hy (List.not_mem_nil y)
      · rw [entSub_succ_node hr hl] at hy
        rcases List.mem_cons.mp hy with rfl | hy'
        · exact ha
        · obtain ⟨z, hz, hyz⟩ := List.mem_flatMap.mp hy'
          exact ih (hreg a r ha hr z hz) y hyz

/-! ## Congruence of `xsub` and `extract4` -/

theorem xsub_congr {h h2 : Heap} :
    ∀ {fuel : Nat} {a : Addr}, (∀ y ∈ xsub fuel h a, exAt h h2 y) →
    xsub fuel h2 a = xsub fuel h a := by
  intro fuel
  induction fuel with
  | zero => intro a _; rfl
  | succ fuel ih =>
    intro a hag
    have haga : exAt h h2 a := hag a mem_xsub_self
    cases hr : hget h a with
    | none => rw [xsub_succ_miss hr, xsub_succ_miss (exAt_none haga hr)]
    | some r =>
      obtain ⟨r2, hr2, _, hlv, _, hcl, hwr⟩ := exAt_some haga hr
      cases hw : r.isWrapper with
      | true => rw [xsub_succ_wrap hr hw, xsub_succ_wrap hr2 (by rw [hwr, hw])]
      | false =>
        by_cases hl : r.level = Level.A
        · rw [xsub_succ_atom hr hw hl,
            xsub_succ_atom hr2 (by rw [hwr, hw]) (by rw [hlv, hl])]
        · rw [xsub_succ_node hr hw hl,
            xsub_succ_node hr2 (by rw [hwr, hw])
              (fun hc => hl (by rw [← hlv]; exact hc)),
            hcl]
          congr 1
          refine flatMap_congr_mem ?_
          intro c hc
          refine ih ?_
          intro y hy
          refine hag y ?_
          rw [xsub_succ_node hr hw hl]
          exact List.mem_cons_of_mem _ (List.mem_flatMap.mpr ⟨c, hc, hy⟩)

theorem extract4_congr {h h2 : Heap} :
    ∀ {fuel : Nat} {a : Addr}, (∀ y ∈ xsub fuel h a, exAt h h2 y) →
    extract4 fuel h2 a = extract4 fuel h a := by
  intro fuel
  induction fuel with
  | zero => intro a _; rfl
  | succ fuel ih =>
    intro a hag
    have haga : exAt h h2 a := hag a mem_xsub_self
    cases hr : hget h a with
    | none => rw [extract4_succ_miss hr, extract4_succ_miss (exAt_none haga hr)]
    | some r =>
      obtain ⟨r2, hr2, heid, hlv, hco, hcl, hwr⟩ := exAt_some haga hr
      cases hw : r.isWrapper with
      | true =>
        rw [extract4_succ_wrap hr hw, extract4_succ_wrap hr2 (by rw [hwr, hw])]
      | false =>
        by_cases hl : r.level = Level.A
        · rw [extract4_succ_atom hr hw hl,
            extract4_succ_atom hr2 (by rw [hwr, hw]) (by rw [hlv, hl]),
            heid, hco, hcl]
        · rw [extract4_succ_node hr hw hl,
            extract4_succ_node hr2 (by rw [hwr, hw])
              (fun hc => hl (by rw [← hlv]; exact hc)),
            heid, hco, hcl, hlv]
          congr 1
          refine mapM_congr_mem ?_
          intro c hc
          refine ih ?_
          intro y hy
          refine hag y ?_
          rw [xsub_succ_node hr hw hl]
          exact List.mem_cons_of_mem _ (List.mem_flatMap.mpr ⟨c, hc, hy⟩)

end Entity

namespace Entity

theorem forall2_mem_left {α β : Type} {P : α → β → Prop} :
    ∀ {l : List α} {bs : List β}, List.Forall₂ P l bs →
    ∀ a ∈ l, ∃ b, P a b := by
  intro l bs hf
  induction hf with
  | nil => intro a ha; exact absurd ha (List.not_mem_nil a)
  | cons hp hrest ih =>
    intro a ha
    rcases List.mem_cons.mp ha with rfl | ha'
    · exact ⟨_, hp⟩
    · exact ih a ha'

theorem extract4_some_inv {h : Heap} {a : Addr} {fuel : Nat} {t : PTree}
    (hx : extract4 (fuel + 1) h a = some t) :
    ∃ r, hget h a = some r ∧ r.isWrapper = false ∧
      ((r.level = Level.A ∧ r.childList = [] ∧
        t = .node r.eid .A r.coord []) ∨
       (r.level ≠ Level.A ∧ ∃ cs,
         r.childList.mapM (extract4 fuel h) = some cs ∧
         t = .node r.eid r.level r.coord cs)) := by
  cases hr : hget h a with
  | none =>
    rw [extract4_succ_miss hr] at hx
    exact Option.noConfusion hx
  | some r =>
    cases hw : r.isWrapper with
    | true =>
      rw [extract4_succ_wrap hr hw] at hx
      exact Option.noConfusion hx
    | false =>
      by_cases hl : r.level = Level.A
      · rw [extract4_succ_atom hr hw hl] at hx
        by_cases hcl : r.childList.isEmpty
        · rw [if_pos hcl] at hx
          refine ⟨r, rfl, hw, Or.inl ⟨hl, ?_, (Option.some.inj hx).symm⟩⟩
          cases hce : r.childList with
          | nil => rfl
          | cons x xs =>
            rw [hce] at hcl
            simp at hcl
        · rw [if_neg hcl] at hx
          exact Option.noConfusion hx
      · rw [extract4_succ_node hr hw hl] at hx
        rcases hm : r.childList.mapM (extract4 fuel h) with _ | cs
        · rw [hm] at hx
          exact Option.noConfusion hx
        · rw [hm] at hx
          simp only [Option.map_some'] at hx
          exact ⟨r, rfl, hw, Or.inr ⟨hl, cs, hm, (Option.some.inj hx).symm⟩⟩

theorem xsub_valid {h : Heap} : ∀ {fuel : Nat} {a : Addr} {t : PTree},
    extract4 fuel h a = some t →
    ∀ y ∈ xsub fuel h a, ∃ r, hget h y = some r := by
  intro fuel
  induction fuel with
  | zero =>
    intro a t hx
    rw [extract4_zero] at hx
    exact Option.noConfusion hx
  | succ fuel ih =>
    intro a t hx y hy
    obtain ⟨r, hr, hw, hcase⟩ := extract4_some_inv hx
    rcases hcase with ⟨hl, hcl, _⟩ | ⟨hl, cs, hm, _⟩
    · rw [xsub_succ_atom hr hw hl] at hy
      rw [List.mem_singleton.mp hy]
      exact ⟨r, hr⟩
    · rw [xsub_succ_node hr hw hl] at hy
      rcases List.mem_cons.mp hy with rfl | hy'
      · exact ⟨r, hr⟩
      · obtain ⟨c, hc, hyc⟩ := List.mem_flatMap.mp hy'
        obtain ⟨tc, htc⟩ :=
          forall2_mem_left (mapM_option_eq_some.mp hm) c hc
        exact ih htc y hyc

theorem ptreeNodup_node {e : EId} {lv : Level} {co : Vec3} {cs : List PTree}
    (hn : ptreeNodup (.node e lv co cs) = true) :
    (ptreeIds cs).Nodup ∧ ∀ c ∈ cs, ptreeNodup c = true := by
  unfold ptreeNodup at hn
  simp only [Bool.and_eq_true, decide_eq_true_eq, List.all_eq_true] at hn
  refine ⟨hn.1, ?_⟩
  intro c hc
  exact hn.2 ⟨c, hc⟩ (List.mem_attach _ _)

end Entity

namespace Entity

theorem se_succ_atom {h : Heap} {a b : Addr} {ra rb : NodeRec} {fuel : Nat}
    (cc : Bool) (hga : hget h a = some ra) (hgb : hget h b = some rb)
    (hwa : ra.isWrapper = false) (hwb : rb.isWrapper = false)
    (hlv : ra.level = rb.level) (hla : ra.level = Level.A)
    (hlb : rb.level = Level.A) :
    strictlyEquals (fuel + 1) h a b cc =
      .ok (decide (ra.eid = rb.eid) &&
        (!cc || decide (ra.coord = rb.coord))) := by
  simp [strictlyEquals, hga, hgb, hwa, hwb, hlv, hla, hlb]

theorem se_succ_node {h : Heap} {a b : Addr} {ra rb : NodeRec} {fuel : Nat}
    (cc : Bool) (hga : hget h a = some ra) (hgb : hget h b = some rb)
    (hwa : ra.isWrapper = false) (hwb : rb.isWrapper = false)
    (hlv : ra.level = rb.level) (hla : ra.level ≠ Level.A)
    (hlb : rb.level ≠ Level.A) (heid : ra.eid = rb.eid)
    (hlen : ra.childList.length = rb.childList.length) :
    strictlyEquals (fuel + 1) h a b cc =
      (ra.childList.zip rb.childList).foldlM
        (fun acc pr =>
          if acc then strictlyEquals fuel h pr.1 pr.2 cc else pure false)
        true := by
  simp [strictlyEquals, hga, hgb, hwa, hwb, hlv, hla, hlb, heid, hlen]

theorem se_fold {h : Heap} {fuel : Nat} {cc : Bool} :
    ∀ {l : List (Addr × Addr)},
    (∀ pr ∈ l, strictlyEquals fuel h pr.1 pr.2 cc = .ok true) →
    l.foldlM (fun acc pr =>
      if acc then strictlyEquals fuel h pr.1 pr.2 cc else pure false)
      true = .ok true := by
  intro l
  induction l with
  | nil => intro _; rfl
  | cons pr l ih =>
    intro hall
    rw [List.foldlM_cons]
    rw [if_pos rfl, hall pr (List.mem_cons_self pr l)]
    exact ih (fun x hx => hall x (List.mem_cons_of_mem _ hx))

theorem forall2_zip_same {f : Addr → Option PTree} :
    ∀ {la lb : List Addr} {cs : List PTree},
    List.Forall₂ (fun a b => f a = some b) la cs →
    List.Forall₂ (fun a b => f a = some b) lb cs →
    ∀ pr ∈ la.zip lb, ∃ t2, f pr.1 = some t2 ∧ f pr.2 = some t2 := by
  intro la
  induction la with
  | nil =>
    intro lb cs _ _ pr hpr
    simp at hpr
  | cons a la ih =>
    intro lb cs h1 h2 pr hpr
    cases h1 with
    | cons hfa hrest =>
      cases h2 with
      | cons hfb hrest2 =>
        rw [List.zip_cons_cons] at hpr
        rcases List.mem_cons.mp hpr with rfl | hpr'
        · exact ⟨_, hfa, hfb⟩
        · exact ih hrest hrest2 pr hpr'

/-- Two subtrees with the same pure extraction are strictly equal,
coordinates included. -/
theorem se_of_extract {h : Heap} : ∀ {fuel : Nat} {a b : Addr} {t : PTree}
    (cc : Bool), extract4 fuel h a = some t → extract4 fuel h b = some t →
    strictlyEquals fuel h a b cc = .ok true := by
  intro fuel
  induction fuel with
  | zero =>
    intro a b t cc hxa
    rw [extract4_zero] at hxa
    exact Option.noConfusion hxa
  | succ fuel ih =>
    intro a b t cc hxa hxb
    obtain ⟨ra, hra, hwa, hcasea⟩ := extract4_some_inv hxa
    obtain ⟨rb, hrb, hwb, hcaseb⟩ := extract4_some_inv hxb
    rcases hcasea with ⟨hla, hcla, hta⟩ | ⟨hla, csa, hma, hta⟩
    · rcases hcaseb with ⟨hlb, hclb, htb⟩ | ⟨hlb, csb, hmb, htb⟩
      · rw [hta] at htb
        have heq := htb
        rw [PTree.node.injEq] at heq
        obtain ⟨heid, _, hco, _⟩ := heq
        rw [se_succ_atom cc hra hrb hwa hwb (by rw [hla, hlb]) hla hlb]
        rw [← heid, ← hco]
        simp
      · rw [hta] at htb
        have heq := htb
        rw [PTree.node.injEq] at heq
        obtain ⟨_, hlv, _, _⟩ := heq
        exact absurd hlv.symm hlb
    · rcases hcaseb with ⟨hlb, hclb, htb⟩ | ⟨hlb, csb, hmb, htb⟩
      · rw [hta] at htb
        have heq := htb
        rw [PTree.node.injEq] at heq
        obtain ⟨_, hlv, _, _⟩ := heq
        exact absurd hlv hla
      · rw [hta] at htb
        have heq := htb
        rw [PTree.node.injEq] at heq
        obtain ⟨heid, hlv, hco, hcs⟩ := heq
        have hlena : csa.length = ra.childList.length := mapM_option_length hma
        have hlenb : csb.length = rb.childList.length := mapM_option_length hmb
        have hlen : ra.childList.length = rb.childList.length := by
          rw [← hlena, ← hlenb, hcs]
        rw [se_succ_node cc hra hrb hwa hwb hlv hla hlb heid hlen]
        refine se_fold ?_
        intro pr hpr
        have hf2a := mapM_option_eq_some.mp hma
        have hf2b : List.Forall₂ (fun x tx => extract4 fuel h x = some tx)
            rb.childList csa := by
          rw [← hcs] at hmb
          exact mapM_option_eq_some.mp hmb
        obtain ⟨t2, ht2a, ht2b⟩ := forall2_zip_same hf2a hf2b pr hpr
        exact ih cc ht2a ht2b

end Entity

namespace Entity

theorem hget_append_lt {h : Heap} {l : Heap} {x : Addr} (hx : x < h.length) :
    hget (h ++ l) x = hget h x := List.get?_append hx

theorem hget_append_self (h : Heap) (r : NodeRec) :
    hget (h ++ [r]) h.length = some r := List.get?_concat_length h r

/-- The root id of a pure subtree. -/
def ptId (t : PTree) : EId := match t with | .node e _ _ _ => e

theorem ptId_node (e : EId) (lv : Level) (co : Vec3) (cs : List PTree) :
    ptId (.node e lv co cs) = e := rfl

theorem ptreeIds_eq_map (ts : List PTree) : ptreeIds ts = ts.map ptId := by
  unfold ptreeIds
  refine List.map_congr_left ?_
  intro t _
  cases t
  rfl

theorem extract4_eid {h : Heap} {a : Addr} {fuel : Nat} {t : PTree}
    (hx : extract4 (fuel + 1) h a = some t) :
    ∃ r, hget h a = some r ∧ r.eid = ptId t := by
  obtain ⟨r, hr, _, hcase⟩ := extract4_some_inv hx
  rcases hcase with ⟨_, _, ht⟩ | ⟨_, _, _, ht⟩
  · exact ⟨r, hr, by rw [ht]; rfl⟩
  · exact ⟨r, hr, by rw [ht]; rfl⟩

theorem forall2_append {α β : Type} {P : α → β → Prop} :
    ∀ {l1 l2 : List α} {b1 b2 : List β}, List.Forall₂ P l1 b1 →
    List.Forall₂ P l2 b2 → List.Forall₂ P (l1 ++ l2) (b1 ++ b2) := by
  intro l1 l2 b1 b2 h1
  induction h1 with
  | nil => intro h2; exact h2
  | cons hp hrest ih =>
    intro h2
    exact List.Forall₂.cons hp (ih h2)

theorem copyE_succ_eq {h : Heap} {a : Addr} {r : NodeRec} {fuel : Nat}
    (hr : hget h a = some r) :
    copyE (fuel + 1) h a =
      ((r.childList.foldlM (fun hh c => do
          let pr ← copyE fuel hh c
          addE pr.1 h.length pr.2)
        (h ++ [{ r with childList := [], childDict := [], parent := none }])).map
        (fun hf => (hf, h.length))) := by
  simp [copyE, hr]

end Entity

namespace Entity

/-- Full characterisation of a successful `copy`: the fresh clone sits
at the old end of the heap, the original region is untouched, the copied
region is self-contained, the clone extracts to the same pure tree, and
its parent is detached. -/
theorem copyE_spec : ∀ {fuel : Nat} {h : Heap} {a : Addr} {t : PTree},
    extract4 fuel h a = some t → ptreeNodup t = true →
    ∃ h2, copyE fuel h a = .ok (h2, h.length) ∧
      h.length < h2.length ∧
      (∀ x, x < h.length → hget h2 x = hget h x) ∧
      regionOK h2 h.length ∧
      extract4 fuel h2 h.length = some t ∧
      (hget h2 h.length).map NodeRec.parent = some none := by
  intro fuel
  induction fuel with
  | zero =>
    intro h a t hx _
    rw [extract4_zero] at hx
    exact Option.noConfusion hx
  | succ fuel ih =>
    intro h a t hx hnd
    obtain ⟨r, hr, hw, hcase⟩ := extract4_some_inv hx
    set r0 : NodeRec := { r with
      childList := []
      childDict := []
      parent := none } with hr0
    set h1 : Heap := h ++ [r0] with hh1
    have hlen1 : h1.length = h.length + 1 := by
      rw [hh1]
      simp
    have hg1na : hget h1 h.length = some r0 := hget_append_self h r0
    have hfr1 : ∀ x, x < h.length → hget h1 x = hget h x :=
      fun x hx2 => hget_append_lt hx2
    have hreg1 : regionOK h1 h.length := by
      intro y ry hy hgy z hz
      have hylt : y < h1.length := hget_some_lt hgy
      have hyeq : y = h.length := by omega
      subst hyeq
      rw [hg1na] at hgy
      have hry : ry = r0 := (Option.some.inj hgy).symm
      rw [hry] at hz
      exact absurd hz (by simp [hr0])
    rcases hcase with ⟨hla, hcla, hta⟩ | ⟨hla, cs, hm, hta⟩
    · refine ⟨h1, ?_, by omega, hfr1, hreg1, ?_, ?_⟩
      · rw [copyE_succ_eq hr, hcla]
        rfl
      · rw [extract4_succ_atom hg1na (by simp [hr0, hw]) (by simp [hr0, hla]),
          if_pos (by simp [hr0]), hta]
      · rw [hg1na]
        rfl
    · have hnd2 := hta ▸ hnd
      obtain ⟨hndids, hndkids⟩ := ptreeNodup_node hnd2
      have hfold : ∀ (todo : List Addr) (ts0 ts1 : List PTree) (g : Heap)
          (ns : List Addr) (d : List (EId × Addr)),
          todo.mapM (extract4 fuel h) = some ts0 →
          (∀ tc ∈ ts0, ptreeNodup tc = true) →
          dictKeys d = ptreeIds ts1 →
          (ptreeIds (ts1 ++ ts0)).Nodup →
          h.length < g.length →
          (∀ x, x < h.length → hget g x = hget h x) →
          regionOK g h.length →
          hget g h.length = some { r with
            childList := ns
            childDict := d
            parent := none } →
          List.Forall₂ (fun nc tc => h.length < nc ∧ nc < g.length ∧
            extract4 fuel g nc = some tc ∧
            (∀ y ∈ xsub fuel g nc, h.length < y ∧ y < g.length)) ns ts1 →
          ∃ g2 ns2 d2,
            todo.foldlM (fun hh c => do
              let pr ← copyE fuel hh c
              addE pr.1 h.length pr.2) g = .ok g2 ∧
            g.length ≤ g2.length ∧
            (∀ x, x < h.length → hget g2 x = hget h x) ∧
            regionOK g2 h.length ∧
            hget g2 h.length = some { r with
              childList := ns2
              childDict := d2
              parent := none } ∧
            List.Forall₂ (fun nc tc => h.length < nc ∧ nc < g2.length ∧
              extract4 fuel g2 nc = some tc ∧
              (∀ y ∈ xsub fuel g2 nc, h.length < y ∧ y < g2.length))
              ns2 (ts1 ++ ts0) := by
        intro todo
        induction todo with
        | nil =>
          intro ts0 ts1 g ns d hm0 _ hkeys hnodup hlt hfr hreg hgna hf2
          rw [List.mapM_nil] at hm0
          have hts0 : ts0 = [] := (Option.some.inj hm0).symm
          subst hts0
          refine ⟨g, ns, d, ?_, le_refl _, hfr, hreg, hgna, ?_⟩
          · rw [List.foldlM_nil]
            rfl
          · rw [List.append_nil]
            exact hf2
        | cons c todo2 ihc =>
          intro ts0 ts1 g ns d hm0 hall hkeys hnodup hlt hfr hreg hgna hf2
          rw [List.mapM_cons] at hm0
          rcases hxc : extract4 fuel h c with _ | tc
          · rw [hxc] at hm0
            exact absurd hm0 (by simp)
          rcases hm2 : todo2.mapM (extract4 fuel h) with _ | ts0'
          · rw [hxc, hm2] at hm0
            exact absurd hm0 (by simp)
          rw [hxc, hm2] at hm0
          have hts0 : ts0 = tc :: ts0' := by
            have hmm : some (tc :: ts0') = some ts0 := hm0
            exact (Option.some.inj hmm).symm
          subst hts0
          -- the child extracts the same tree in the current heap
          have hxcg : extract4 fuel g c = some tc := by
            rw [@extract4_congr h g fuel c ?_]
            · exact hxc
            · intro y hy
              obtain ⟨ry, hry⟩ := xsub_valid hxc y hy
              unfold exAt
              rw [hfr y (hget_some_lt hry)]
          have htcnd : ptreeNodup tc = true :=
            hall tc (List.mem_cons_self tc ts0')
          -- copy the child
          obtain ⟨g1, hcopy, hltg1, hfrg1, hregg1, hxg1, hparg1⟩ :=
            ih hxcg htcnd
          -- records for the attach
          have hgna1 : hget g1 h.length = some { r with
              childList := ns
              childDict := d
              parent := none } := by
            rw [hfrg1 h.length hlt]
            exact hgna
          have hfuelpos : ∃ f2, fuel = f2 + 1 := by
            cases fuel with
            | zero =>
              rw [extract4_zero] at hxc
              exact Option.noConfusion hxc
            | succ f2 => exact ⟨f2, rfl⟩
          obtain ⟨f2, hf2eq⟩ := hfuelpos
          obtain ⟨rcp, hgrcp, heidrcp⟩ := extract4_eid (hf2eq ▸ hxg1)
          have hdup : dictHas d rcp.eid = false := by
            cases hd : dictHas d rcp.eid
            · rfl
            · exfalso
              have hmem : rcp.eid ∈ dictKeys d := dictGet_isSome_iff.mp hd
              rw [hkeys] at hmem
              rw [heidrcp] at hmem
              have hnodup2 := hnodup
              rw [ptreeIds_eq_map, List.map_append] at hnodup2
              have hdisj := (List.nodup_append.mp hnodup2).2.2
              have hmemL : ptId tc ∈ ts1.map ptId := by
                rw [ptreeIds_eq_map] at hmem
                exact hmem
              have hmemR : ptId tc ∈ (tc :: ts0').map ptId := by
                rw [List.map_cons]
                exact List.mem_cons_self _ _
              exact hdisj hmemL hmemR
          have hpc2 : (h.length : Addr) ≠ g.length := Nat.ne_of_lt hlt
          have hregg1H : regionOK g1 h.length := by
            intro y ry hy hgy z hz
            by_cases hyg : y < g.length
            · rw [hfrg1 y hyg] at hgy
              exact hreg y ry hy hgy z hz
            · push_neg at hyg
              have hzz := hregg1 y ry hyg hgy z hz
              omega
          have hpent2 : (h.length : Addr) ∉
              entSub g1 (heapFuel g1) g.length := by
            intro hmem
            have := entSub_region_bound hregg1 (le_refl g.length)
              h.length hmem
            omega
          have hltg1h : h.length < g1.length := by omega
          have haddE := addE_ok_eq hgna1 hgrcp hdup hpc2 hpent2
          set rnaN : NodeRec := { r with
            childList := ns ++ [g.length]
            childDict := dictPut d rcp.eid (g.length : Addr)
            parent := none } with hrnaN
          have haddE2 : addE g1 h.length g.length = .ok
              (hset (resetFullId (heapFuel g1)
                (hset g1 g.length { rcp with parent := some h.length })
                g.length) h.length rnaN) := haddE
          set gN : Heap := hset (resetFullId (heapFuel g1)
            (hset g1 g.length { rcp with parent := some h.length })
            g.length) h.length rnaN with hgN
          have hlook : ∀ x, hget gN x =
              if x = h.length then some rnaN
              else if x ∈ entSub g1 (heapFuel g1) g.length then
                (hget (hset g1 g.length
                    { rcp with parent := some h.length }) x).map
                  (fun q =>
                    { q with
                      fullId := some (generateFullId
                        (hset g1 g.length
                          { rcp with parent := some h.length }) x) })
              else hget (hset g1 g.length
                { rcp with parent := some h.length }) x :=
            attach_lookup rnaN hltg1h hgrcp hpc2 hpent2
          have hlenN : gN.length = g1.length := by
            rw [hgN, length_hset,
              ← (eqExceptFid_resetFullId (heapFuel g1)
                (hset g1 g.length { rcp with parent := some h.length })
                g.length).1,
              length_hset]
          have hexAll : ∀ y, y ≠ h.length → exAt g1 gN y := by
            intro y hy
            unfold exAt
            rw [hlook y, if_neg hy]
            by_cases hmem : y ∈ entSub g1 (heapFuel g1) g.length
            · rw [if_pos hmem]
              by_cases hyc : y = g.length
              · subst hyc
                rw [hget_hset_self _ (hget_some_lt hgrcp), hgrcp]
                rfl
              · rw [hget_hset_ne _ hyc]
                cases hget g1 y with
                | none => rfl
                | some q => rfl
            · rw [if_neg hmem]
              by_cases hyc : y = g.length
              · subst hyc
                rw [hget_hset_self _ (hget_some_lt hgrcp), hgrcp]
                rfl
              · rw [hget_hset_ne _ hyc]
          -- invariant at gN
          have hltN : h.length < gN.length := by omega
          have hfrN : ∀ x, x < h.length → hget gN x = hget h x := by
            intro x hxlt
            rw [hlook x]
            rw [if_neg (show ¬(x = h.length) by omega)]
            rw [if_neg (show x ∉ entSub g1 (heapFuel g1) g.length from
              fun hmem => by
                have hxb := entSub_region_bound hregg1
                  (le_refl g.length) x hmem
                omega)]
            rw [hget_hset_ne _ (show x ≠ g.length by omega)]
            rw [hfrg1 x (by omega)]
            exact hfr x hxlt
          have hregN : regionOK gN h.length := by
            intro y ry hy hgy z hz
            rw [hlook y] at hgy
            by_cases hyna : y = h.length
            · rw [if_pos hyna] at hgy
              have hry : ry = rnaN := (Option.some.inj hgy).symm
              rw [hry] at hz
              have hz2 : z ∈ ns ++ [g.length] := hz
              rcases List.mem_append.mp hz2 with hz3 | hz3
              · obtain ⟨tcz, _, hle, _, _⟩ :=
                  forall2_mem_left hf2 z hz3
                omega
              · rw [List.mem_singleton.mp hz3]
                omega
            · rw [if_neg hyna] at hgy
              by_cases hmem : y ∈ entSub g1 (heapFuel g1) g.length
              · rw [if_pos hmem] at hgy
                rcases hq : hget (hset g1 g.length
                    { rcp with parent := some h.length }) y with _ | q
                · rw [hq] at hgy
                  exact Option.noConfusion hgy
                · rw [hq, Option.map_some'] at hgy
                  have hry : ry = { q with
                      fullId := some (generateFullId
                        (hset g1 g.length
                          { rcp with parent := some h.length }) y) } :=
                    (Option.some.inj hgy).symm
                  by_cases hyc : y = g.length
                  · rw [hyc, hget_hset_self _ (hget_some_lt hgrcp)] at hq
                    have hqq : q = { rcp with parent := some h.length } :=
                      (Option.some.inj hq).symm
                    rw [hry, hqq] at hz
                    exact hregg1H y rcp hy (by rw [hyc]; exact hgrcp) z hz
                  · rw [hget_hset_ne _ hyc] at hq
                    rw [hry] at hz
                    exact hregg1H y q hy hq z hz
              · rw [if_neg hmem] at hgy
                by_cases hyc : y = g.length
                · rw [hyc, hget_hset_self _ (hget_some_lt hgrcp)] at hgy
                  have hry : ry = { rcp with parent := some h.length } :=
                    (Option.some.inj hgy).symm
                  rw [hry] at hz
                  exact hregg1H y rcp hy (by rw [hyc]; exact hgrcp) z hz
                · rw [hget_hset_ne _ hyc] at hgy
                  exact hregg1H y ry hy hgy z hz
          have hgnaN : hget gN h.length = some rnaN := by
            rw [hlook, if_pos rfl]
          -- Forall₂ for the extended children list
          have hf2N : List.Forall₂ (fun nc tc => h.length < nc ∧
              nc < gN.length ∧ extract4 fuel gN nc = some tc ∧
              (∀ y ∈ xsub fuel gN nc, h.length < y ∧ y < gN.length))
              (ns ++ [g.length]) (ts1 ++ [tc]) := by
            refine forall2_append ?_ ?_
            · refine List.Forall₂.imp ?_ hf2
              intro nc tcn hprop
              obtain ⟨hn1, hn2, hxn, hbn⟩ := hprop
              have hagree : ∀ y ∈ xsub fuel g nc, exAt g gN y := by
                intro y hy
                obtain ⟨hy1, hy2⟩ := hbn y hy
                have hg1y : hget g1 y = hget g y := hfrg1 y hy2
                have hNy : exAt g1 gN y := hexAll y (by omega)
                unfold exAt at hNy ⊢
                rw [hNy, hg1y]
              have hxsubN : xsub fuel gN nc = xsub fuel g nc :=
                xsub_congr hagree
              have hccc : nc < gN.length := by
                rw [hlenN]
                exact lt_trans hn2 hltg1
              refine ⟨hn1, hccc, ?_, ?_⟩
              · rw [extract4_congr hagree]
                exact hxn
              · intro y hy
                rw [hxsubN] at hy
                obtain ⟨hy1, hy2⟩ := hbn y hy
                refine ⟨hy1, ?_⟩
                rw [hlenN]
                exact lt_trans hy2 hltg1
            · refine List.Forall₂.cons ?_ List.Forall₂.nil
              have hboundg1 : ∀ y ∈ xsub fuel g1 g.length,
                  g.length ≤ y ∧ y < g1.length := by
                intro y hy
                refine ⟨xsub_region_bound hregg1 (le_refl g.length) y hy, ?_⟩
                obtain ⟨ry, hry⟩ := xsub_valid hxg1 y hy
                exact hget_some_lt hry
              have hagree : ∀ y ∈ xsub fuel g1 g.length, exAt g1 gN y := by
                intro y hy
                obtain ⟨hy1, hy2⟩ := hboundg1 y hy
                exact hexAll y (by omega)
              have hxsubN : xsub fuel gN g.length = xsub fuel g1 g.length :=
                xsub_congr hagree
              refine ⟨by omega, by omega, ?_, ?_⟩
              · rw [extract4_congr hagree]
                exact hxg1
              · intro y hy
                rw [hxsubN] at hy
                obtain ⟨hy1, hy2⟩ := hboundg1 y hy
                constructor
                · omega
                · rw [hlenN]
                  exact hy2
          -- dictionary keys of the extended dictionary
          have hkeysN : dictKeys (dictPut d rcp.eid (g.length : Addr)) =
              ptreeIds (ts1 ++ [tc]) := by
            rw [dictKeys_dictPut_fresh _ hdup, hkeys, heidrcp,
              ptreeIds_eq_map, ptreeIds_eq_map, List.map_append]
            rfl
          have hnodupN : (ptreeIds ((ts1 ++ [tc]) ++ ts0')).Nodup := by
            have hre : (ts1 ++ [tc]) ++ ts0' = ts1 ++ tc :: ts0' := by
              simp
            rw [hre]
            exact hnodup
          -- recurse
          obtain ⟨g2, ns2, d2, hfold2, hlen2, hfr2, hreg2, hgna2, hf22⟩ :=
            ihc ts0' (ts1 ++ [tc]) gN (ns ++ [g.length])
              (dictPut d rcp.eid (g.length : Addr)) hm2
              (fun tz hz => hall tz (List.mem_cons_of_mem _ hz))
              hkeysN hnodupN hltN hfrN hregN hgnaN hf2N
          refine ⟨g2, ns2, d2, ?_, by omega, hfr2, hreg2, hgna2, ?_⟩
          · rw [List.foldlM_cons]
            have hone : ((do
                let pr ← copyE fuel g c
                addE pr.1 h.length pr.2) : Except PyErr Heap) = .ok gN := by
              rw [hcopy]
              exact haddE2
            rw [hone]
            exact hfold2
          · have hre : ts1 ++ tc :: ts0' = (ts1 ++ [tc]) ++ ts0' := by
              simp
            rw [hre]
            exact hf22
      -- apply the fold lemma to the full child list
      obtain ⟨g2, ns2, d2, hfoldr, hlen2, hfr2, hreg2, hgna2, hf22⟩ :=
        hfold r.childList cs [] h1 [] [] hm hndkids rfl
          (by rw [List.nil_append]; exact hndids)
          (by omega) hfr1 hreg1 (by rw [hg1na]) List.Forall₂.nil
      have hmapg2 : ns2.mapM (extract4 fuel g2) = some cs := by
        refine mapM_option_eq_some.mpr ?_
        have hcs : ([] : List PTree) ++ cs = cs := List.nil_append cs
        rw [← hcs]
        refine List.Forall₂.imp ?_ hf22
        intro nc tcn hprop
        exact hprop.2.2.1
      refine ⟨g2, ?_, by omega, hfr2, hreg2, ?_, ?_⟩
      · rw [copyE_succ_eq hr, hfoldr]
        rfl
      · rw [extract4_succ_node hgna2 (by simp [hw]) (by simpa using hla)]
        rw [show ({ r with
            childList := ns2
            childDict := d2
            parent := none } : NodeRec).childList = ns2 from rfl]
        rw [hmapg2, Option.map_some', hta]
      · rw [hgna2]
        rfl

end Entity

namespace Entity

theorem ptreeNodup_intro {e : EId} {lv : Level} {co : Vec3} {cs : List PTree}
    (h1 : (ptreeIds cs).Nodup) (h2 : ∀ c ∈ cs, ptreeNodup c = true) :
    ptreeNodup (.node e lv co cs) = true := by
  unfold ptreeNodup
  simp only [Bool.and_eq_true, decide_eq_true_eq, List.all_eq_true]
  exact ⟨h1, fun c _ => h2 c.1 c.2⟩

/-- C6: `copy` is a deep structural clone.  For a well-formed subtree
(one that extracts to a pure tree with duplicate-free sibling ids at
every node), `copy` succeeds, allocates the clone at the end of the
heap, leaves the original untouched, detaches the clone's parent, and
the clone extracts to the *same* pure tree — ids, levels, coordinates
and insertion order of all children preserved — so the round trip
`n.copy().strictly_equals(n, compare_coordinates=True)` holds. -/
theorem C6_copy_roundtrip {fuel : Nat} {h : Heap} {n : Addr} {t : PTree}
    (hx : extract4 fuel h n = some t) (hnd : ptreeNodup t = true) :
    ∃ h2, copyE fuel h n = .ok (h2, h.length) ∧
      (∀ x, x < h.length → hget h2 x = hget h x) ∧
      (hget h2 h.length).map NodeRec.parent = some none ∧
      extract4 fuel h2 h.length = some t ∧
      extract4 fuel h2 n = some t ∧
      strictlyEquals fuel h2 h.length n true = .ok true := by
  obtain ⟨h2, hok, hlen, hfr, hreg, hxc, hpar⟩ := copyE_spec hx hnd
  have hagree : ∀ y ∈ xsub fuel h n, exAt h h2 y := by
    intro y hy
    obtain ⟨ry, hry⟩ := xsub_valid hx y hy
    unfold exAt
    rw [hfr y (hget_some_lt hry)]
  have hxn : extract4 fuel h2 n = some t := by
    rw [extract4_congr hagree]
    exact hx
  exact ⟨h2, hok, hfr, hpar, hxc, hxn, se_of_extract true hxc hxn⟩

/-- The pure shape of the subtree at the root of `hSync`. -/
def tSync : PTree :=
  PTree.node (EId.s "P") Level.S (0, 0, 0)
    [PTree.node (EId.s "X") Level.C (0, 0, 0) [],
     PTree.node (EId.s "Y") Level.C (0, 0, 0) []]

theorem tSync_nodup : ptreeNodup tSync = true := by
  refine ptreeNodup_intro (by decide) ?_
  intro c hc
  rcases List.mem_cons.mp hc with rfl | hc2
  · exact ptreeNodup_intro (by decide)
      (fun c2 hc2 => absurd hc2 (List.not_mem_nil c2))
  · rcases List.mem_cons.mp hc2 with rfl | hc3
    · exact ptreeNodup_intro (by decide)
        (fun c2 hc2 => absurd hc2 (List.not_mem_nil c2))
    · exact absurd hc3 (List.not_mem_nil c)

theorem C6_copy_roundtrip_witness :
    ∃ h2, copyE (heapFuel hSync) hSync 0 = .ok (h2, hSync.length) ∧
      (∀ x, x < hSync.length → hget h2 x = hget hSync x) ∧
      (hget h2 hSync.length).map NodeRec.parent = some none ∧
      extract4 (heapFuel hSync) h2 hSync.length = some tSync ∧
      extract4 (heapFuel hSync) h2 0 = some tSync ∧
      strictlyEquals (heapFuel hSync) h2 hSync.length 0 true = .ok true :=
  @C6_copy_roundtrip (heapFuel hSync) hSync 0 tSync (by rfl) tSync_nodup

end Entity
